import Mathlib

/-!
# EDID extraction (`extract_edids.c`): shallow embedding and verified properties

The mapped file is a list of bytes (`FileRec.start`, whose length is the C
field `length`) together with the bytes that happen to follow the mapping in
memory (`FileRec.beyond`) and the cursor (`FileRec.current`, an offset from
`start`).  A C read `pFile->current[i]` is `FileRec.peek`: it yields the byte
when the address lies in `start ++ beyond` and is a memory fault otherwise.

Every C function becomes a function into `Res`: it either returns
(`Res.ret`), reads outside the modelled memory (`Res.fault`), or, for the
loops, runs out of the iteration budget handed to it (`Res.fuel`).
-/

namespace ExtractEdids

/-! ## Results, bytes and character classes -/

/-- Outcome of running a C function of the model. -/
inductive Res (α : Type) where
  /-- the function returned -/
  | ret (a : α) : Res α
  /-- the function read a byte outside the modelled memory -/
  | fault : Res α
  /-- the iteration budget of a loop was used up -/
  | fuel : Res α
deriving DecidableEq, Repr

/-- Sequencing of two steps of the model. -/
def Res.bind {α β : Type} (r : Res α) (f : α → Res β) : Res β :=
  match r with
  | .ret a => f a
  | .fault => .fault
  | .fuel => .fuel

/-- The bytes of an ASCII string literal. -/
def bytesOf (s : String) : List Nat := s.toList.map Char.toNat

/-- C `isspace` in the "C" locale: space, `\t`, `\n`, `\v`, `\f`, `\r`. -/
def isspace (c : Nat) : Bool := c == 32 || (9 ≤ c && c ≤ 13)

/-- The macro `IS_HEX`. -/
def IS_HEX (n : Nat) : Bool :=
  (('0'.toNat ≤ n) && (n ≤ '9'.toNat)) ||
  (('a'.toNat ≤ n) && (n ≤ 'f'.toNat)) ||
  (('A'.toNat ≤ n) && (n ≤ 'F'.toNat))

/-- The macro `HEX_TO_NIBBLE`. -/
def HEX_TO_NIBBLE (n : Nat) : Nat :=
  if ('0'.toNat ≤ n) && (n ≤ '9'.toNat) then n - '0'.toNat
  else if ('a'.toNat ≤ n) && (n ≤ 'f'.toNat) then (n - 'a'.toNat) + 10
  else if ('A'.toNat ≤ n) && (n ≤ 'F'.toNat) then (n - 'A'.toNat) + 10
  else 0

/-- The macro `NIBBLE_TO_HEX` (lower-case digits). -/
def NIBBLE_TO_HEX (n : Nat) : Nat :=
  if n ≤ 9 then '0'.toNat + n else 'a'.toNat - 10 + n

def LOG_FILE : Nat := 10
def TEXT_FILE : Nat := 20
def UNKNOWN_FILE : Nat := 30

def STATE_LOOKING_FOR_TOP_NIBBLE : Nat := 0
def STATE_LOOKING_FOR_BOTTOM_NIBBLE : Nat := 1
def STATE_LOOKING_FOR_END_OF_LABEL : Nat := 2

def MAX_EDID_SIZE : Nat := 4096

/-! ## The data model -/

/-- The struct `EdidRec`; a null pointer is `none`. `name` holds the
allocated buffer, terminating NUL included. -/
structure EdidRec where
  size : Nat
  bytes : Option (List Nat)
  name : Option (List Nat)
deriving DecidableEq, Repr

/-- A record fresh from `nvalloc(sizeof(EdidRec))`, which zero-fills. -/
def EdidRec.fresh : EdidRec := ⟨0, none, none⟩

/-- The characters of a C string held in a buffer: those before the first NUL. -/
def cString (buf : List Nat) : List Nat := buf.takeWhile (fun c => c != 0)

/-- The name of a record as the C string the program prints with `%s`. -/
def EdidRec.nameString (e : EdidRec) : Option (List Nat) := e.name.map cString

/-- The struct `FileRec`: `start` is the mapped view (its length is the C
field `length`), `beyond` the memory that follows the mapping, `current`
the cursor as an offset from `start`. -/
structure FileRec where
  start : List Nat
  beyond : List Nat
  current : Nat
deriving DecidableEq, Repr

/-- The C field `length`. -/
def FileRec.length (pFile : FileRec) : Nat := pFile.start.length

/-- The memory from `start` on: the view, then what follows it. -/
def FileRec.mem (pFile : FileRec) : List Nat := pFile.start ++ pFile.beyond

/-- The read `pFile->current[i]`; `none` is a read outside the memory. -/
def FileRec.peek (pFile : FileRec) (i : Nat) : Option Nat :=
  pFile.mem[pFile.current + i]?

/-- The cursor moved forward by `n`. -/
def FileRec.advance (pFile : FileRec) (n : Nat) : FileRec :=
  { pFile with current := pFile.current + n }

/-- The chain `current[0] == l0 && current[1] == l1 && ...` of comparisons
against a literal; every use is guarded by a length check that keeps the
compared bytes inside the view. -/
def FileRec.litAt (pFile : FileRec) (lit : List Nat) : Bool :=
  lit.isPrefixOf (pFile.mem.drop pFile.current)

/-- `strncpy(dst, src, n)`: copies up to the first NUL of `src`, at most `n`
bytes, and fills the rest of the `n` bytes with NUL. -/
def strncpy (src : List Nat) (n : Nat) : List Nat :=
  let s := cString (src.take n)
  s ++ List.replicate (n - s.length) 0

def HEADER : List Nat := bytesOf "Raw EDID bytes:"
def FOOTER : List Nat := bytesOf "--- End of EDID for "
def TERMINATOR : List Nat := bytesOf " ---"
def EDID_VERSION : List Nat := bytesOf "EDID Version"
def MONITOR_NAME : List Nat := bytesOf "Monitor Name"
def CRLF : List Nat := [13, 10]

/-! ## The scanners -/

/-- The loop of `findEdidHeaderforLogFile`. -/
def findEdidHeaderforLogFile.loop : Nat → FileRec → Res (Bool × FileRec)
  | 0, _ => .fuel
  | n + 1, pFile =>
    if pFile.current + 15 ≤ pFile.length then
      if pFile.litAt HEADER then .ret (true, pFile.advance 15)
      else findEdidHeaderforLogFile.loop n (pFile.advance 1)
    else .ret (false, pFile)

/-- The function `findEdidHeaderforLogFile`. -/
def findEdidHeaderforLogFile (pFile : FileRec) : Res (Bool × FileRec) :=
  findEdidHeaderforLogFile.loop (pFile.length + 1) pFile

/-- The loop of `findEdidfooterforTextFile`. -/
def findEdidfooterforTextFile.loop : Nat → FileRec → Res (Bool × FileRec)
  | 0, _ => .fuel
  | n + 1, pFile =>
    if pFile.current + 12 ≤ pFile.length then
      if pFile.litAt EDID_VERSION then .ret (true, { pFile with current := 0 })
      else findEdidfooterforTextFile.loop n (pFile.advance 1)
    else .ret (false, pFile)

/-- The function `findEdidfooterforTextFile`. -/
def findEdidfooterforTextFile (pFile : FileRec) : Res (Bool × FileRec) :=
  findEdidfooterforTextFile.loop (pFile.length + 1) { pFile with current := 0 }

/-- The function `findFileType`. -/
def findFileType (pFile : FileRec) : Res (Nat × FileRec) :=
  (findEdidHeaderforLogFile pFile).bind fun r =>
    if r.1 then .ret (LOG_FILE, r.2)
    else (findEdidfooterforTextFile r.2).bind fun r =>
      if r.1 then .ret (TEXT_FILE, r.2) else .ret (UNKNOWN_FILE, r.2)

/-- The state machine of `readEdidDataforLogFile`: one iteration of
`while(1)` per unit of fuel. The result is `(true, ..)` at `goto done` and
`(false, ..)` at `goto fail`, with the cursor, `k` and `pData` at that point. -/
def readEdidDataforLogFile.loop :
    Nat → FileRec → Nat → Nat → List Nat → Res (Bool × FileRec × Nat × List Nat)
  | 0, _, _, _, _ => .fuel
  | n + 1, pFile, state, k, pData =>
    match pFile.peek 0 with
    | none => .fault
    | some c =>
      let nextChar := fun (state k : Nat) (pData : List Nat) =>
        if pFile.current ≥ pFile.length then .ret (false, pFile, k, pData)
        else readEdidDataforLogFile.loop n (pFile.advance 1) state k pData
      if state = STATE_LOOKING_FOR_TOP_NIBBLE then
        if c = '\n'.toNat then nextChar STATE_LOOKING_FOR_END_OF_LABEL k pData
        else if isspace c then nextChar STATE_LOOKING_FOR_TOP_NIBBLE k pData
        else if IS_HEX c then
          nextChar STATE_LOOKING_FOR_BOTTOM_NIBBLE k
            (pData.set k (pData.getD k 0 ||| (HEX_TO_NIBBLE c <<< 4)))
        else if c = '-'.toNat then .ret (true, pFile, k, pData)
        else .ret (false, pFile, k, pData)
      else if state = STATE_LOOKING_FOR_BOTTOM_NIBBLE then
        if IS_HEX c then
          let pData := pData.set k (pData.getD k 0 ||| HEX_TO_NIBBLE c)
          let k := k + 1
          if k ≥ MAX_EDID_SIZE then .ret (false, pFile, k, pData)
          else nextChar STATE_LOOKING_FOR_TOP_NIBBLE k pData
        else .ret (false, pFile, k, pData)
      else if state = STATE_LOOKING_FOR_END_OF_LABEL then
        if c = ':'.toNat then nextChar STATE_LOOKING_FOR_TOP_NIBBLE k pData
        else nextChar state k pData
      else .ret (false, pFile, k, pData)

/-- The part of the two decoders after the state machine: labels `done` and
`fail`. -/
def saveEdidData (pEdid : EdidRec) (r : Bool × FileRec × Nat × List Nat) :
    Bool × FileRec × EdidRec :=
  if r.1 then
    if r.2.2.1 ≤ 0 then (false, r.2.1, pEdid)
    else (true, r.2.1, { pEdid with size := r.2.2.1, bytes := some (r.2.2.2.take r.2.2.1) })
  else (false, r.2.1, pEdid)

/-- The function `readEdidDataforLogFile`. -/
def readEdidDataforLogFile (pFile : FileRec) (pEdid : EdidRec) :
    Res (Bool × FileRec × EdidRec) :=
  (readEdidDataforLogFile.loop (pFile.length + 2) pFile STATE_LOOKING_FOR_TOP_NIBBLE 0
    (List.replicate MAX_EDID_SIZE 0)).bind fun r => .ret (saveEdidData pEdid r)

/-- The state machine of `readEdidDataforTextFile`. -/
def readEdidDataforTextFile.loop :
    Nat → FileRec → Nat → Nat → List Nat → Res (Bool × FileRec × Nat × List Nat)
  | 0, _, _, _, _ => .fuel
  | n + 1, pFile, state, k, pData =>
    match pFile.peek 0 with
    | none => .fault
    | some c =>
      let nextChar := fun (state k : Nat) (pData : List Nat) =>
        if pFile.current ≥ pFile.length then .ret (false, pFile, k, pData)
        else readEdidDataforTextFile.loop n (pFile.advance 1) state k pData
      if state = STATE_LOOKING_FOR_TOP_NIBBLE then
        if IS_HEX c then
          nextChar STATE_LOOKING_FOR_BOTTOM_NIBBLE k
            (pData.set k (pData.getD k 0 ||| (HEX_TO_NIBBLE c <<< 4)))
        else if c = '-'.toNat then nextChar STATE_LOOKING_FOR_TOP_NIBBLE k pData
        else if isspace c then
          match pFile.peek 1 with
          | none => .fault
          | some c1 =>
            if isspace c1 then nextChar STATE_LOOKING_FOR_END_OF_LABEL k pData
            else nextChar STATE_LOOKING_FOR_TOP_NIBBLE k pData
        else .ret (false, pFile, k, pData)
      else if state = STATE_LOOKING_FOR_BOTTOM_NIBBLE then
        if IS_HEX c then
          let pData := pData.set k (pData.getD k 0 ||| HEX_TO_NIBBLE c)
          let k := k + 1
          if k ≥ MAX_EDID_SIZE then .ret (false, pFile, k, pData)
          else nextChar STATE_LOOKING_FOR_TOP_NIBBLE k pData
        else .ret (false, pFile, k, pData)
      else if state = STATE_LOOKING_FOR_END_OF_LABEL then
        if c = '\r'.toNat then
          match pFile.peek 1 with
          | none => .fault
          | some c1 =>
            if c1 = '\n'.toNat then
              match pFile.peek 2 with
              | none => .fault
              | some c2 =>
                if c2 = '\r'.toNat then
                  match pFile.peek 3 with
                  | none => .fault
                  | some c3 =>
                    if c3 = '\n'.toNat then .ret (true, pFile, k, pData)
                    else nextChar STATE_LOOKING_FOR_TOP_NIBBLE k pData
                else nextChar STATE_LOOKING_FOR_TOP_NIBBLE k pData
            else nextChar STATE_LOOKING_FOR_END_OF_LABEL k pData
        else nextChar STATE_LOOKING_FOR_END_OF_LABEL k pData
      else .ret (false, pFile, k, pData)

/-- The function `readEdidDataforTextFile`. -/
def readEdidDataforTextFile (pFile : FileRec) (pEdid : EdidRec) :
    Res (Bool × FileRec × EdidRec) :=
  (readEdidDataforTextFile.loop (pFile.length + 2) pFile STATE_LOOKING_FOR_TOP_NIBBLE 0
    (List.replicate MAX_EDID_SIZE 0)).bind fun r => .ret (saveEdidData pEdid r)

/-- The value that a pointer difference `n >= 0` takes when it is assigned to a
C `int`: the low 32 bits, read in two's complement. -/
def toInt32 (n : Nat) : Int :=
  if n % 4294967296 < 2147483648 then Int.ofNat (n % 4294967296)
  else Int.ofNat (n % 4294967296) - 4294967296

/-- The capture of a name between `begin` and the cursor, shared by the
footer and the monitor-name parser: `int len = pFile->current - begin`, the
length test, `nvalloc(len + 1)`, `strncpy` and the terminating NUL. -/
def captureName (pFile : FileRec) (begin : Nat) (pEdid : EdidRec) :
    Bool × FileRec × EdidRec :=
  let len : Int := toInt32 (pFile.current - begin)
  if len > 512 || len < 1 then (false, pFile, pEdid)
  else (true, pFile,
    { pEdid with name := some (strncpy (pFile.mem.drop begin) len.toNat ++ [0]) })

/-- The terminator search loop of `readEdidFooterforLogFile`. -/
def readEdidFooterforLogFile.loop :
    Nat → FileRec → Nat → EdidRec → Res (Bool × FileRec × EdidRec)
  | 0, _, _, _ => .fuel
  | n + 1, pFile, begin, pEdid =>
    if pFile.current + 5 ≤ pFile.length then
      if pFile.litAt TERMINATOR then .ret (captureName pFile begin pEdid)
      else readEdidFooterforLogFile.loop n (pFile.advance 1) begin pEdid
    else .ret (false, pFile, pEdid)

/-- The function `readEdidFooterforLogFile`. -/
def readEdidFooterforLogFile (pFile : FileRec) (pEdid : EdidRec) :
    Res (Bool × FileRec × EdidRec) :=
  if pFile.current + 20 > pFile.length then .ret (false, pFile, pEdid)
  else if !pFile.litAt FOOTER then .ret (false, pFile, pEdid)
  else
    let pFile := pFile.advance 20
    readEdidFooterforLogFile.loop (pFile.length + 1) pFile pFile.current pEdid

/-- The label search loop of `readMonitorNameforTextFile`; `true` is the
jump to `next`. -/
def readMonitorNameforTextFile.find : Nat → FileRec → Res (Bool × FileRec)
  | 0, _ => .fuel
  | n + 1, pFile =>
    if pFile.current + 12 ≤ pFile.length then
      if pFile.litAt MONITOR_NAME then .ret (true, pFile.advance 12)
      else readMonitorNameforTextFile.find n (pFile.advance 1)
    else .ret (false, pFile)

/-- The loop `while (pFile->current[0] != ':') pFile->current++;`, which
has no bound check. -/
def readMonitorNameforTextFile.colon : Nat → FileRec → Res FileRec
  | 0, _ => .fuel
  | n + 1, pFile =>
    match pFile.peek 0 with
    | none => .fault
    | some c =>
      if c ≠ ':'.toNat then readMonitorNameforTextFile.colon n (pFile.advance 1)
      else .ret pFile

/-- The end-of-name search loop of `readMonitorNameforTextFile`. -/
def readMonitorNameforTextFile.loop :
    Nat → FileRec → Nat → EdidRec → Res (Bool × FileRec × EdidRec)
  | 0, _, _, _ => .fuel
  | n + 1, pFile, begin, pEdid =>
    if pFile.current + 2 ≤ pFile.length then
      if pFile.litAt CRLF then .ret (captureName pFile begin pEdid)
      else readMonitorNameforTextFile.loop n (pFile.advance 1) begin pEdid
    else .ret (false, pFile, pEdid)

/-- The function `readMonitorNameforTextFile`. -/
def readMonitorNameforTextFile (pFile : FileRec) (pEdid : EdidRec) :
    Res (Bool × FileRec × EdidRec) :=
  (readMonitorNameforTextFile.find (pFile.length + 1) pFile).bind fun r =>
    if !r.1 then .ret (false, r.2, pEdid)
    else
      (readMonitorNameforTextFile.colon (r.2.mem.length + 1) r.2).bind fun pFile =>
        let pFile := pFile.advance 2
        readMonitorNameforTextFile.loop (pFile.length + 1) pFile pFile.current pEdid

/-- The function `findEdidforLogFile`; `none` is the null pointer. -/
def findEdidforLogFile (pFile : FileRec) : Res (Option EdidRec × FileRec) :=
  let pEdid := EdidRec.fresh
  (findEdidHeaderforLogFile pFile).bind fun r =>
    if !r.1 then .ret (none, r.2)
    else (readEdidDataforLogFile r.2 pEdid).bind fun r =>
      if !r.1 then .ret (none, r.2.1)
      else (readEdidFooterforLogFile r.2.1 r.2.2).bind fun r =>
        if !r.1 then .ret (none, r.2.1)
        else .ret (some r.2.2, r.2.1)

/-- The function `findEdidforTextFile`. -/
def findEdidforTextFile (pFile : FileRec) : Res (Option EdidRec × FileRec) :=
  let pEdid := EdidRec.fresh
  (readEdidDataforTextFile pFile pEdid).bind fun r =>
    if !r.1 then .ret (none, r.2.1)
    else (readMonitorNameforTextFile r.2.1 r.2.2).bind fun r =>
      if !r.1 then .ret (none, r.2.1)
      else .ret (some r.2.2, r.2.1)

/-- The `while(1)` loop of `extract_edids` that builds the list `pEdids`. -/
def extract_edids.scan : Nat → Nat → FileRec → List EdidRec → Res (List EdidRec × FileRec)
  | 0, _, _, _ => .fuel
  | n + 1, fileType, pFile, pEdids =>
    (if fileType = LOG_FILE then findEdidforLogFile pFile
     else .ret (none, pFile)).bind fun r1 =>
    (if fileType = TEXT_FILE then findEdidforTextFile r1.2
     else .ret (r1.1, r1.2)).bind fun r2 =>
      match r2.1 with
      | none => .ret (pEdids, r2.2)
      | some pEdid =>
        let pEdids := pEdids ++ [pEdid]
        if fileType = TEXT_FILE then .ret (pEdids, r2.2)
        else extract_edids.scan n fileType r2.2 pEdids

/-- What a run of `extract_edids` shows: its return value, the count of the
line "Found %d EDID%s", and the write attempts in order with their outcomes. -/
structure Report where
  funcRet : Bool
  nEdids : Nat
  writes : List (EdidRec × Bool)
deriving DecidableEq, Repr

/-- The loop `for (i = 0; i < nEdids; i++)` of `extract_edids`. The function
`writeEdidFile` acts on the file system, which is outside the model: the
outcome of the `i`-th call is given by `writeEdidFile i`. -/
def extract_edids.writeLoop (writeEdidFile : Nat → EdidRec → Bool) :
    Nat → List EdidRec → Bool → List (EdidRec × Bool) → Bool × List (EdidRec × Bool)
  | _, [], funcRet, writes => (funcRet, writes)
  | i, pEdid :: pEdids, _, writes =>
    let funcRet := writeEdidFile i pEdid
    extract_edids.writeLoop writeEdidFile (i + 1) pEdids funcRet (writes ++ [(pEdid, funcRet)])

/-- The part of `extract_edids` after the label `done`. -/
def extract_edids.done (writeEdidFile : Nat → EdidRec → Bool) (funcRet : Bool)
    (pEdids : List EdidRec) : Report :=
  let w := extract_edids.writeLoop writeEdidFile 0 pEdids funcRet []
  ⟨w.1, pEdids.length, w.2⟩

/-- The function `extract_edids`. The source is `none` when `open`, `fstat`
or `mmap` fails, and otherwise the bytes of the file with the memory that
follows the mapping. -/
def extract_edids (source : Option (List Nat × List Nat))
    (writeEdidFile : Nat → EdidRec → Bool) : Res Report :=
  match source with
  | none => .ret (extract_edids.done writeEdidFile false [])
  | some (bytes, beyond) =>
    if bytes.length = 0 then .ret (extract_edids.done writeEdidFile false [])
    else
      let file : FileRec := ⟨bytes, beyond, 0⟩
      (findFileType file).bind fun r =>
        let fileType := r.1
        let file := r.2
        if fileType = UNKNOWN_FILE then .ret (extract_edids.done writeEdidFile true [])
        else
          let file := if fileType = LOG_FILE then { file with current := 0 } else file
          (extract_edids.scan (file.length + 1) fileType file []).bind fun s =>
            .ret (extract_edids.done writeEdidFile true s.1)

/-! ## Definitions used to state the properties -/

/-- The generic forward search that the literal searches instantiate: it stops
with `true` on the first position, from the cursor on, where `lit` stands
and at least `need` bytes of the view remain. -/
def search (need : Nat) (lit : List Nat) : Nat → FileRec → Res (Bool × FileRec)
  | 0, _ => .fuel
  | n + 1, pFile =>
    if pFile.current + need ≤ pFile.length then
      if pFile.litAt lit then .ret (true, pFile)
      else search need lit n (pFile.advance 1)
    else .ret (false, pFile)

/-- Where a search that finds nothing leaves the cursor. -/
def restCursor (need : Nat) (pFile : FileRec) : Nat :=
  if pFile.current + need ≤ pFile.length then pFile.length + 1 - need else pFile.current

/-- A hex digit for the nibble `v`: `NIBBLE_TO_HEX`, or its upper-case form. -/
def hexDigit (upper : Bool) (v : Nat) : Nat :=
  if upper && decide (9 < v) then 'A'.toNat - 10 + v else NIBBLE_TO_HEX v

/-- One token of a well-formed log-style hex stream. -/
inductive LogItem where
  /-- a whitespace character other than the newline -/
  | space (c : Nat) : LogItem
  /-- a newline, a label text and the colon that ends it -/
  | label (txt : List Nat) : LogItem
  /-- the byte `b` as two hex digits, each in upper or lower case -/
  | byte (b : Nat) (u1 u2 : Bool) : LogItem
deriving DecidableEq, Repr

/-- The characters of a token. -/
def LogItem.render : LogItem → List Nat
  | .space c => [c]
  | .label txt => 10 :: (txt ++ [58])
  | .byte b u1 u2 => [hexDigit u1 (b / 16), hexDigit u2 (b % 16)]

/-- Well-formedness of a token. -/
def LogItem.wf : LogItem → Bool
  | .space c => isspace c && c != 10
  | .label txt => !txt.contains 58
  | .byte b _ _ => decide (b < 256)

/-- The bytes a token stands for. -/
def LogItem.bytes : LogItem → List Nat
  | .byte b _ _ => [b]
  | _ => []

/-- The characters of a token stream. -/
def renderLog : List LogItem → List Nat
  | [] => []
  | i :: items => i.render ++ renderLog items

/-- The bytes a token stream stands for. -/
def bytesLog : List LogItem → List Nat
  | [] => []
  | i :: items => i.bytes ++ bytesLog items

/-- The scratch buffer `pData` when the bytes `done` have been decoded. -/
def scratch (done : List Nat) : List Nat :=
  done ++ List.replicate (MAX_EDID_SIZE - done.length) 0


/-- One token of a text-style hex table, as the text decoder reads it. -/
inductive TextItem where
  /-- the separator `-` -/
  | dash : TextItem
  /-- a single whitespace character, followed by a character that is not one -/
  | space (c : Nat) : TextItem
  /-- the byte `b` as two hex digits, each in upper or lower case -/
  | byte (b : Nat) (u1 u2 : Bool) : TextItem
  /-- a whitespace character `gap` followed by another one: what follows, up to
  and including the CR of the next CR LF pair, is skipped -/
  | skip (gap : Nat) (col : List Nat) : TextItem
deriving DecidableEq, Repr

/-- The characters of a token. -/
def TextItem.render : TextItem → List Nat
  | .dash => [45]
  | .space c => [c]
  | .byte b u1 u2 => [hexDigit u1 (b / 16), hexDigit u2 (b % 16)]
  | .skip gap col => gap :: (col ++ [13])

/-- The bytes a token stands for. -/
def TextItem.bytes : TextItem → List Nat
  | .byte b _ _ => [b]
  | _ => []

/-- Well-formedness of a token in front of the characters `follow`. -/
def TextItem.ok : TextItem → List Nat → Bool
  | .dash, _ => true
  | .space c, follow =>
    isspace c && (match follow with
      | d :: _ => !isspace d
      | [] => false)
  | .byte b _ _, _ => decide (b < 256)
  | .skip gap col, follow =>
    isspace gap && isspace ((col ++ [13]).headD 0) && decide (¬ CRLF <:+: col) &&
      (match follow with
        | 10 :: d :: more => d != 13 || (match more with
          | x :: _ => x != 10
          | [] => false)
        | _ => false)

/-- The characters of a token stream. -/
def renderText : List TextItem → List Nat
  | [] => []
  | i :: items => i.render ++ renderText items

/-- The bytes a token stream stands for. -/
def bytesText : List TextItem → List Nat
  | [] => []
  | i :: items => i.bytes ++ bytesText items

/-- Well-formedness of a token stream in front of the characters `follow`. -/
def wfText : List TextItem → List Nat → Bool
  | [], _ => true
  | i :: items, follow => i.ok (renderText items ++ follow) && wfText items follow


/-- A hex pair of a table row: the byte and the case of its two digits. -/
structure HexPair where
  b : Nat
  u1 : Bool
  u2 : Bool
deriving DecidableEq, Repr

/-- The two characters of a hex pair. -/
def HexPair.render (h : HexPair) : List Nat :=
  [hexDigit h.u1 (h.b / 16), hexDigit h.u2 (h.b % 16)]

/-- A row of a text-style table: a first hex pair, further pairs each after a
separator character, a whitespace character `gap`, the rest of the line
`column` (which starts with a second whitespace character), and CR LF. -/
structure TextRow where
  first : HexPair
  more : List (Nat × HexPair)
  gap : Nat
  column : List Nat
deriving DecidableEq, Repr

/-- The characters of the pairs of a row after the first. -/
def renderMore : List (Nat × HexPair) → List Nat
  | [] => []
  | m :: more => m.1 :: (m.2.render ++ renderMore more)

/-- The characters of a row, CR LF included. -/
def TextRow.render (row : TextRow) : List Nat :=
  row.first.render ++ renderMore row.more ++ row.gap :: (row.column ++ CRLF)

/-- The bytes of a row. -/
def TextRow.bytes (row : TextRow) : List Nat :=
  row.first.b :: row.more.map (fun m => m.2.b)

/-- Well-formedness of a row: separators are a single space or a single `-`,
bytes are below 256, the pairs are followed by at least two whitespace
characters, and the rest of the line holds no CR LF. -/
def TextRow.wf (row : TextRow) : Bool :=
  decide (row.first.b < 256) &&
  row.more.all (fun m => (m.1 == 32 || m.1 == 45) && decide (m.2.b < 256)) &&
  isspace row.gap &&
  (match row.column with
    | w :: _ => isspace w
    | [] => false) &&
  decide (¬ CRLF <:+: row.column)

/-- The characters of a sequence of rows. -/
def renderRows : List TextRow → List Nat
  | [] => []
  | row :: rows => row.render ++ renderRows rows

/-- The bytes of a sequence of rows. -/
def bytesRows : List TextRow → List Nat
  | [] => []
  | row :: rows => row.bytes ++ bytesRows rows

/-- The tokens of the pairs of a row after the first. -/
def moreItems : List (Nat × HexPair) → List TextItem
  | [] => []
  | m :: more =>
    (if m.1 = 45 then TextItem.dash else TextItem.space m.1) ::
      TextItem.byte m.2.b m.2.u1 m.2.u2 :: moreItems more

/-- The tokens of the pairs of a row. -/
def pairItems (row : TextRow) : List TextItem :=
  TextItem.byte row.first.b row.first.u1 row.first.u2 :: moreItems row.more

/-- The tokens of a row that is followed by another row. -/
def rowItems (row : TextRow) : List TextItem :=
  pairItems row ++ [TextItem.skip row.gap row.column, TextItem.space 10]

/-- The tokens of a sequence of rows each followed by another row. -/
def rowsItems : List TextRow → List TextItem
  | [] => []
  | row :: rows => rowItems row ++ rowsItems rows


/-- A header/data/footer triple of a log, with the text in front of it. -/
structure Triple where
  gap : List Nat
  items : List LogItem
  name : List Nat
deriving DecidableEq, Repr

/-- The characters of a triple: the text in front of it, the header, the hex
stream, the footer with the name, and a newline. -/
def Triple.render (t : Triple) : List Nat :=
  t.gap ++ (HEADER ++ (renderLog t.items ++ (FOOTER ++ (t.name ++ (TERMINATOR ++ [10])))))

/-- Well-formedness of a triple, except for the characters of its name: the
text in front does not contain the header, the stream holds 1 to 4095 byte
pairs, the name has 1 to 512 characters and does not contain ` ---`. -/
def Triple.wf (t : Triple) : Bool :=
  decide (¬ HEADER <:+: t.gap) && t.items.all LogItem.wf &&
  decide (1 ≤ (bytesLog t.items).length) && decide ((bytesLog t.items).length ≤ 4095) &&
  decide (1 ≤ t.name.length) && decide (t.name.length ≤ 512) &&
  decide (¬ TERMINATOR <:+: t.name)

/-- The record that the program builds from a triple: the name buffer is filled
by `strncpy` and closed by a NUL. -/
def Triple.record (t : Triple) : EdidRec :=
  ⟨(bytesLog t.items).length, some (bytesLog t.items),
    some (strncpy t.name t.name.length ++ [0])⟩

/-- The characters of a sequence of triples. -/
def renderTriples : List Triple → List Nat
  | [] => []
  | t :: ts => t.render ++ renderTriples ts


/-- Two sample triples in the style of a verbose X log. -/
def sampleTriples : List Triple :=
  [⟨bytesOf "(--) NVIDIA(0): ",
      [.label (bytesOf "(--) NVIDIA(0)"), .space 32, .byte 0 false false, .space 32,
        .byte 255 false false, .label (bytesOf "(--) NVIDIA(0)"), .space 32],
      bytesOf "ViewSonic VPD150 (DFP-1)"⟩,
    ⟨bytesOf "(II) unrelated text",
      [.label [], .byte 90 true true, .label (bytesOf "(--) NVIDIA(0)"), .space 32],
      bytesOf "CRT-0"⟩]

/-- A triple whose name holds a NUL character. -/
def nulTriple : Triple := ⟨[], [.label [], .byte 0 false false], [97, 0, 98]⟩

/-- A table row with 4096 pairs. -/
def bigRow : TextRow :=
  ⟨⟨171, false, true⟩, List.replicate 4095 (32, ⟨171, false, true⟩), 32, [32, 120]⟩

/-- A small text-style table: two rows. -/
def sampleRows : List TextRow :=
  [⟨⟨0, true, true⟩, [(32, ⟨255, true, true⟩), (45, ⟨6, true, true⟩), (32, ⟨16, true, false⟩)],
    32, bytesOf "   ...."⟩]

/-- The last row of the small table. -/
def sampleLast : TextRow :=
  ⟨⟨0, true, true⟩, [(32, ⟨65, true, true⟩), (45, ⟨10, true, true⟩), (32, ⟨136, true, true⟩)],
    32, bytesOf "   .A.."⟩


/-- The file name constant `EDID_OUTPUT_FILE_NAME`. -/
def EDID_OUTPUT_FILE_NAME : List Nat := bytesOf "edid.bin"

/-- The function `findFileName`. What it asks of its environment is given as
arguments: the helper `tilde_expansion`, whether `access(".", ...)` succeeds,
the value of `getenv("HOME")`, the field `pw_dir` of the account record (`none`
when `getpwuid` finds no record or the field is null), and `access` on a
directory. -/
def findFileName (tilde_expansion : List Nat → List Nat) (accessDot : Bool)
    (getenvHome pwDir : Option (List Nat)) (access : List Nat → Bool)
    (option : Option (List Nat)) : List Nat :=
  match option with
  | some o => tilde_expansion o
  | none =>
    if accessDot then bytesOf "./" ++ EDID_OUTPUT_FILE_NAME
    else
      let tmp := match getenvHome with
        | some h => some h
        | none => pwDir
      match tmp with
      | some t =>
        if access t then t ++ bytesOf "/" ++ EDID_OUTPUT_FILE_NAME
        else bytesOf "/tmp/" ++ EDID_OUTPUT_FILE_NAME
      | none => bytesOf "/tmp/" ++ EDID_OUTPUT_FILE_NAME

/-- The label that the X server puts in front of every line of a verbose log. -/
def NVIDIA_LABEL : List Nat := bytesOf "(--) NVIDIA(0)"

/-- The tokens of the pairs of one log line, each after a space. -/
def spacedBytes : List Nat → List LogItem
  | [] => []
  | b :: bs => .space 32 :: .byte b false false :: spacedBytes bs

/-- The tokens of a sequence of log lines, each a newline, the label with its
colon and the pairs of the line. -/
def labelledRows : List (List Nat) → List LogItem
  | [] => []
  | row :: rows => .label NVIDIA_LABEL :: (spacedBytes row ++ labelledRows rows)

/-- The bytes of a sequence of lines. -/
def rowBytes : List (List Nat) → List Nat
  | [] => []
  | row :: rows => row ++ rowBytes rows

/-- The log excerpt of the end-to-end example: a text in front, the header, the
labelled lines of hex pairs, and the labelled footer line with the name of the
display. -/
def exampleTriple (gap : List Nat) (rows : List (List Nat)) : Triple :=
  ⟨gap, labelledRows rows ++ [.label NVIDIA_LABEL, .space 32],
    bytesOf "ViewSonic VPD150 (DFP-1)"⟩

/-- Sixteen lines of sixteen pairs `00`. -/
def zeroRows : List (List Nat) := List.replicate 16 (List.replicate 16 0)

/-- The characters of a sequence of lines, each ended by `eol`. -/
def joinLines (eol : List Nat) : List String → List Nat
  | [] => []
  | l :: ls => bytesOf l ++ eol ++ joinLines eol ls

/-- The verbose-log dump of the header comment of `extract_edids.c`, every line
ended by a newline. -/
def documentedLog : List Nat :=
  joinLines [10]
    ["(--) NVIDIA(0): Raw EDID bytes:",
     "(--) NVIDIA(0):",
     "(--) NVIDIA(0):   00 ff ff ff ff ff ff 00  5a 63 47 4b fc 27 00 00",
     "(--) NVIDIA(0):   0f 0a 01 02 9e 1e 17 64  ee 04 85 a0 57 4a 9b 26",
     "(--) NVIDIA(0):   12 50 54 00 08 00 01 01  01 01 01 01 01 01 01 01",
     "(--) NVIDIA(0):   01 01 01 01 01 01 64 19  00 40 41 00 26 30 18 88",
     "(--) NVIDIA(0):   36 00 30 e4 10 00 00 18  00 00 00 ff 00 47 4b 30",
     "(--) NVIDIA(0):   31 35 31 30 32 33 36 0a  20 20 00 00 00 fc 00 56",
     "(--) NVIDIA(0):   69 65 77 53 6f 6e 69 63  20 56 50 44 00 00 00 fc",
     "(--) NVIDIA(0):   00 31 35 30 0a 20 20 20  20 20 20 20 20 20 00 ce",
     "(--) NVIDIA(0):",
     "(--) NVIDIA(0): --- End of EDID for ViewSonic VPD150 (DFP-1) ---"]

/-- The 128 bytes of the verbose-log dump of the header comment, row by row. -/
def documentedLogData : List (List Nat) :=
  [[0x00, 0xff, 0xff, 0xff, 0xff, 0xff, 0xff, 0x00, 0x5a, 0x63, 0x47, 0x4b, 0xfc, 0x27, 0x00, 0x00],
   [0x0f, 0x0a, 0x01, 0x02, 0x9e, 0x1e, 0x17, 0x64, 0xee, 0x04, 0x85, 0xa0, 0x57, 0x4a, 0x9b, 0x26],
   [0x12, 0x50, 0x54, 0x00, 0x08, 0x00, 0x01, 0x01, 0x01, 0x01, 0x01, 0x01, 0x01, 0x01, 0x01, 0x01],
   [0x01, 0x01, 0x01, 0x01, 0x01, 0x01, 0x64, 0x19, 0x00, 0x40, 0x41, 0x00, 0x26, 0x30, 0x18, 0x88],
   [0x36, 0x00, 0x30, 0xe4, 0x10, 0x00, 0x00, 0x18, 0x00, 0x00, 0x00, 0xff, 0x00, 0x47, 0x4b, 0x30],
   [0x31, 0x35, 0x31, 0x30, 0x32, 0x33, 0x36, 0x0a, 0x20, 0x20, 0x00, 0x00, 0x00, 0xfc, 0x00, 0x56],
   [0x69, 0x65, 0x77, 0x53, 0x6f, 0x6e, 0x69, 0x63, 0x20, 0x56, 0x50, 0x44, 0x00, 0x00, 0x00, 0xfc],
   [0x00, 0x31, 0x35, 0x30, 0x0a, 0x20, 0x20, 0x20, 0x20, 0x20, 0x20, 0x20, 0x20, 0x20, 0x00, 0xce]]

/-- The tokens of one row of the verbose-log dump: the label, two more spaces
in front of the row and one more in its middle. -/
def documentedRow (row : List Nat) : List LogItem :=
  .label NVIDIA_LABEL :: .space 32 :: .space 32 ::
    (spacedBytes (row.take 8) ++ .space 32 :: spacedBytes (row.drop 8))

/-- The tokens of the rows of the verbose-log dump. -/
def documentedRows : List (List Nat) → List LogItem
  | [] => []
  | row :: rows => documentedRow row ++ documentedRows rows

/-- The verbose-log dump as a triple: an empty labelled line, the rows, an
empty labelled line and the labelled footer line. -/
def documentedTriple : Triple :=
  ⟨bytesOf "(--) NVIDIA(0): ",
    .label NVIDIA_LABEL :: (documentedRows documentedLogData ++
      [.label NVIDIA_LABEL, .label NVIDIA_LABEL, .space 32]),
    bytesOf "ViewSonic VPD150 (DFP-1)"⟩

/-- The text-style dump of the header comment of `extract_edids.c`, followed by
a line with the name of the monitor, every line ended by CR LF. -/
def documentedText : List Nat :=
  joinLines CRLF
    ["00 FF FF FF FF FF FF 00-06 10 F4 01 01 01 01 01    ................",
     "27 08 01 01 28 1F 17 96-E8 44 E4 A1 57 4A 97 23    '...(....D..WJ.#",
     "19 4F 57 BF EE 00 01 01-01 01 01 01 01 01 01 01    .OW.............",
     "01 01 01 01 01 01 64 19-00 40 41 00 26 30 18 88    ......d..@A.&0..",
     "36 00 33 E6 10 00 00 18-40 1F 00 30 41 00 24 30    6.3.....@..0A.$0",
     "20 60 33 00 33 E6 10 00-00 18 00 00 00 FD 00 38     `3.3..........8",
     "4C 1F 3D 08 00 0A 20 20-20 20 20 20 00 00 00 FC    L.=...      ....",
     "00 41 70 70 6C 65 53 74-75 64 69 6F 0A 20 00 88    .AppleStudio. ..",
     "",
     "EDID Version                : 1.1",
     "Monitor Name : AppleStudio"]

/-- The pairs of a row of the text-style dump after the first: a `-` in front
of the ninth pair of the row, a space in front of the others. -/
def tablePairs : Nat → List Nat → List (Nat × HexPair)
  | _, [] => []
  | i, b :: bs => ((if i = 8 then 45 else 32), ⟨b, true, true⟩) :: tablePairs (i + 1) bs

/-- A row of the text-style dump: its bytes, and the text column that follows
four spaces. -/
def tableRow (row : List Nat) (column : String) : TextRow :=
  ⟨⟨row.headD 0, true, true⟩, tablePairs 1 row.tail, 32, bytesOf "   " ++ bytesOf column⟩

/-- The first seven rows of the text-style dump. -/
def documentedTextRows : List TextRow :=
  [tableRow [0x00, 0xFF, 0xFF, 0xFF, 0xFF, 0xFF, 0xFF, 0x00, 0x06, 0x10, 0xF4, 0x01, 0x01, 0x01,
      0x01, 0x01] "................",
   tableRow [0x27, 0x08, 0x01, 0x01, 0x28, 0x1F, 0x17, 0x96, 0xE8, 0x44, 0xE4, 0xA1, 0x57, 0x4A,
      0x97, 0x23] "'...(....D..WJ.#",
   tableRow [0x19, 0x4F, 0x57, 0xBF, 0xEE, 0x00, 0x01, 0x01, 0x01, 0x01, 0x01, 0x01, 0x01, 0x01,
      0x01, 0x01] ".OW.............",
   tableRow [0x01, 0x01, 0x01, 0x01, 0x01, 0x01, 0x64, 0x19, 0x00, 0x40, 0x41, 0x00, 0x26, 0x30,
      0x18, 0x88] "......d..@A.&0..",
   tableRow [0x36, 0x00, 0x33, 0xE6, 0x10, 0x00, 0x00, 0x18, 0x40, 0x1F, 0x00, 0x30, 0x41, 0x00,
      0x24, 0x30] "6.3.....@..0A.$0",
   tableRow [0x20, 0x60, 0x33, 0x00, 0x33, 0xE6, 0x10, 0x00, 0x00, 0x18, 0x00, 0x00, 0x00, 0xFD,
      0x00, 0x38] " `3.3..........8",
   tableRow [0x4C, 0x1F, 0x3D, 0x08, 0x00, 0x0A, 0x20, 0x20, 0x20, 0x20, 0x20, 0x20, 0x00, 0x00,
      0x00, 0xFC] "L.=...      ...."]

/-- The eighth row of the text-style dump. -/
def documentedTextLast : TextRow :=
  tableRow [0x00, 0x41, 0x70, 0x70, 0x6C, 0x65, 0x53, 0x74, 0x75, 0x64, 0x69, 0x6F, 0x0A, 0x20,
    0x00, 0x88] ".AppleStudio. .."

/-- The line of the text-style dump between the table and the monitor name. -/
def documentedTextMid : List Nat := bytesOf "EDID Version                : 1.1" ++ CRLF


/-- The write attempts that a list of records calls for: one for each record,
in order, the attempt for the record of index `i` having the outcome
`writeEdidFile i`. -/
def attempts (writeEdidFile : Nat → EdidRec → Bool) : Nat → List EdidRec → List (EdidRec × Bool)
  | _, [] => []
  | i, pEdid :: pEdids => (pEdid, writeEdidFile i pEdid) :: attempts writeEdidFile (i + 1) pEdids

/-- What a call of a decoder shows apart from the cursor: success or failure,
and the record. -/
def decodeOutcome (r : Res (Bool × FileRec × EdidRec)) : Res (Bool × EdidRec) :=
  r.bind fun x => .ret (x.1, x.2.2)


/-- A text of 2^32 + 1 characters `a`: longer than any name, with the `int`
value 1 for its length. -/
def hugeName : List Nat := 97 :: List.replicate 4294967296 97

/-- The label `nextChar` of the log decoder: the end-of-mapping test, and the
next iteration one character further. -/
def readEdidDataforLogFile.next (n : Nat) (pFile : FileRec) (state k : Nat) (pData : List Nat) :
    Res (Bool × FileRec × Nat × List Nat) :=
  if pFile.current ≥ pFile.length then .ret (false, pFile, k, pData)
  else readEdidDataforLogFile.loop n (pFile.advance 1) state k pData

/-- The label `nextChar` of the text decoder. -/
def readEdidDataforTextFile.next (n : Nat) (pFile : FileRec) (state k : Nat) (pData : List Nat) :
    Res (Bool × FileRec × Nat × List Nat) :=
  if pFile.current ≥ pFile.length then .ret (false, pFile, k, pData)
  else readEdidDataforTextFile.loop n (pFile.advance 1) state k pData

/-- Whether a token of a log-style stream is a hex pair. -/
def LogItem.isPair : LogItem → Bool
  | .byte _ _ _ => true
  | _ => false

/-- Whether a token of a text-style table is a hex pair. -/
def TextItem.isPair : TextItem → Bool
  | .byte _ _ _ => true
  | _ => false

/-- The text-style sample of the record invariant: two pairs, the end of the
table, and a monitor name. -/
def invariantText : List Nat :=
  bytesOf "00 ff  " ++ CRLF ++ CRLF ++ bytesOf "Monitor Name: AB" ++ CRLF

/-- The log-style sample of the record invariant. -/
def invariantLog : List Nat :=
  bytesOf "Raw EDID bytes: 00 ff --- End of EDID for DFP-1 ---" ++ [10]

/-- The size of a page. `mmap` maps whole pages and fills the rest of the last
page with zero bytes: the byte after a view is a readable zero unless the
length of the view is a multiple of the page size, and then it is readable only
if another mapping happens to follow. -/
def PAGE_SIZE : Nat := 4096

/-- As many pairs `00` as asked for, each followed by a space. -/
def zeroPairs : Nat → List LogItem
  | 0 => []
  | n + 1 => .byte 0 false false :: .space 32 :: zeroPairs n

/-- As many pairs `00` as asked for, each followed by `-`. -/
def zeroDashes : Nat → List TextItem
  | 0 => []
  | n + 1 => .byte 0 false false :: .dash :: zeroDashes n

/-- A log of exactly one page: one well-formed triple followed by a header
whose data the end of the view cuts off. -/
def truncatedPage : List Nat :=
  renderTriples (sampleTriples.take 1) ++
    (bytesOf "(--) NVIDIA(0): " ++ HEADER ++ renderLog (.space 32 :: zeroPairs 1315))

/-- A view of exactly one page that holds log-style data and no `-`. -/
def logPage : List Nat := renderLog (.space 32 :: zeroPairs 1365)

/-- A view of exactly one page that holds text-style data and no CR. -/
def textPage : List Nat := renderText (.dash :: zeroDashes 1365)

/-! ## Basic facts -/

@[simp] theorem Res.ret_bind {α β : Type} (a : α) (f : α → Res β) :
    (Res.ret a).bind f = f a := rfl

@[simp] theorem FileRec.advance_start (p : FileRec) (n : Nat) : (p.advance n).start = p.start := rfl
@[simp] theorem FileRec.advance_beyond (p : FileRec) (n : Nat) : (p.advance n).beyond = p.beyond := rfl
@[simp] theorem FileRec.advance_current (p : FileRec) (n : Nat) :
    (p.advance n).current = p.current + n := rfl
@[simp] theorem FileRec.advance_length (p : FileRec) (n : Nat) : (p.advance n).length = p.length := rfl
@[simp] theorem FileRec.advance_mem (p : FileRec) (n : Nat) : (p.advance n).mem = p.mem := rfl
@[simp] theorem FileRec.advance_zero (p : FileRec) : p.advance 0 = p := rfl
theorem FileRec.advance_advance (p : FileRec) (m n : Nat) :
    (p.advance m).advance n = p.advance (m + n) := by
  simp [FileRec.advance, Nat.add_assoc]

theorem search_found (need : Nat) (lit : List Nat) (i : Nat) :
    ∀ (fuel : Nat) (pFile : FileRec), i < fuel →
      pFile.current + i + need ≤ pFile.length →
      (pFile.advance i).litAt lit = true →
      (∀ j, j < i → (pFile.advance j).litAt lit = false) →
      search need lit fuel pFile = .ret (true, pFile.advance i) := by
  induction i with
  | zero =>
    intro fuel pFile hf hlen hlit _
    obtain ⟨n, rfl⟩ : ∃ n, fuel = n + 1 := ⟨fuel - 1, by omega⟩
    simp only [FileRec.advance_zero] at hlit
    have h1 : pFile.current + need ≤ pFile.length := by omega
    simp [search, h1, hlit]
  | succ i ih =>
    intro fuel pFile hf hlen hlit hno
    obtain ⟨n, rfl⟩ : ∃ n, fuel = n + 1 := ⟨fuel - 1, by omega⟩
    have h1 : pFile.current + need ≤ pFile.length := by omega
    have h0 : pFile.litAt lit = false := by simpa using hno 0 (by omega)
    have := ih n (pFile.advance 1) (by omega) (by simp; omega)
      (by rw [FileRec.advance_advance, Nat.add_comm]; exact hlit)
      (fun j hj => by rw [FileRec.advance_advance, Nat.add_comm]; exact hno (j + 1) (by omega))
    rw [FileRec.advance_advance, Nat.add_comm 1 i] at this
    simp [search, h1, h0, this]

theorem search_none (need : Nat) (lit : List Nat) (hneed : 1 ≤ need) :
    ∀ (fuel : Nat) (pFile : FileRec), pFile.length + 1 - pFile.current ≤ fuel → 0 < fuel →
      (∀ j, pFile.current + j + need ≤ pFile.length → (pFile.advance j).litAt lit = false) →
      search need lit fuel pFile =
        .ret (false, { pFile with current := restCursor need pFile }) := by
  intro fuel
  induction fuel with
  | zero => intro pFile _ h; omega
  | succ n ih =>
    intro pFile hf _ hno
    by_cases h1 : pFile.current + need ≤ pFile.length
    · have h0 : pFile.litAt lit = false := by simpa using hno 0 (by omega)
      have hrec := ih (pFile.advance 1) (by simp; omega) (by omega)
        (fun j hj => by
          rw [FileRec.advance_advance, Nat.add_comm]
          exact hno (j + 1) (by simp at hj; omega))
      have hc : restCursor need (pFile.advance 1) = restCursor need pFile := by
        simp only [restCursor, FileRec.advance_current, FileRec.advance_length, h1, if_true]
        split <;> omega
      rw [search]
      simp only [h1, h0, if_true, Bool.false_eq_true, if_false]
      rw [hrec, hc]
      rfl
    · simp [search, h1, restCursor]


theorem drop_append_of_drop {l a b : List Nat} {n : Nat} (h : l.drop n = a ++ b) :
    l.drop (n + a.length) = b ∧ (a ++ b ≠ [] → n + a.length + b.length = l.length) := by
  have h1 : l.drop (n + a.length) = b := by
    rw [← List.drop_drop, h, List.drop_left]
  have h2 : (l.drop n).length = a.length + b.length := by rw [h, List.length_append]
  rw [List.length_drop] at h2
  refine ⟨h1, ?_⟩
  intro hab
  have : 0 < (a ++ b).length := List.length_pos.mpr hab
  rw [List.length_append] at this
  omega

theorem FileRec.mem_drop (p : FileRec) (h : p.current ≤ p.length) :
    p.mem.drop p.current = p.start.drop p.current ++ p.beyond := by
  simp only [FileRec.mem]
  rw [List.drop_append_of_le_length h]

theorem FileRec.litAt_iff (p : FileRec) (lit : List Nat) :
    p.litAt lit = true ↔ lit <+: p.mem.drop p.current := by
  simp [FileRec.litAt]

theorem FileRec.peek_of_drop {p : FileRec} {c : Nat} {r : List Nat}
    (h : p.start.drop p.current = c :: r) :
    p.peek 0 = some c ∧ p.current < p.length ∧
      (p.advance 1).start.drop (p.advance 1).current = r := by
  have h3 := drop_append_of_drop (a := [c]) (b := r) (by simpa using h)
  have hlt : p.current < p.start.length := by
    have := h3.2 (by simp)
    simp at this
    omega
  refine ⟨?_, hlt, by simpa using h3.1⟩
  simp only [FileRec.peek, FileRec.mem, Nat.add_zero]
  rw [List.getElem?_append_left hlt]
  have := List.getElem?_drop p.start p.current 0
  rw [h] at this
  simpa using this.symm

/-- A read `current[i]` at a position of the view that is known. -/
theorem FileRec.peek_of_drop_append {p : FileRec} {a rest : List Nat} {c : Nat}
    (h : p.start.drop p.current = a ++ c :: rest) :
    p.peek a.length = some c := by
  have h3 := drop_append_of_drop (a := a) (b := c :: rest) h
  have hlen := h3.2 (by simp)
  have hlt : p.current + a.length < p.start.length := by
    simp at hlen; omega
  simp only [FileRec.peek, FileRec.mem]
  rw [List.getElem?_append_left hlt]
  have := List.getElem?_drop p.start (p.current + a.length) 0
  rw [h3.1] at this
  simpa using this.symm

theorem FileRec.litAt_of_drop {p : FileRec} {lit rest : List Nat} (hl : lit ≠ [])
    (h : p.start.drop p.current = lit ++ rest) :
    p.litAt lit = true ∧ p.current + lit.length + rest.length = p.length ∧
      (p.advance lit.length).start.drop (p.advance lit.length).current = rest := by
  have h3 := drop_append_of_drop h
  have hlen := h3.2 (by simp [hl])
  refine ⟨?_, hlen, by simpa using h3.1⟩
  rw [FileRec.litAt_iff, FileRec.mem_drop p (by simp only [FileRec.length]; omega), h]
  exact ⟨rest ++ p.beyond, by simp⟩


theorem IS_HEX_iff (c : Nat) : IS_HEX c = true ↔
    (48 ≤ c ∧ c ≤ 57) ∨ (97 ≤ c ∧ c ≤ 102) ∨ (65 ≤ c ∧ c ≤ 70) := by
  simp [IS_HEX, or_assoc]

theorem isspace_iff (c : Nat) : isspace c = true ↔ c = 32 ∨ (9 ≤ c ∧ c ≤ 13) := by
  simp [isspace]

theorem not_isspace_of_hex {c : Nat} (h : IS_HEX c = true) : isspace c = false := by
  rw [IS_HEX_iff] at h
  rw [Bool.eq_false_iff, ne_eq, isspace_iff]
  omega

theorem hexDigit_spec (upper : Bool) : ∀ v, v < 16 →
    IS_HEX (hexDigit upper v) = true ∧ HEX_TO_NIBBLE (hexDigit upper v) = v := by
  cases upper <;> decide

theorem nibbles_combine : ∀ h, h < 16 → ∀ l, l < 16 → (0 ||| (h <<< 4)) ||| l = h * 16 + l := by
  decide

/-! ## The log decoder -/

theorem log_step {p : FileRec} {c : Nat} {rest : List Nat}
    (hd : p.start.drop p.current = c :: rest) (n state k : Nat) (pData : List Nat) :
    readEdidDataforLogFile.loop (n + 1) p state k pData =
      if state = STATE_LOOKING_FOR_TOP_NIBBLE then
        if c = 10 then
          readEdidDataforLogFile.loop n (p.advance 1) STATE_LOOKING_FOR_END_OF_LABEL k pData
        else if isspace c then
          readEdidDataforLogFile.loop n (p.advance 1) STATE_LOOKING_FOR_TOP_NIBBLE k pData
        else if IS_HEX c then
          readEdidDataforLogFile.loop n (p.advance 1) STATE_LOOKING_FOR_BOTTOM_NIBBLE k
            (pData.set k (pData.getD k 0 ||| (HEX_TO_NIBBLE c <<< 4)))
        else if c = 45 then .ret (true, p, k, pData)
        else .ret (false, p, k, pData)
      else if state = STATE_LOOKING_FOR_BOTTOM_NIBBLE then
        if IS_HEX c then
          if k + 1 ≥ MAX_EDID_SIZE then
            .ret (false, p, k + 1, pData.set k (pData.getD k 0 ||| HEX_TO_NIBBLE c))
          else readEdidDataforLogFile.loop n (p.advance 1) STATE_LOOKING_FOR_TOP_NIBBLE (k + 1)
            (pData.set k (pData.getD k 0 ||| HEX_TO_NIBBLE c))
        else .ret (false, p, k, pData)
      else if state = STATE_LOOKING_FOR_END_OF_LABEL then
        if c = 58 then
          readEdidDataforLogFile.loop n (p.advance 1) STATE_LOOKING_FOR_TOP_NIBBLE k pData
        else readEdidDataforLogFile.loop n (p.advance 1) state k pData
      else .ret (false, p, k, pData) := by
  obtain ⟨hp, hlt, -⟩ := FileRec.peek_of_drop hd
  have hge : ¬ p.current ≥ p.length := by omega
  rw [readEdidDataforLogFile.loop]
  simp only [hp, hge, if_false]
  rfl


theorem scratch_take (done : List Nat) : (scratch done).take done.length = done := by
  simp [scratch]

theorem getD_append_cons (done : List Nat) (x : Nat) (t : List Nat) :
    (done ++ x :: t).getD done.length 0 = x := by
  induction done with
  | nil => rfl
  | cons a l ih => simpa using ih

theorem set_append_cons (done : List Nat) (x y : Nat) (t : List Nat) :
    (done ++ x :: t).set done.length y = done ++ y :: t := by
  induction done with
  | nil => rfl
  | cons a l ih => simp

theorem scratch_top {done : List Nat} (h : done.length < MAX_EDID_SIZE) (x : Nat) :
    (scratch done).set done.length ((scratch done).getD done.length 0 ||| x) =
      done ++ (0 ||| x) :: List.replicate (MAX_EDID_SIZE - done.length - 1) 0 := by
  obtain ⟨m, hm⟩ : ∃ m, MAX_EDID_SIZE - done.length = m + 1 :=
    ⟨MAX_EDID_SIZE - done.length - 1, by omega⟩
  have hs : scratch done = done ++ 0 :: List.replicate m 0 := by
    simp [scratch, hm, List.replicate_succ]
  rw [hs, getD_append_cons, set_append_cons]
  simp [hm]

theorem scratch_bottom (done : List Nat) (x y m : Nat) :
    (done ++ x :: List.replicate m 0).set done.length
        ((done ++ x :: List.replicate m 0).getD done.length 0 ||| y) =
      done ++ (x ||| y) :: List.replicate m 0 := by
  rw [getD_append_cons, set_append_cons]

theorem scratch_snoc (done : List Nat) (b : Nat) :
    done ++ b :: List.replicate (MAX_EDID_SIZE - done.length - 1) 0 = scratch (done ++ [b]) := by
  simp [scratch, Nat.sub_sub]

theorem log_byte {p : FileRec} {b : Nat} {u1 u2 : Bool} {rest done : List Nat}
    (hd : p.start.drop p.current = (LogItem.byte b u1 u2).render ++ rest)
    (hb : b < 256) (hk : done.length < MAX_EDID_SIZE) (n : Nat) :
    readEdidDataforLogFile.loop (n + 2) p STATE_LOOKING_FOR_TOP_NIBBLE done.length (scratch done) =
      if done.length + 1 ≥ MAX_EDID_SIZE then
        .ret (false, p.advance 1, done.length + 1, scratch (done ++ [b]))
      else readEdidDataforLogFile.loop n (p.advance 2) STATE_LOOKING_FOR_TOP_NIBBLE
        (done ++ [b]).length (scratch (done ++ [b])) := by
  have h1 := hexDigit_spec u1 (b / 16) (by omega)
  have h2 := hexDigit_spec u2 (b % 16) (by omega)
  simp only [LogItem.render, List.cons_append, List.nil_append] at hd
  obtain ⟨-, -, hd2⟩ := FileRec.peek_of_drop hd
  have hs1 := not_isspace_of_hex h1.1
  have hne : hexDigit u1 (b / 16) ≠ 10 := by
    have := (IS_HEX_iff _).1 h1.1; omega
  rw [log_step hd, if_pos rfl, if_neg hne, hs1]
  simp only [Bool.false_eq_true, if_false, h1.1, if_true]
  rw [log_step hd2, if_neg (by decide), if_pos rfl, h2.1]
  simp only [if_true, h1.2, h2.2]
  rw [scratch_top hk, scratch_bottom, nibbles_combine _ (by omega) _ (by omega),
    Nat.div_add_mod' b 16, scratch_snoc, FileRec.advance_advance]
  simp


theorem log_label_text (txt : List Nat) : ∀ (p : FileRec) (n k : Nat) (pData rest : List Nat),
    txt.contains 58 = false →
    p.start.drop p.current = txt ++ 58 :: rest →
    readEdidDataforLogFile.loop (n + (txt.length + 1)) p STATE_LOOKING_FOR_END_OF_LABEL k pData =
      readEdidDataforLogFile.loop n (p.advance (txt.length + 1)) STATE_LOOKING_FOR_TOP_NIBBLE
        k pData := by
  induction txt with
  | nil =>
    intro p n k pData rest _ hd
    simp only [List.nil_append] at hd
    rw [List.length_nil, Nat.zero_add, log_step hd]
    simp [STATE_LOOKING_FOR_TOP_NIBBLE, STATE_LOOKING_FOR_BOTTOM_NIBBLE,
      STATE_LOOKING_FOR_END_OF_LABEL]
  | cons c txt ih =>
    intro p n k pData rest hc hd
    simp only [List.cons_append] at hd
    obtain ⟨-, -, hd2⟩ := FileRec.peek_of_drop hd
    have hc' : c ≠ 58 ∧ txt.contains 58 = false := by
      simp only [List.contains_cons, Bool.or_eq_false_iff, beq_eq_false_iff_ne] at hc
      exact ⟨fun h => hc.1 h.symm, hc.2⟩
    have hfuel : n + ((c :: txt).length + 1) = (n + (txt.length + 1)) + 1 := by
      simp only [List.length_cons]; omega
    rw [hfuel, log_step hd, ih (p.advance 1) n k pData rest hc'.2 hd2, FileRec.advance_advance]
    simp [STATE_LOOKING_FOR_TOP_NIBBLE, STATE_LOOKING_FOR_BOTTOM_NIBBLE,
      STATE_LOOKING_FOR_END_OF_LABEL, hc'.1, Nat.add_comm, Nat.add_left_comm]

theorem log_item_skip {p : FileRec} {i : LogItem} {rest : List Nat} (hw : i.wf = true)
    (hb : i.bytes = [])
    (hd : p.start.drop p.current = i.render ++ rest) (n k : Nat) (pData : List Nat) :
    readEdidDataforLogFile.loop (n + i.render.length) p STATE_LOOKING_FOR_TOP_NIBBLE k pData =
      readEdidDataforLogFile.loop n (p.advance i.render.length) STATE_LOOKING_FOR_TOP_NIBBLE
        k pData := by
  cases i with
  | space c =>
    simp only [LogItem.wf, Bool.and_eq_true, bne_iff_ne, ne_eq] at hw
    simp only [LogItem.render, List.cons_append, List.nil_append] at hd
    simp only [LogItem.render, List.length_singleton]
    rw [log_step hd, if_pos rfl, if_neg hw.2, hw.1]
    simp
  | label txt =>
    simp only [LogItem.wf, Bool.not_eq_true'] at hw
    simp only [LogItem.render, List.cons_append, List.append_assoc, List.singleton_append] at hd
    obtain ⟨-, -, hd2⟩ := FileRec.peek_of_drop hd
    have hlen : n + (LogItem.label txt).render.length = (n + (txt.length + 1)) + 1 := by
      simp [LogItem.render]; omega
    have hlen2 : (LogItem.label txt).render.length = 1 + (txt.length + 1) := by
      simp [LogItem.render]; omega
    rw [hlen, log_step hd, if_pos rfl, if_pos rfl,
      log_label_text txt (p.advance 1) n k pData rest hw hd2, FileRec.advance_advance, hlen2]
  | byte b u1 u2 => simp [LogItem.bytes] at hb


theorem FileRec.drop_advance {p : FileRec} {a b : List Nat}
    (h : p.start.drop p.current = a ++ b) :
    (p.advance a.length).start.drop (p.advance a.length).current = b := by
  simpa using (drop_append_of_drop h).1

theorem log_items (items : List LogItem) : ∀ (p : FileRec) (done : List Nat) (n : Nat)
    (rest : List Nat), (∀ i ∈ items, i.wf = true) →
    p.start.drop p.current = renderLog items ++ rest →
    done.length + (bytesLog items).length < MAX_EDID_SIZE →
    readEdidDataforLogFile.loop (n + (renderLog items).length) p STATE_LOOKING_FOR_TOP_NIBBLE
        done.length (scratch done) =
      readEdidDataforLogFile.loop n (p.advance (renderLog items).length)
        STATE_LOOKING_FOR_TOP_NIBBLE (done ++ bytesLog items).length
        (scratch (done ++ bytesLog items)) := by
  induction items with
  | nil => intro p done n rest _ _ _; simp [renderLog, bytesLog]
  | cons i items ih =>
    intro p done n rest hw hd hk
    have hwi : i.wf = true := hw i (List.mem_cons_self _ _)
    have hws : ∀ j ∈ items, j.wf = true := fun j hj => hw j (List.mem_cons_of_mem _ hj)
    simp only [renderLog, List.append_assoc] at hd
    have hd2 := FileRec.drop_advance hd
    have hfuel : n + (renderLog (i :: items)).length =
        (n + (renderLog items).length) + i.render.length := by
      simp only [renderLog, List.length_append]; omega
    have hadv : p.advance (renderLog (i :: items)).length =
        (p.advance i.render.length).advance (renderLog items).length := by
      rw [FileRec.advance_advance]; simp [renderLog]
    rw [hfuel, hadv]
    by_cases hb : i.bytes = []
    · rw [log_item_skip hwi hb hd]
      simp only [bytesLog, hb, List.nil_append] at hk ⊢
      exact ih _ done n rest hws hd2 hk
    · cases i with
      | space c => simp [LogItem.bytes] at hb
      | label txt => simp [LogItem.bytes] at hb
      | byte b u1 u2 =>
        simp only [LogItem.wf, decide_eq_true_eq] at hwi
        simp only [bytesLog, LogItem.bytes, List.length_append, List.length_singleton,
          List.length_cons, List.length_nil] at hk
        have hlen : (LogItem.byte b u1 u2).render.length = 2 := rfl
        rw [hlen] at hd2 ⊢
        rw [log_byte hd hwi (by omega), if_neg (by omega)]
        have := ih (p.advance 2) (done ++ [b]) n rest hws hd2
          (by simp only [List.length_append, List.length_singleton]; omega)
        rw [this]
        simp [bytesLog, LogItem.bytes]

/-- Reaching the cap: the decoder fails on the byte that makes `k` equal to
`MAX_EDID_SIZE`. -/
theorem log_items_cap (items : List LogItem) : ∀ (p : FileRec) (done : List Nat) (n : Nat)
    (rest : List Nat), (∀ i ∈ items, i.wf = true) →
    p.start.drop p.current = renderLog items ++ rest →
    done.length < MAX_EDID_SIZE →
    MAX_EDID_SIZE ≤ done.length + (bytesLog items).length →
    ∃ r, readEdidDataforLogFile.loop (n + (renderLog items).length) p
        STATE_LOOKING_FOR_TOP_NIBBLE done.length (scratch done) = .ret (false, r) := by
  induction items with
  | nil => intro p done n rest _ _ h1 h2; simp [bytesLog] at h2; omega
  | cons i items ih =>
    intro p done n rest hw hd hk hcap
    have hwi : i.wf = true := hw i (List.mem_cons_self _ _)
    have hws : ∀ j ∈ items, j.wf = true := fun j hj => hw j (List.mem_cons_of_mem _ hj)
    simp only [renderLog, List.append_assoc] at hd
    have hd2 := FileRec.drop_advance hd
    have hfuel : n + (renderLog (i :: items)).length =
        (n + (renderLog items).length) + i.render.length := by
      simp only [renderLog, List.length_append]; omega
    rw [hfuel]
    by_cases hb : i.bytes = []
    · rw [log_item_skip hwi hb hd]
      simp only [bytesLog, hb, List.nil_append] at hcap
      exact ih _ done n rest hws hd2 hk hcap
    · cases i with
      | space c => simp [LogItem.bytes] at hb
      | label txt => simp [LogItem.bytes] at hb
      | byte b u1 u2 =>
        simp only [LogItem.wf, decide_eq_true_eq] at hwi
        simp only [bytesLog, LogItem.bytes, List.length_append, List.length_singleton,
          List.length_cons, List.length_nil] at hcap
        have hlen : (LogItem.byte b u1 u2).render.length = 2 := rfl
        rw [hlen] at hd2 ⊢
        rw [log_byte hd hwi hk]
        by_cases hfull : done.length + 1 ≥ MAX_EDID_SIZE
        · rw [if_pos hfull]; exact ⟨_, rfl⟩
        · rw [if_neg hfull]
          exact ih (p.advance 2) (done ++ [b]) n rest hws hd2
            (by simp only [List.length_append, List.length_singleton]; omega)
            (by simp only [List.length_append, List.length_singleton]; omega)


theorem drop_of_explicit (pre body : List Nat) : (pre ++ body).drop pre.length = body := by
  simp

/-- The log decoder on a well-formed stream that ends at a `-`. -/
theorem log_decode_ok {p : FileRec} {items : List LogItem} {r : List Nat} (pEdid : EdidRec)
    (hw : ∀ i ∈ items, i.wf = true)
    (hd : p.start.drop p.current = renderLog items ++ 45 :: r)
    (h1 : 1 ≤ (bytesLog items).length) (h2 : (bytesLog items).length < MAX_EDID_SIZE) :
    readEdidDataforLogFile p pEdid =
      .ret (true, p.advance (renderLog items).length,
        { pEdid with size := (bytesLog items).length, bytes := some (bytesLog items) }) := by
  have hlen := (drop_append_of_drop hd).2 (by simp)
  have hd2 := FileRec.drop_advance hd
  obtain ⟨n, hn⟩ : ∃ n, p.length + 2 = (n + 1) + (renderLog items).length :=
    ⟨p.length + 1 - (renderLog items).length, by simp [FileRec.length] at hlen ⊢; omega⟩
  have := log_items items p [] (n + 1) (45 :: r) hw hd (by simpa using h2)
  simp only [List.length_nil, List.nil_append] at this
  have hs : scratch [] = List.replicate MAX_EDID_SIZE 0 := by simp [scratch]
  rw [hs] at this
  rw [readEdidDataforLogFile, hn, this, log_step hd2]
  have hne : bytesLog items ≠ [] := by intro h; simp [h] at h1
  simp [STATE_LOOKING_FOR_TOP_NIBBLE, isspace, IS_HEX, saveEdidData, hne, scratch_take]


/-! ## The text decoder -/

theorem text_step {p : FileRec} {c : Nat} {r : List Nat}
    (hd : p.start.drop p.current = c :: r) (n state k : Nat) (pData : List Nat) :
    readEdidDataforTextFile.loop (n + 1) p state k pData =
      if state = STATE_LOOKING_FOR_TOP_NIBBLE then
        if IS_HEX c then
          readEdidDataforTextFile.loop n (p.advance 1) STATE_LOOKING_FOR_BOTTOM_NIBBLE k
            (pData.set k (pData.getD k 0 ||| (HEX_TO_NIBBLE c <<< 4)))
        else if c = 45 then
          readEdidDataforTextFile.loop n (p.advance 1) STATE_LOOKING_FOR_TOP_NIBBLE k pData
        else if isspace c then
          match p.peek 1 with
          | none => .fault
          | some c1 =>
            if isspace c1 then
              readEdidDataforTextFile.loop n (p.advance 1) STATE_LOOKING_FOR_END_OF_LABEL k pData
            else
              readEdidDataforTextFile.loop n (p.advance 1) STATE_LOOKING_FOR_TOP_NIBBLE k pData
        else .ret (false, p, k, pData)
      else if state = STATE_LOOKING_FOR_BOTTOM_NIBBLE then
        if IS_HEX c then
          if k + 1 ≥ MAX_EDID_SIZE then
            .ret (false, p, k + 1, pData.set k (pData.getD k 0 ||| HEX_TO_NIBBLE c))
          else readEdidDataforTextFile.loop n (p.advance 1) STATE_LOOKING_FOR_TOP_NIBBLE (k + 1)
            (pData.set k (pData.getD k 0 ||| HEX_TO_NIBBLE c))
        else .ret (false, p, k, pData)
      else if state = STATE_LOOKING_FOR_END_OF_LABEL then
        if c = 13 then
          match p.peek 1 with
          | none => .fault
          | some c1 =>
            if c1 = 10 then
              match p.peek 2 with
              | none => .fault
              | some c2 =>
                if c2 = 13 then
                  match p.peek 3 with
                  | none => .fault
                  | some c3 =>
                    if c3 = 10 then .ret (true, p, k, pData)
                    else readEdidDataforTextFile.loop n (p.advance 1)
                      STATE_LOOKING_FOR_TOP_NIBBLE k pData
                else readEdidDataforTextFile.loop n (p.advance 1)
                  STATE_LOOKING_FOR_TOP_NIBBLE k pData
            else readEdidDataforTextFile.loop n (p.advance 1)
              STATE_LOOKING_FOR_END_OF_LABEL k pData
        else readEdidDataforTextFile.loop n (p.advance 1) STATE_LOOKING_FOR_END_OF_LABEL k pData
      else .ret (false, p, k, pData) := by
  obtain ⟨hp, hlt, -⟩ := FileRec.peek_of_drop hd
  have hge : ¬ p.current ≥ p.length := by omega
  rw [readEdidDataforTextFile.loop]
  simp only [hp, hge, if_false]
  rfl


theorem not_hex_of_isspace {c : Nat} (h : isspace c = true) : IS_HEX c = false ∧ c ≠ 45 := by
  rw [isspace_iff] at h
  constructor
  · rw [Bool.eq_false_iff, ne_eq, IS_HEX_iff]; omega
  · omega

theorem text_byte {p : FileRec} {b : Nat} {u1 u2 : Bool} {r done : List Nat}
    (hd : p.start.drop p.current = (TextItem.byte b u1 u2).render ++ r)
    (hb : b < 256) (hk : done.length < MAX_EDID_SIZE) (n : Nat) :
    readEdidDataforTextFile.loop (n + 2) p STATE_LOOKING_FOR_TOP_NIBBLE done.length
        (scratch done) =
      if done.length + 1 ≥ MAX_EDID_SIZE then
        .ret (false, p.advance 1, done.length + 1, scratch (done ++ [b]))
      else readEdidDataforTextFile.loop n (p.advance 2) STATE_LOOKING_FOR_TOP_NIBBLE
        (done ++ [b]).length (scratch (done ++ [b])) := by
  have h1 := hexDigit_spec u1 (b / 16) (by omega)
  have h2 := hexDigit_spec u2 (b % 16) (by omega)
  simp only [TextItem.render, List.cons_append, List.nil_append] at hd
  obtain ⟨-, -, hd2⟩ := FileRec.peek_of_drop hd
  rw [text_step hd, if_pos rfl, h1.1]
  simp only [if_true, h1.2]
  rw [text_step hd2, if_neg (by decide), if_pos rfl, h2.1]
  simp only [if_true, h2.2]
  rw [scratch_top hk, scratch_bottom, nibbles_combine _ (by omega) _ (by omega),
    Nat.div_add_mod' b 16, scratch_snoc, FileRec.advance_advance]
  simp

theorem text_dash {p : FileRec} {r : List Nat} (hd : p.start.drop p.current = 45 :: r)
    (n k : Nat) (pData : List Nat) :
    readEdidDataforTextFile.loop (n + 1) p STATE_LOOKING_FOR_TOP_NIBBLE k pData =
      readEdidDataforTextFile.loop n (p.advance 1) STATE_LOOKING_FOR_TOP_NIBBLE k pData := by
  rw [text_step hd, if_pos rfl]
  simp [IS_HEX]

theorem text_space {p : FileRec} {c d : Nat} {r : List Nat}
    (hd : p.start.drop p.current = c :: d :: r) (hc : isspace c = true) (n k : Nat)
    (pData : List Nat) :
    readEdidDataforTextFile.loop (n + 1) p STATE_LOOKING_FOR_TOP_NIBBLE k pData =
      readEdidDataforTextFile.loop n (p.advance 1)
        (if isspace d then STATE_LOOKING_FOR_END_OF_LABEL else STATE_LOOKING_FOR_TOP_NIBBLE)
        k pData := by
  have hp1 : p.peek 1 = some d := FileRec.peek_of_drop_append (a := [c]) (by simpa using hd)
  obtain ⟨h1, h2⟩ := not_hex_of_isspace hc
  rw [text_step hd, if_pos rfl, h1, hp1]
  simp only [Bool.false_eq_true, if_false, h2, hc, if_true]
  split <;> rfl

/-- In label-skipping mode a text without a CR LF pair is skipped up to the CR
of the CR LF pair that follows it. -/
theorem text_label_col (col : List Nat) : ∀ (p : FileRec) (n k : Nat) (pData r : List Nat),
    ¬ CRLF <:+: col → p.start.drop p.current = col ++ 13 :: 10 :: r →
    readEdidDataforTextFile.loop (n + col.length) p STATE_LOOKING_FOR_END_OF_LABEL k pData =
      readEdidDataforTextFile.loop n (p.advance col.length) STATE_LOOKING_FOR_END_OF_LABEL
        k pData := by
  induction col with
  | nil => intro p n k pData r _ _; simp
  | cons c col ih =>
    intro p n k pData r hno hd
    simp only [List.cons_append] at hd
    obtain ⟨-, -, hd2⟩ := FileRec.peek_of_drop hd
    have hno2 : ¬ CRLF <:+: col := fun h => hno (h.trans (List.suffix_cons c col).isInfix)
    have hfuel : n + (c :: col).length = (n + col.length) + 1 := by
      simp only [List.length_cons]; omega
    have hrec := ih (p.advance 1) n k pData r hno2 hd2
    rw [FileRec.advance_advance] at hrec
    have hadv : (c :: col).length = 1 + col.length := by simp only [List.length_cons]; omega
    rw [hfuel, hadv, text_step hd, if_neg (by decide), if_neg (by decide), if_pos rfl]
    by_cases hc : c = 13
    · subst hc
      cases col with
      | nil =>
        have hp1 : p.peek 1 = some 13 :=
          FileRec.peek_of_drop_append (a := [13]) (by simpa using hd)
        rw [if_pos rfl, hp1]
        simp
      | cons d col =>
        have hp1 : p.peek 1 = some d :=
          FileRec.peek_of_drop_append (a := [13]) (by simpa using hd)
        have hd10 : d ≠ 10 := by
          rintro rfl
          exact hno ⟨[], col, by simp [CRLF]⟩
        rw [if_pos rfl, hp1]
        simp only [hd10, if_false]
        exact hrec
    · rw [if_neg hc]
      exact hrec


theorem headD_append_cons (col : List Nat) (x : Nat) (r : List Nat) :
    ∃ d t, col ++ x :: r = d :: t ∧ d = (col ++ [x]).headD 0 := by
  cases col with
  | nil => exact ⟨x, r, rfl, rfl⟩
  | cons c col => exact ⟨c, col ++ x :: r, rfl, rfl⟩

theorem text_item_skip {p : FileRec} {i : TextItem} {r : List Nat} (hw : i.ok r = true)
    (hb : i.bytes = [])
    (hd : p.start.drop p.current = i.render ++ r) (n k : Nat) (pData : List Nat) :
    readEdidDataforTextFile.loop (n + i.render.length) p STATE_LOOKING_FOR_TOP_NIBBLE k pData =
      readEdidDataforTextFile.loop n (p.advance i.render.length) STATE_LOOKING_FOR_TOP_NIBBLE
        k pData := by
  cases i with
  | dash =>
    simp only [TextItem.render, List.cons_append, List.nil_append] at hd
    exact text_dash hd n k pData
  | space c =>
    simp only [TextItem.render, List.cons_append, List.nil_append] at hd
    cases r with
    | nil => simp [TextItem.ok] at hw
    | cons d r =>
      simp only [TextItem.ok, Bool.and_eq_true, Bool.not_eq_true'] at hw
      simp only [TextItem.render, List.length_singleton]
      rw [text_space hd hw.1, hw.2]
      simp
  | byte b u1 u2 => simp [TextItem.bytes] at hb
  | skip gap col =>
    simp only [TextItem.ok, Bool.and_eq_true, decide_eq_true_eq] at hw
    obtain ⟨⟨⟨hgap, hhead⟩, hno⟩, hfollow⟩ := hw
    simp only [TextItem.render, List.cons_append, List.append_assoc, List.singleton_append] at hd
    obtain ⟨-, -, hd2⟩ := FileRec.peek_of_drop hd
    obtain ⟨d, t, hdt, hdh⟩ := headD_append_cons col 13 r
    have hlen : n + (TextItem.skip gap col).render.length = ((n + 1) + col.length) + 1 := by
      simp [TextItem.render]; omega
    have hadv : (TextItem.skip gap col).render.length = 1 + (col.length + 1) := by
      simp [TextItem.render]; omega
    rw [hlen, hadv, text_space (hdt ▸ hd) hgap, hdh, hhead, if_pos rfl]
    match r, hfollow, hd, hd2 with
    | 10 :: e :: more, hfollow, hd, hd2 =>
      rw [text_label_col col (p.advance 1) (n + 1) k pData (e :: more) hno hd2,
        FileRec.advance_advance]
      have hd3 := FileRec.drop_advance hd2
      rw [FileRec.advance_advance] at hd3
      have hp1 : (p.advance (1 + col.length)).peek 1 = some 10 :=
        FileRec.peek_of_drop_append (a := [13]) (by simpa using hd3)
      have hp2 : (p.advance (1 + col.length)).peek 2 = some e :=
        FileRec.peek_of_drop_append (a := [13, 10]) (by simpa using hd3)
      rw [text_step hd3, if_neg (by decide), if_neg (by decide), if_pos rfl, if_pos rfl, hp1]
      simp only [if_true, hp2]
      rw [FileRec.advance_advance, Nat.add_assoc]
      by_cases he : e = 13
      · subst he
        cases more with
        | nil => simp at hfollow
        | cons x more =>
          have hp3 : (p.advance (1 + col.length)).peek 3 = some x :=
            FileRec.peek_of_drop_append (a := [13, 10, 13]) (by simpa using hd3)
          have hx : x ≠ 10 := by simpa using hfollow
          simp [hp3, hx]
      · simp [he]


theorem text_items (items : List TextItem) : ∀ (p : FileRec) (done : List Nat) (n : Nat)
    (r : List Nat), wfText items r = true →
    p.start.drop p.current = renderText items ++ r →
    done.length + (bytesText items).length < MAX_EDID_SIZE →
    readEdidDataforTextFile.loop (n + (renderText items).length) p STATE_LOOKING_FOR_TOP_NIBBLE
        done.length (scratch done) =
      readEdidDataforTextFile.loop n (p.advance (renderText items).length)
        STATE_LOOKING_FOR_TOP_NIBBLE (done ++ bytesText items).length
        (scratch (done ++ bytesText items)) := by
  induction items with
  | nil => intro p done n r _ _ _; simp [renderText, bytesText]
  | cons i items ih =>
    intro p done n r hw hd hk
    simp only [wfText, Bool.and_eq_true] at hw
    obtain ⟨hwi, hws⟩ := hw
    simp only [renderText, List.append_assoc] at hd
    have hd2 := FileRec.drop_advance hd
    have hfuel : n + (renderText (i :: items)).length =
        (n + (renderText items).length) + i.render.length := by
      simp only [renderText, List.length_append]; omega
    have hadv : p.advance (renderText (i :: items)).length =
        (p.advance i.render.length).advance (renderText items).length := by
      rw [FileRec.advance_advance]; simp [renderText]
    rw [hfuel, hadv]
    by_cases hb : i.bytes = []
    · rw [text_item_skip hwi hb hd]
      simp only [bytesText, hb, List.nil_append] at hk ⊢
      exact ih _ done n r hws hd2 hk
    · cases i with
      | dash => simp [TextItem.bytes] at hb
      | space c => simp [TextItem.bytes] at hb
      | skip gap col => simp [TextItem.bytes] at hb
      | byte b u1 u2 =>
        simp only [TextItem.ok, decide_eq_true_eq] at hwi
        simp only [bytesText, TextItem.bytes, List.length_append, List.length_singleton,
          List.length_cons, List.length_nil] at hk
        have hlen : (TextItem.byte b u1 u2).render.length = 2 := rfl
        rw [hlen] at hd2 ⊢
        rw [text_byte hd hwi (by omega), if_neg (by omega)]
        have := ih (p.advance 2) (done ++ [b]) n r hws hd2
          (by simp only [List.length_append, List.length_singleton]; omega)
        rw [this]
        simp [bytesText, TextItem.bytes]

theorem text_items_cap (items : List TextItem) : ∀ (p : FileRec) (done : List Nat) (n : Nat)
    (r : List Nat), wfText items r = true →
    p.start.drop p.current = renderText items ++ r →
    done.length < MAX_EDID_SIZE →
    MAX_EDID_SIZE ≤ done.length + (bytesText items).length →
    ∃ x, readEdidDataforTextFile.loop (n + (renderText items).length) p
        STATE_LOOKING_FOR_TOP_NIBBLE done.length (scratch done) = .ret (false, x) := by
  induction items with
  | nil => intro p done n r _ _ h1 h2; simp [bytesText] at h2; omega
  | cons i items ih =>
    intro p done n r hw hd hk hcap
    simp only [wfText, Bool.and_eq_true] at hw
    obtain ⟨hwi, hws⟩ := hw
    simp only [renderText, List.append_assoc] at hd
    have hd2 := FileRec.drop_advance hd
    have hfuel : n + (renderText (i :: items)).length =
        (n + (renderText items).length) + i.render.length := by
      simp only [renderText, List.length_append]; omega
    rw [hfuel]
    by_cases hb : i.bytes = []
    · rw [text_item_skip hwi hb hd]
      simp only [bytesText, hb, List.nil_append] at hcap
      exact ih _ done n r hws hd2 hk hcap
    · cases i with
      | dash => simp [TextItem.bytes] at hb
      | space c => simp [TextItem.bytes] at hb
      | skip gap col => simp [TextItem.bytes] at hb
      | byte b u1 u2 =>
        simp only [TextItem.ok, decide_eq_true_eq] at hwi
        simp only [bytesText, TextItem.bytes, List.length_append, List.length_singleton,
          List.length_cons, List.length_nil] at hcap
        have hlen : (TextItem.byte b u1 u2).render.length = 2 := rfl
        rw [hlen] at hd2 ⊢
        rw [text_byte hd hwi hk]
        by_cases hfull : done.length + 1 ≥ MAX_EDID_SIZE
        · rw [if_pos hfull]; exact ⟨_, rfl⟩
        · rw [if_neg hfull]
          exact ih (p.advance 2) (done ++ [b]) n r hws hd2
            (by simp only [List.length_append, List.length_singleton]; omega)
            (by simp only [List.length_append, List.length_singleton]; omega)

/-- The end of a text-style table: a whitespace character followed by another
one, a text without CR LF, and two CR LF pairs. -/
theorem text_final {p : FileRec} {gap : Nat} {col r : List Nat}
    (hd : p.start.drop p.current = gap :: (col ++ 13 :: 10 :: 13 :: 10 :: r))
    (hgap : isspace gap = true) (hhead : isspace ((col ++ [13]).headD 0) = true)
    (hno : ¬ CRLF <:+: col) (n k : Nat) (pData : List Nat) :
    readEdidDataforTextFile.loop (n + col.length + 2) p STATE_LOOKING_FOR_TOP_NIBBLE k pData =
      .ret (true, p.advance (1 + col.length), k, pData) := by
  obtain ⟨-, -, hd2⟩ := FileRec.peek_of_drop hd
  obtain ⟨d, t, hdt, hdh⟩ := headD_append_cons col 13 (10 :: 13 :: 10 :: r)
  have hlen : n + col.length + 2 = ((n + 1) + col.length) + 1 := by omega
  rw [hlen, text_space (hdt ▸ hd) hgap, hdh, hhead, if_pos rfl,
    text_label_col col (p.advance 1) (n + 1) k pData (13 :: 10 :: r) hno hd2,
    FileRec.advance_advance]
  have hd3 := FileRec.drop_advance hd2
  rw [FileRec.advance_advance] at hd3
  have hp1 : (p.advance (1 + col.length)).peek 1 = some 10 :=
    FileRec.peek_of_drop_append (a := [13]) (by simpa using hd3)
  have hp2 : (p.advance (1 + col.length)).peek 2 = some 13 :=
    FileRec.peek_of_drop_append (a := [13, 10]) (by simpa using hd3)
  have hp3 : (p.advance (1 + col.length)).peek 3 = some 10 :=
    FileRec.peek_of_drop_append (a := [13, 10, 13]) (by simpa using hd3)
  rw [text_step hd3, if_neg (by decide), if_neg (by decide), if_pos rfl, if_pos rfl, hp1]
  simp [hp2, hp3]

/-- The text decoder on a well-formed table. -/
theorem text_decode_ok {p : FileRec} {items : List TextItem} {gap : Nat} {col r : List Nat}
    (pEdid : EdidRec)
    (hd : p.start.drop p.current =
      renderText items ++ gap :: (col ++ 13 :: 10 :: 13 :: 10 :: r))
    (hw : wfText items (gap :: (col ++ 13 :: 10 :: 13 :: 10 :: r)) = true)
    (hgap : isspace gap = true) (hhead : isspace ((col ++ [13]).headD 0) = true)
    (hno : ¬ CRLF <:+: col)
    (h1 : 1 ≤ (bytesText items).length) (h2 : (bytesText items).length < MAX_EDID_SIZE) :
    readEdidDataforTextFile p pEdid =
      .ret (true, p.advance ((renderText items).length + (1 + col.length)),
        { pEdid with size := (bytesText items).length, bytes := some (bytesText items) }) := by
  have hlen := (drop_append_of_drop hd).2 (by simp)
  have hd2 := FileRec.drop_advance hd
  simp only [List.length_cons, List.length_append] at hlen
  obtain ⟨n, hn⟩ : ∃ n, p.length + 2 = (n + col.length + 2) + (renderText items).length :=
    ⟨p.length - col.length - (renderText items).length, by simp only [FileRec.length]; omega⟩
  have := text_items items p [] (n + col.length + 2) _ hw hd (by simpa using h2)
  simp only [List.length_nil, List.nil_append] at this
  have hs : scratch [] = List.replicate MAX_EDID_SIZE 0 := by simp [scratch]
  rw [hs] at this
  rw [readEdidDataforTextFile, hn, this, text_final hd2 hgap hhead hno,
    FileRec.advance_advance]
  have hne : bytesText items ≠ [] := by intro h; simp [h] at h1
  simp [saveEdidData, hne, scratch_take]

theorem text_decode_cap {p : FileRec} {items : List TextItem} {r : List Nat} (pEdid : EdidRec)
    (hw : wfText items r = true)
    (hd : p.start.drop p.current = renderText items ++ r)
    (hcap : MAX_EDID_SIZE ≤ (bytesText items).length) :
    ∃ p', readEdidDataforTextFile p pEdid = .ret (false, p', pEdid) := by
  have hne : renderText items ++ r ≠ [] := by
    intro h
    have h0 : renderText items = [] := (List.append_eq_nil.1 h).1
    cases items with
    | nil => simp [bytesText, MAX_EDID_SIZE] at hcap
    | cons i items =>
      cases i <;> simp [renderText, TextItem.render] at h0
  have hlen := (drop_append_of_drop hd).2 hne
  obtain ⟨n, hn⟩ : ∃ n, p.length + 2 = n + (renderText items).length :=
    ⟨p.length + 2 - (renderText items).length, by simp only [FileRec.length]; omega⟩
  obtain ⟨x, hx⟩ := text_items_cap items p [] n r hw hd (by decide) (by simpa using hcap)
  have hs : scratch [] = List.replicate MAX_EDID_SIZE 0 := by simp [scratch]
  rw [hs] at hx
  simp only [List.length_nil] at hx
  rw [readEdidDataforTextFile, hn, hx]
  exact ⟨x.1, by simp [saveEdidData]⟩


/-! ## Text-style tables as token streams -/

theorem renderText_append (a b : List TextItem) :
    renderText (a ++ b) = renderText a ++ renderText b := by
  induction a with
  | nil => rfl
  | cons i a ih => simp [renderText, ih]

theorem bytesText_append (a b : List TextItem) :
    bytesText (a ++ b) = bytesText a ++ bytesText b := by
  induction a with
  | nil => rfl
  | cons i a ih => simp [bytesText, ih]

theorem wfText_append (a b : List TextItem) (f : List Nat) :
    wfText (a ++ b) f = (wfText a (renderText b ++ f) && wfText b f) := by
  induction a with
  | nil => simp [wfText]
  | cons i a ih => simp [wfText, ih, renderText_append, Bool.and_assoc]

theorem render_moreItems (more : List (Nat × HexPair)) :
    renderText (moreItems more) = renderMore more := by
  induction more with
  | nil => rfl
  | cons m more ih =>
    simp only [moreItems, renderText, renderMore, ih]
    split <;> simp_all [TextItem.render, HexPair.render]

theorem bytes_moreItems (more : List (Nat × HexPair)) :
    bytesText (moreItems more) = more.map (fun m => m.2.b) := by
  induction more with
  | nil => rfl
  | cons m more ih =>
    simp only [moreItems, bytesText, ih]
    split <;> simp [TextItem.bytes]

theorem render_pairItems (row : TextRow) :
    renderText (pairItems row) = row.first.render ++ renderMore row.more := by
  simp [pairItems, renderText, render_moreItems, TextItem.render, HexPair.render]

theorem render_rowItems (row : TextRow) : renderText (rowItems row) = row.render := by
  rw [rowItems, renderText_append, render_pairItems]
  simp [renderText, TextItem.render, TextRow.render, CRLF]

theorem render_rowsItems (rows : List TextRow) : renderText (rowsItems rows) = renderRows rows := by
  induction rows with
  | nil => rfl
  | cons row rows ih => simp [rowsItems, renderRows, renderText_append, render_rowItems, ih]

theorem bytes_pairItems (row : TextRow) : bytesText (pairItems row) = row.bytes := by
  simp [pairItems, bytesText, bytes_moreItems, TextItem.bytes, TextRow.bytes]

theorem bytes_rowsItems (rows : List TextRow) : bytesText (rowsItems rows) = bytesRows rows := by
  induction rows with
  | nil => rfl
  | cons row rows ih =>
    rw [rowsItems, rowItems, bytesText_append, bytesText_append, bytes_pairItems, ih]
    simp [bytesRows, bytesText, TextItem.bytes]


theorem hexDigit_not_space (u : Bool) (v : Nat) (hv : v < 16) :
    isspace (hexDigit u v) = false ∧ hexDigit u v ≠ 13 :=
  ⟨not_isspace_of_hex (hexDigit_spec u v hv).1, by
    have := (IS_HEX_iff _).1 (hexDigit_spec u v hv).1; omega⟩

theorem wf_moreItems (more : List (Nat × HexPair)) (f : List Nat)
    (h : more.all (fun m => (m.1 == 32 || m.1 == 45) && decide (m.2.b < 256)) = true) :
    wfText (moreItems more) f = true := by
  induction more with
  | nil => rfl
  | cons m more ih =>
    simp only [List.all_cons, Bool.and_eq_true, Bool.or_eq_true, beq_iff_eq,
      decide_eq_true_eq] at h
    obtain ⟨⟨hsep, hb⟩, hmore⟩ := h
    have ih := ih (by simpa using hmore)
    simp only [moreItems, wfText, renderText, Bool.and_eq_true]
    refine ⟨?_, ?_, ih⟩
    · by_cases h45 : m.1 = 45
      · simp [h45, TextItem.ok]
      · have h32 : m.1 = 32 := by omega
        simp only [h45, if_false, TextItem.ok, TextItem.render, List.cons_append,
          Bool.and_eq_true, Bool.not_eq_true']
        exact ⟨by simp [h32, isspace], (hexDigit_not_space _ _ (by omega)).1⟩
    · simp [TextItem.ok, hb]

theorem wf_pairItems (row : TextRow) (f : List Nat) (h : row.wf = true) :
    wfText (pairItems row) f = true := by
  simp only [TextRow.wf, Bool.and_eq_true, decide_eq_true_eq] at h
  simp only [pairItems, wfText, Bool.and_eq_true]
  exact ⟨by simp [TextItem.ok, h.1.1.1.1], wf_moreItems _ _ h.1.1.1.2⟩

/-- The characters of the pairs of a row start with a hex digit. -/
theorem pairItems_head (row : TextRow) (h : row.wf = true) (f : List Nat) :
    ∃ d t, renderText (pairItems row) ++ f = d :: t ∧ isspace d = false ∧ d ≠ 13 := by
  simp only [TextRow.wf, Bool.and_eq_true, decide_eq_true_eq] at h
  have hb : row.first.b / 16 < 16 := by have := h.1.1.1.1; omega
  exact ⟨hexDigit row.first.u1 (row.first.b / 16),
    hexDigit row.first.u2 (row.first.b % 16) :: (renderText (moreItems row.more) ++ f),
    by simp [pairItems, renderText, TextItem.render],
    hexDigit_not_space _ _ hb⟩

theorem wf_rowItems (row : TextRow) (h : row.wf = true) (f : List Nat) (d : Nat) (t : List Nat)
    (hf : f = d :: t) (hd : isspace d = false) (hd13 : d ≠ 13) :
    wfText (rowItems row) f = true := by
  rw [rowItems, wfText_append, wf_pairItems row _ h]
  simp only [TextRow.wf, Bool.and_eq_true, decide_eq_true_eq] at h
  obtain ⟨⟨⟨-, hgap⟩, hcol⟩, hno⟩ := h
  have hhead : isspace ((row.column ++ [13]).headD 0) = true := by
    cases hc : row.column with
    | nil => simp [hc] at hcol
    | cons w c => simpa [hc] using hcol
  subst hf
  have h10 : isspace 10 = true := by decide
  simp [wfText, TextItem.ok, renderText, TextItem.render, hgap, hno, hd, hd13, h10]
  simpa using hhead

/-- The tokens of a table are well formed: rows each followed by another row,
then the pairs of the last row. -/
theorem wf_table (rows : List TextRow) (last : TextRow) (f : List Nat)
    (hrows : ∀ row ∈ rows, row.wf = true) (hlast : last.wf = true) :
    wfText (rowsItems rows ++ pairItems last) f = true ∧
    ∃ d t, renderText (rowsItems rows ++ pairItems last) ++ f = d :: t ∧
      isspace d = false ∧ d ≠ 13 := by
  induction rows with
  | nil =>
    exact ⟨by simpa [rowsItems] using wf_pairItems last f hlast,
      by simpa [rowsItems] using pairItems_head last hlast f⟩
  | cons row rows ih =>
    have hrow : row.wf = true := hrows row (List.mem_cons_self _ _)
    obtain ⟨ih1, d, t, ih2, hd, hd13⟩ := ih (fun r hr => hrows r (List.mem_cons_of_mem _ hr))
    constructor
    · rw [rowsItems, List.append_assoc, wfText_append, ih1,
        wf_rowItems row hrow _ d t ih2 hd hd13]
      rfl
    · obtain ⟨d', t', h', hd', hd13'⟩ := pairItems_head row hrow
        (renderText ([TextItem.skip row.gap row.column, TextItem.space 10] ++
          (rowsItems rows ++ pairItems last)) ++ f)
      refine ⟨d', t', ?_, hd', hd13'⟩
      rw [← h']
      simp [rowsItems, rowItems, renderText_append, List.append_assoc]


/-- The log decoder fails on a well-formed stream that holds `MAX_EDID_SIZE`
byte pairs or more, whatever follows the stream. -/
theorem log_decode_cap {p : FileRec} {items : List LogItem} {r : List Nat} (pEdid : EdidRec)
    (hw : ∀ i ∈ items, i.wf = true)
    (hd : p.start.drop p.current = renderLog items ++ r)
    (hcap : MAX_EDID_SIZE ≤ (bytesLog items).length) :
    ∃ p', readEdidDataforLogFile p pEdid = .ret (false, p', pEdid) := by
  have hne : renderLog items ++ r ≠ [] := by
    intro h
    have h0 : renderLog items = [] := (List.append_eq_nil.1 h).1
    cases items with
    | nil => simp [bytesLog, MAX_EDID_SIZE] at hcap
    | cons i items =>
      cases i <;> simp [renderLog, LogItem.render] at h0
  have hlen := (drop_append_of_drop hd).2 hne
  obtain ⟨n, hn⟩ : ∃ n, p.length + 2 = n + (renderLog items).length :=
    ⟨p.length + 2 - (renderLog items).length, by simp only [FileRec.length]; omega⟩
  obtain ⟨r, hr⟩ := log_items_cap items p [] n r hw hd (by decide) (by simpa using hcap)
  have hs : scratch [] = List.replicate MAX_EDID_SIZE 0 := by simp [scratch]
  rw [hs] at hr
  simp only [List.length_nil] at hr
  rw [readEdidDataforLogFile, hn, hr]
  exact ⟨r.1, by simp [saveEdidData]⟩

/-- A stream of `n` copies of one byte. -/
theorem bytesLog_replicate (n b : Nat) (u1 u2 : Bool) :
    bytesLog (List.replicate n (LogItem.byte b u1 u2)) = List.replicate n b := by
  induction n with
  | zero => rfl
  | succ n ih => simp [List.replicate_succ, bytesLog, LogItem.bytes, ih]

theorem wf_replicate (n : Nat) (i : LogItem) (h : i.wf = true) :
    ∀ j ∈ List.replicate n i, j.wf = true := by
  intro j hj
  rw [List.eq_of_mem_replicate hj]
  exact h

/-- C4. The log decoder round trip: on a stream that renders the bytes `bs`
(1 to 4095 of them) as hex pairs, high nibble first and each digit in either
case, with non-newline whitespace and newline-label-colon groups anywhere
between the pairs, and that is ended by a `-` inside the view,
`readEdidDataforLogFile` succeeds, stores exactly `bs` with size `|bs|`, and
leaves the cursor on that `-`. -/
theorem C4_log_decoder_round_trip (bs : List Nat) (items : List LogItem)
    (before rest beyond : List Nat) (pEdid : EdidRec)
    (hw : ∀ i ∈ items, i.wf = true) (hbs : bytesLog items = bs)
    (h1 : 1 ≤ bs.length) (h2 : bs.length < 4096) :
    readEdidDataforLogFile ⟨before ++ (renderLog items ++ 45 :: rest), beyond, before.length⟩
        pEdid =
      .ret (true,
        ⟨before ++ (renderLog items ++ 45 :: rest), beyond,
          before.length + (renderLog items).length⟩,
        { pEdid with size := bs.length, bytes := some bs }) ∧
    FileRec.peek ⟨before ++ (renderLog items ++ 45 :: rest), beyond,
      before.length + (renderLog items).length⟩ 0 = some 45 := by
  subst hbs
  constructor
  · exact log_decode_ok (p := ⟨before ++ (renderLog items ++ 45 :: rest), beyond, before.length⟩)
      pEdid hw (r := rest) (by simp) h1 h2
  · exact (FileRec.peek_of_drop (r := rest) (by simp [← List.append_assoc])).1

theorem C4_log_decoder_round_trip_witness :
    readEdidDataforLogFile
        ⟨bytesOf "Raw EDID bytes:" ++
          (renderLog [.label (bytesOf "(--) NVIDIA(0)"), .space 32, .byte 0 false false,
              .space 32, .byte 255 true false, .space 9, .byte 90 false true,
              .label (bytesOf "(--) NVIDIA(0)"), .space 32] ++
            45 :: bytesOf "-- End"), [], (bytesOf "Raw EDID bytes:").length⟩ EdidRec.fresh =
      .ret (true,
        ⟨bytesOf "Raw EDID bytes:" ++
          (renderLog [.label (bytesOf "(--) NVIDIA(0)"), .space 32, .byte 0 false false,
              .space 32, .byte 255 true false, .space 9, .byte 90 false true,
              .label (bytesOf "(--) NVIDIA(0)"), .space 32] ++
            45 :: bytesOf "-- End"), [],
          (bytesOf "Raw EDID bytes:").length +
            (renderLog [.label (bytesOf "(--) NVIDIA(0)"), .space 32, .byte 0 false false,
              .space 32, .byte 255 true false, .space 9, .byte 90 false true,
              .label (bytesOf "(--) NVIDIA(0)"), .space 32]).length⟩,
        { EdidRec.fresh with size := [0, 255, 90].length, bytes := some [0, 255, 90] }) ∧
    FileRec.peek ⟨bytesOf "Raw EDID bytes:" ++
          (renderLog [.label (bytesOf "(--) NVIDIA(0)"), .space 32, .byte 0 false false,
              .space 32, .byte 255 true false, .space 9, .byte 90 false true,
              .label (bytesOf "(--) NVIDIA(0)"), .space 32] ++
            45 :: bytesOf "-- End"), [],
          (bytesOf "Raw EDID bytes:").length +
            (renderLog [.label (bytesOf "(--) NVIDIA(0)"), .space 32, .byte 0 false false,
              .space 32, .byte 255 true false, .space 9, .byte 90 false true,
              .label (bytesOf "(--) NVIDIA(0)"), .space 32]).length⟩ 0 = some 45 :=
  C4_log_decoder_round_trip [0, 255, 90] _ _ _ _ _ (by decide) (by decide) (by decide)
    (by decide)


theorem bytesText_replicate (n b : Nat) (u1 u2 : Bool) :
    bytesText (List.replicate n (TextItem.byte b u1 u2)) = List.replicate n b := by
  induction n with
  | zero => rfl
  | succ n ih => simp [List.replicate_succ, bytesText, TextItem.bytes, ih]

theorem wfText_replicate (n b : Nat) (u1 u2 : Bool) (f : List Nat) (h : b < 256) :
    wfText (List.replicate n (TextItem.byte b u1 u2)) f = true := by
  induction n with
  | zero => rfl
  | succ n ih => simp [List.replicate_succ, wfText, TextItem.ok, h, ih]

/-- C7. Exceeding the cap fails, in both variants: when the view from the cursor
on starts with a well-formed stream that holds more than 4096 hex byte pairs (so
that no success condition is met before them), the decoder returns failure and
leaves the record untouched. -/
theorem C7_cap_exceeded_fails (p : FileRec) (pEdid : EdidRec) (r : List Nat) :
    (∀ items : List LogItem, (∀ i ∈ items, i.wf = true) →
      p.start.drop p.current = renderLog items ++ r → 4096 < (bytesLog items).length →
      ∃ q, readEdidDataforLogFile p pEdid = .ret (false, q, pEdid)) ∧
    (∀ items : List TextItem, wfText items r = true →
      p.start.drop p.current = renderText items ++ r → 4096 < (bytesText items).length →
      ∃ q, readEdidDataforTextFile p pEdid = .ret (false, q, pEdid)) := by
  constructor
  · intro items hw hd hn
    exact log_decode_cap pEdid hw hd (by simp only [MAX_EDID_SIZE]; omega)
  · intro items hw hd hn
    exact text_decode_cap pEdid hw hd (by simp only [MAX_EDID_SIZE]; omega)

theorem C7_cap_exceeded_fails_witness :
    (∃ q, readEdidDataforLogFile
        ⟨renderLog (List.replicate 4097 (LogItem.byte 171 false true)) ++ [45], [], 0⟩
        EdidRec.fresh = .ret (false, q, EdidRec.fresh)) ∧
    (∃ q, readEdidDataforTextFile
        ⟨renderText (List.replicate 4097 (TextItem.byte 171 false true)) ++ [45], [], 0⟩
        EdidRec.fresh = .ret (false, q, EdidRec.fresh)) :=
  ⟨(C7_cap_exceeded_fails
      ⟨renderLog (List.replicate 4097 (LogItem.byte 171 false true)) ++ [45], [], 0⟩
      EdidRec.fresh [45]).1 (List.replicate 4097 (LogItem.byte 171 false true))
      (wf_replicate 4097 (LogItem.byte 171 false true) (by decide)) (by rfl)
      (by rw [bytesLog_replicate, List.length_replicate]; decide),
   (C7_cap_exceeded_fails
      ⟨renderText (List.replicate 4097 (TextItem.byte 171 false true)) ++ [45], [], 0⟩
      EdidRec.fresh [45]).2 (List.replicate 4097 (TextItem.byte 171 false true))
      (wfText_replicate 4097 171 false true _ (by decide)) (by rfl)
      (by rw [bytesText_replicate, List.length_replicate]; decide)⟩

/-- C8 (as amended). The cap: a well-formed log-style stream of exactly 4095
byte pairs followed by the `-` of the footer decodes into a record of 4095
bytes, and a stream of exactly 4096 byte pairs is a failure, whatever follows
it; so the byte sequence of a record is 1 to 4095 long. -/
theorem C8_cap_boundary (p : FileRec) (pEdid : EdidRec) (items : List LogItem) (r : List Nat)
    (hw : ∀ i ∈ items, i.wf = true) :
    ((bytesLog items).length = 4095 → p.start.drop p.current = renderLog items ++ 45 :: r →
      readEdidDataforLogFile p pEdid =
        .ret (true, p.advance (renderLog items).length,
          { pEdid with size := 4095, bytes := some (bytesLog items) })) ∧
    ((bytesLog items).length = 4096 → p.start.drop p.current = renderLog items ++ r →
      ∃ q, readEdidDataforLogFile p pEdid = .ret (false, q, pEdid)) := by
  constructor
  · intro hn hd
    rw [log_decode_ok pEdid hw hd (by omega) (by simp only [MAX_EDID_SIZE]; omega), hn]
  · intro hn hd
    exact log_decode_cap pEdid hw hd (by simp only [MAX_EDID_SIZE]; omega)

theorem C8_cap_boundary_witness :
    readEdidDataforLogFile
        ⟨renderLog (List.replicate 4095 (LogItem.byte 171 false true)) ++ 45 :: FOOTER.tail,
          [], 0⟩ EdidRec.fresh =
      .ret (true,
        FileRec.advance
          ⟨renderLog (List.replicate 4095 (LogItem.byte 171 false true)) ++ 45 :: FOOTER.tail,
            [], 0⟩ (renderLog (List.replicate 4095 (LogItem.byte 171 false true))).length,
        { EdidRec.fresh with
          size := 4095,
          bytes := some (bytesLog (List.replicate 4095 (LogItem.byte 171 false true))) }) :=
  (C8_cap_boundary
      ⟨renderLog (List.replicate 4095 (LogItem.byte 171 false true)) ++ 45 :: FOOTER.tail,
        [], 0⟩ EdidRec.fresh (List.replicate 4095 (LogItem.byte 171 false true)) FOOTER.tail
      (wf_replicate 4095 (LogItem.byte 171 false true) (by decide))).1
    (by rw [bytesLog_replicate, List.length_replicate]) (by rfl)

/-- C8 fails as stated. The well-formed stream of exactly 4096 pairs `aB`
followed by the footer is rejected: the decoder returns failure and stores no
record. -/
theorem C8_counterexample :
    (∀ i ∈ List.replicate 4096 (LogItem.byte 171 false true), i.wf = true) ∧
    (bytesLog (List.replicate 4096 (LogItem.byte 171 false true))).length = 4096 ∧
    ∃ q, readEdidDataforLogFile
        ⟨renderLog (List.replicate 4096 (LogItem.byte 171 false true)) ++
          (FOOTER ++ bytesOf "DFP-1 ---"), [], 0⟩ EdidRec.fresh =
      .ret (false, q, EdidRec.fresh) :=
  ⟨wf_replicate 4096 _ (by decide), by rw [bytesLog_replicate, List.length_replicate],
    log_decode_cap EdidRec.fresh (wf_replicate 4096 (LogItem.byte 171 false true) (by decide)) (by rfl)
      (by rw [bytesLog_replicate, List.length_replicate]; decide)⟩


/-! ## The literal searches -/

theorem headerLoop_eq (n : Nat) : ∀ p : FileRec,
    findEdidHeaderforLogFile.loop n p =
      (search 15 HEADER n p).bind fun r =>
        if r.1 then .ret (true, r.2.advance 15) else .ret r := by
  induction n with
  | zero => intro p; rfl
  | succ n ih =>
    intro p
    rw [findEdidHeaderforLogFile.loop, search, ih]
    split <;> [split; skip] <;> rfl

theorem versionLoop_eq (n : Nat) : ∀ p : FileRec,
    findEdidfooterforTextFile.loop n p =
      (search 12 EDID_VERSION n p).bind fun r =>
        if r.1 then .ret (true, { r.2 with current := 0 }) else .ret r := by
  induction n with
  | zero => intro p; rfl
  | succ n ih =>
    intro p
    rw [findEdidfooterforTextFile.loop, search, ih]
    split <;> [split; skip] <;> rfl

theorem footerLoop_eq (n : Nat) (begin : Nat) (e : EdidRec) : ∀ p : FileRec,
    readEdidFooterforLogFile.loop n p begin e =
      (search 5 TERMINATOR n p).bind fun r =>
        if r.1 then .ret (captureName r.2 begin e) else .ret (false, r.2, e) := by
  induction n with
  | zero => intro p; rfl
  | succ n ih =>
    intro p
    rw [readEdidFooterforLogFile.loop, search, ih]
    split <;> [split; skip] <;> rfl

theorem monitorFind_eq (n : Nat) : ∀ p : FileRec,
    readMonitorNameforTextFile.find n p =
      (search 12 MONITOR_NAME n p).bind fun r =>
        if r.1 then .ret (true, r.2.advance 12) else .ret r := by
  induction n with
  | zero => intro p; rfl
  | succ n ih =>
    intro p
    rw [readMonitorNameforTextFile.find, search, ih]
    split <;> [split; skip] <;> rfl

theorem monitorLoop_eq (n : Nat) (begin : Nat) (e : EdidRec) : ∀ p : FileRec,
    readMonitorNameforTextFile.loop n p begin e =
      (search 2 CRLF n p).bind fun r =>
        if r.1 then .ret (captureName r.2 begin e) else .ret (false, r.2, e) := by
  induction n with
  | zero => intro p; rfl
  | succ n ih =>
    intro p
    rw [readMonitorNameforTextFile.loop, search, ih]
    split <;> [split; skip] <;> rfl

/-- A literal whose first character does not recur in it cannot start inside a
text that does not contain it and run over into a following copy of itself. -/
theorem no_early_match {lit t s : List Nat} (post : List Nat) {a : Nat} (hl : lit = a :: t)
    (ha : a ∉ t) (hs : ¬ lit <:+: s) (j : Nat) (hj : j < s.length) :
    ¬ lit <+: (s ++ lit ++ post).drop j := by
  intro hp
  have hdrop : (s ++ lit ++ post).drop j = s.drop j ++ (lit ++ post) := by
    rw [List.append_assoc, List.drop_append_of_le_length (by omega)]
  rw [hdrop] at hp
  have hu : s.drop j ≠ [] := by
    intro h
    have := congrArg List.length h
    simp at this; omega
  by_cases hle : lit.length ≤ (s.drop j).length
  · have : lit <+: s.drop j :=
      List.prefix_of_prefix_length_le hp (List.prefix_append _ _) hle
    exact hs (this.isInfix.trans (List.drop_suffix j s).isInfix)
  · have hpre : s.drop j <+: lit :=
      List.prefix_of_prefix_length_le (List.prefix_append _ _) hp (by omega)
    obtain ⟨v, hv⟩ := hpre
    obtain ⟨w, hw⟩ := hp
    have hw1 : s.drop j ++ (v ++ w) = s.drop j ++ (lit ++ post) := by
      rw [← List.append_assoc, hv]; exact hw
    have hw2 := List.append_cancel_left hw1
    cases hu' : s.drop j with
    | nil => exact hu hu'
    | cons b u =>
      rw [hu', hl] at hv
      simp only [List.cons_append, List.cons.injEq] at hv
      cases v with
      | nil =>
        have := congrArg List.length hv.2
        rw [hu'] at hle
        simp [hl] at this hle
        omega
      | cons c v =>
        rw [hl] at hw2
        simp only [List.cons_append, List.cons.injEq] at hw2
        apply ha
        rw [← hv.2, ← hw2.1]
        simp

theorem FileRec.litAt_advance (p : FileRec) (lit : List Nat) (j : Nat)
    (h : p.current ≤ p.length) :
    (p.advance j).litAt lit = true ↔ lit <+: (p.start.drop p.current ++ p.beyond).drop j := by
  rw [FileRec.litAt_iff, FileRec.advance_mem, FileRec.advance_current, ← List.drop_drop,
    FileRec.mem_drop p h]

/-- The search finds a literal that stands after a text free of it. -/
theorem search_in (need : Nat) (lit : List Nat) {t s post : List Nat} {a : Nat} {p : FileRec}
    (hl : lit = a :: t) (ha : a ∉ t) (hs : ¬ lit <:+: s)
    (hd : p.start.drop p.current = s ++ lit ++ post)
    (hneed : need ≤ lit.length + post.length) (fuel : Nat) (hf : s.length < fuel) :
    search need lit fuel p = .ret (true, p.advance s.length) := by
  have hlen := (drop_append_of_drop hd).2 (by simp [hl])
  have hcur : p.current ≤ p.length := by simp only [FileRec.length]; omega
  apply search_found need lit s.length fuel p hf
  · simp only [List.length_append] at hlen
    simp only [FileRec.length]; omega
  · rw [FileRec.litAt_advance p lit _ hcur, hd]
    simp [List.append_assoc]
  · intro j hj
    rw [Bool.eq_false_iff, ne_eq, FileRec.litAt_advance p lit _ hcur, hd]
    have := no_early_match (post ++ p.beyond) hl ha hs j hj
    simpa [List.append_assoc] using this

/-- Within the view, a match of the search is an occurrence in the view. -/
theorem litAt_occurs {p : FileRec} {lit : List Nat} {j : Nat}
    (hlen : p.current + j + lit.length ≤ p.length)
    (h : (p.advance j).litAt lit = true) : lit <:+: p.start.drop p.current := by
  have hcur : p.current ≤ p.length := by omega
  rw [FileRec.litAt_advance p lit _ hcur] at h
  have hj : j ≤ (p.start.drop p.current).length := by
    rw [List.length_drop]; simp only [FileRec.length] at hlen; omega
  rw [List.drop_append_of_le_length hj] at h
  have h2 : lit <+: (p.start.drop p.current).drop j :=
    List.prefix_of_prefix_length_le h (List.prefix_append _ _)
      (by rw [List.length_drop, List.length_drop]; simp only [FileRec.length] at hlen; omega)
  exact h2.isInfix.trans (List.drop_suffix j _).isInfix

/-- An occurrence in the rest of the view is a match of the search. -/
theorem occurs_litAt {p : FileRec} {lit : List Nat}
    (h : lit <:+: p.start.drop p.current) (hcur : p.current ≤ p.length) :
    ∃ j, p.current + j + lit.length ≤ p.length ∧ (p.advance j).litAt lit = true := by
  obtain ⟨s, post, hsp⟩ := h
  refine ⟨s.length, ?_, ?_⟩
  · have := congrArg List.length hsp
    simp only [List.length_append, List.length_drop] at this
    simp only [FileRec.length] at hcur ⊢; omega
  · rw [FileRec.litAt_advance p lit _ hcur, ← hsp]
    simp [List.append_assoc]

/-- The search fails exactly when the literal does not occur in the rest of the
view (for a search that needs as many bytes as the literal has). -/
theorem search_absent (lit : List Nat) {p : FileRec} (hl : 1 ≤ lit.length)
    (hs : ¬ lit <:+: p.start.drop p.current) (fuel : Nat)
    (hf : p.length + 1 - p.current ≤ fuel) (hf0 : 0 < fuel) (need : Nat)
    (hneed : lit.length ≤ need) :
    search need lit fuel p = .ret (false, { p with current := restCursor need p }) := by
  apply search_none need lit (by omega) fuel p hf hf0
  intro j hj
  rw [Bool.eq_false_iff]
  intro h
  exact hs (litAt_occurs (by omega) h)

theorem search_present {lit : List Nat} {p : FileRec}
    (hs : lit <:+: p.start.drop p.current) (hcur : p.current ≤ p.length) (fuel : Nat)
    (hf : p.length + 1 - p.current ≤ fuel) :
    ∃ j, p.current + j + lit.length ≤ p.length ∧
      search lit.length lit fuel p = .ret (true, p.advance j) := by
  classical
  have hex := occurs_litAt hs hcur
  refine ⟨Nat.find hex, (Nat.find_spec hex).1, ?_⟩
  apply search_found lit.length lit (Nat.find hex) fuel p
  · have := (Nat.find_spec hex).1; omega
  · exact (Nat.find_spec hex).1
  · exact (Nat.find_spec hex).2
  · intro j hj
    have := Nat.find_min hex hj
    rw [Bool.eq_false_iff]
    intro h
    apply this
    exact ⟨by have := (Nat.find_spec hex).1; omega, h⟩


/-! ## Format detection and unrecognized input -/

theorem HEADER_length : HEADER.length = 15 := by decide
theorem EDID_VERSION_length : EDID_VERSION.length = 12 := by decide

/-- The header search from a cursor inside the view. -/
theorem findEdidHeaderforLogFile_spec (p : FileRec) (hcur : p.current ≤ p.length) :
    (HEADER <:+: p.start.drop p.current ∧
      ∃ j, p.current + j + 15 ≤ p.length ∧
        findEdidHeaderforLogFile p = .ret (true, p.advance (j + 15))) ∨
    (¬ HEADER <:+: p.start.drop p.current ∧
      findEdidHeaderforLogFile p = .ret (false, { p with current := restCursor 15 p })) := by
  rw [findEdidHeaderforLogFile, headerLoop_eq]
  by_cases h : HEADER <:+: p.start.drop p.current
  · left
    obtain ⟨j, hj, hs⟩ := search_present h hcur (p.length + 1) (by omega)
    rw [HEADER_length] at hj hs
    exact ⟨h, j, hj, by rw [hs]; simp [FileRec.advance_advance]⟩
  · right
    refine ⟨h, ?_⟩
    rw [search_absent _ (by decide) h (p.length + 1) (by omega) (by omega) 15 (by decide)]
    simp

theorem findEdidfooterforTextFile_spec (p : FileRec) :
    (EDID_VERSION <:+: p.start ∧
      findEdidfooterforTextFile p = .ret (true, { p with current := 0 })) ∨
    (¬ EDID_VERSION <:+: p.start ∧
      findEdidfooterforTextFile p =
        .ret (false, { p with current := restCursor 12 { p with current := 0 } })) := by
  rw [findEdidfooterforTextFile, versionLoop_eq]
  by_cases h : EDID_VERSION <:+: p.start
  · left
    obtain ⟨j, hj, hs⟩ := search_present (p := { p with current := 0 }) (by simpa using h)
      (by simp) (p.length + 1) (by simp [FileRec.length])
    rw [EDID_VERSION_length] at hs
    exact ⟨h, by rw [hs]; simp [FileRec.advance]⟩
  · right
    refine ⟨h, ?_⟩
    rw [search_absent _ (p := { p with current := 0 }) (by decide) (by simpa using h)
      (p.length + 1) (by simp [FileRec.length]) (by omega) 12 (by decide)]
    simp

theorem findFileType_spec (view beyond : List Nat) :
    ∃ t p, findFileType ⟨view, beyond, 0⟩ = .ret (t, p) ∧
      (t = LOG_FILE ↔ HEADER <:+: view) ∧
      (t = TEXT_FILE ↔ ¬ HEADER <:+: view ∧ EDID_VERSION <:+: view) ∧
      (t = UNKNOWN_FILE ↔ ¬ HEADER <:+: view ∧ ¬ EDID_VERSION <:+: view) := by
  rcases findEdidHeaderforLogFile_spec ⟨view, beyond, 0⟩ (by simp [FileRec.length])
    with ⟨h, j, -, hr⟩ | ⟨h, hr⟩
  · refine ⟨LOG_FILE, _, by rw [findFileType, hr]; rfl, ?_⟩
    simp only [List.drop_zero] at h
    simp [h, LOG_FILE, TEXT_FILE, UNKNOWN_FILE]
  · simp only [List.drop_zero] at h
    rw [findFileType, hr]
    rcases findEdidfooterforTextFile_spec
      ({ start := view, beyond := beyond, current := restCursor 15 ⟨view, beyond, 0⟩ })
      with ⟨h2, hr2⟩ | ⟨h2, hr2⟩
    · refine ⟨TEXT_FILE, _, by simp only [Res.ret_bind]; rw [hr2]; rfl, ?_⟩
      simp at h2
      simp [h, h2, LOG_FILE, TEXT_FILE, UNKNOWN_FILE]
    · refine ⟨UNKNOWN_FILE, _, by simp only [Res.ret_bind]; rw [hr2]; rfl, ?_⟩
      simp at h2
      simp [h, h2, LOG_FILE, TEXT_FILE, UNKNOWN_FILE]

/-- C3. Format detection: started at the view's start, `findFileType` returns
`LOG_FILE` exactly when the view contains the bytes `Raw EDID bytes:`,
`TEXT_FILE` exactly when it does not but contains `EDID Version`, and
`UNKNOWN_FILE` exactly when it contains neither; so a view with both markers is
a log file. The comparison is byte-exact: the lower-case markers are not
recognised. -/
theorem C3_findFileType_classification (view beyond : List Nat) :
    (∃ t p, findFileType ⟨view, beyond, 0⟩ = .ret (t, p) ∧
      (t = LOG_FILE ↔ HEADER <:+: view) ∧
      (t = TEXT_FILE ↔ ¬ HEADER <:+: view ∧ EDID_VERSION <:+: view) ∧
      (t = UNKNOWN_FILE ↔ ¬ HEADER <:+: view ∧ ¬ EDID_VERSION <:+: view)) ∧
    (HEADER <:+: view → EDID_VERSION <:+: view →
      ∃ p, findFileType ⟨view, beyond, 0⟩ = .ret (LOG_FILE, p)) ∧
    (∃ p, findFileType ⟨bytesOf "raw edid bytes: edid version", beyond, 0⟩ =
      .ret (UNKNOWN_FILE, p)) := by
  refine ⟨findFileType_spec view beyond, ?_, ?_⟩
  · intro h _
    obtain ⟨t, p, hr, h1, -, -⟩ := findFileType_spec view beyond
    exact ⟨p, by rw [hr, h1.2 h]⟩
  · obtain ⟨t, p, hr, -, -, h3⟩ :=
      findFileType_spec (bytesOf "raw edid bytes: edid version") beyond
    exact ⟨p, by rw [hr, h3.2 ⟨by decide, by decide⟩]⟩

/-- C6. Unrecognized input is not an error: on a non-empty view that contains
neither `Raw EDID bytes:` nor `EDID Version`, `extract_edids` finds no record,
reports the count 0, attempts no write and returns `TRUE`. -/
theorem C6_unrecognized_is_success (view beyond : List Nat)
    (writeEdidFile : Nat → EdidRec → Bool) (hne : view ≠ [])
    (h1 : ¬ HEADER <:+: view) (h2 : ¬ EDID_VERSION <:+: view) :
    extract_edids (some (view, beyond)) writeEdidFile = .ret ⟨true, 0, []⟩ := by
  obtain ⟨t, p, hr, -, -, h3⟩ := findFileType_spec view beyond
  have ht : t = UNKNOWN_FILE := h3.2 ⟨h1, h2⟩
  have hl : view.length ≠ 0 := by simpa using hne
  simp only [extract_edids, hl, if_false, hr, Res.ret_bind, ht, if_true]
  rfl

theorem C6_unrecognized_is_success_witness :
    bytesOf "no display data here" ≠ [] ∧
    ¬ HEADER <:+: bytesOf "no display data here" ∧
    ¬ EDID_VERSION <:+: bytesOf "no display data here" ∧
    extract_edids (some (bytesOf "no display data here", [])) (fun _ _ => false) =
      .ret ⟨true, 0, []⟩ :=
  ⟨by decide, by decide, by decide,
    C6_unrecognized_is_success _ _ _ (by decide) (by decide) (by decide)⟩


/-! ## The footer and the monitor name -/

/-- A literal does not occur in a text that lacks its first character and is
followed by a text in which it does not occur. -/
theorem not_infix_append_of_not_mem {lit t : List Nat} {a : Nat} (hl : lit = a :: t)
    (junk g : List Nat) (hj : a ∉ junk) (hg : ¬ lit <:+: g) : ¬ lit <:+: junk ++ g := by
  induction junk with
  | nil => simpa using hg
  | cons c junk ih =>
    intro h
    rw [List.cons_append, List.infix_cons_iff] at h
    rcases h with h | h
    · obtain ⟨w, hw⟩ := h
      rw [hl] at hw
      simp only [List.cons_append, List.cons.injEq] at hw
      exact hj (by simp [hw.1])
    · exact ih (fun hm => hj (List.mem_cons_of_mem _ hm)) h

theorem FOOTER_length : FOOTER.length = 20 := by decide
theorem TERMINATOR_length : TERMINATOR.length = 4 := by decide
theorem MONITOR_NAME_length : MONITOR_NAME.length = 12 := by decide

theorem cString_append_zero (t rest : List Nat) : cString (cString t ++ 0 :: rest) = cString t := by
  induction t with
  | nil => simp [cString]
  | cons a t ih =>
    by_cases ha : a = 0
    · subst ha; simp [cString]
    · have h1 : cString (a :: t) = a :: cString t := by simp [cString, ha]
      rw [h1, List.cons_append]
      have h2 : ∀ l, cString (a :: l) = a :: cString l := fun l => by simp [cString, ha]
      rw [h2, ih]

theorem cString_of_no_nul {t : List Nat} (h : 0 ∉ t) : cString t = t := by
  simp only [cString, List.takeWhile_eq_self_iff]
  intro a ha
  simp only [bne_iff_ne, ne_eq]
  rintro rfl
  exact h ha

/-- The C string held by the buffer that `captureName` fills. -/
theorem cString_strncpy (text more : List Nat) :
    cString (strncpy (text ++ more) text.length ++ [0]) = cString text := by
  simp only [strncpy, List.take_left']
  rw [List.append_assoc]
  cases h : text.length - (cString text).length with
  | zero => simp [cString_append_zero]
  | succ m => rw [List.replicate_succ, List.cons_append, cString_append_zero]

theorem strncpy_of_no_nul {text : List Nat} (more : List Nat) (h : 0 ∉ text) :
    strncpy (text ++ more) text.length = text := by
  simp [strncpy, cString_of_no_nul h]


/-- A pointer difference below 2^31 is its own `int` value. -/
theorem toInt32_of_lt {n : Nat} (h : n < 2147483648) : toInt32 n = (n : Int) := by
  have h1 : n % 4294967296 = n := Nat.mod_eq_of_lt (by omega)
  simp only [toInt32, h1, h, if_true, Int.ofNat_eq_coe]

/-- The `int` value of a pointer difference, when it is positive, is the
difference modulo 2^32, which is at most the difference. -/
theorem toInt32_pos {n : Nat} (h : 1 ≤ toInt32 n) :
    toInt32 n = ((n % 4294967296 : Nat) : Int) ∧ n % 4294967296 ≤ n ∧ 1 ≤ n % 4294967296 := by
  have hle : n % 4294967296 ≤ n := Nat.mod_le _ _
  have hlt : n % 4294967296 < 4294967296 := Nat.mod_lt _ (by decide)
  simp only [toInt32] at h ⊢
  split at h
  · rename_i h1
    simp only [h1, if_true, Int.ofNat_eq_coe] at h ⊢
    exact ⟨trivial, hle, by omega⟩
  · simp only [Int.ofNat_eq_coe] at h
    omega

/-- The value of `captureName` when the text between `begin` and the cursor is known. -/
theorem captureName_eq {p : FileRec} {text more : List Nat} (begin : Nat) (e : EdidRec)
    (hcur : p.current = begin + text.length) (hm : p.mem.drop begin = text ++ more) :
    captureName p begin e =
      if 512 < toInt32 text.length ∨ toInt32 text.length < 1 then (false, p, e)
      else (true, p,
        { e with name := some (strncpy (text ++ more) (toInt32 text.length).toNat ++ [0]) }) := by
  have hlen : p.current - begin = text.length := by omega
  simp only [captureName, hlen, hm, gt_iff_lt, Bool.or_eq_true, decide_eq_true_eq]

theorem footer_no_literal {p : FileRec} (e : EdidRec)
    (h : ¬ FOOTER <+: p.start.drop p.current) :
    readEdidFooterforLogFile p e = .ret (false, p, e) := by
  rw [readEdidFooterforLogFile]
  by_cases h20 : p.current + 20 > p.length
  · simp [h20]
  · have hl : p.litAt FOOTER = false := by
      rw [Bool.eq_false_iff]
      intro hl
      have := FileRec.litAt_advance p FOOTER 0 (by omega)
      simp only [FileRec.advance_zero, List.drop_zero] at this
      rw [this] at hl
      exact h (List.prefix_of_prefix_length_le hl (List.prefix_append _ _)
        (by rw [List.length_drop, FOOTER_length]; simp only [FileRec.length] at h20; omega))
    simp [h20, hl]

theorem footer_literal {p : FileRec} {after : List Nat} (e : EdidRec)
    (hd : p.start.drop p.current = FOOTER ++ after) :
    readEdidFooterforLogFile p e =
      readEdidFooterforLogFile.loop (p.length + 1) (p.advance 20) (p.current + 20) e := by
  obtain ⟨hl, hlen, -⟩ := FileRec.litAt_of_drop (by decide) hd
  rw [FOOTER_length] at hlen
  have h20 : ¬ p.current + 20 > p.length := by omega
  simp [readEdidFooterforLogFile, h20, hl]

theorem footer_no_terminator {p : FileRec} {after : List Nat} (e : EdidRec)
    (hd : p.start.drop p.current = FOOTER ++ after) (ht : ¬ TERMINATOR <:+: after) :
    ∃ p', readEdidFooterforLogFile p e = .ret (false, p', e) := by
  obtain ⟨-, -, hd2⟩ := FileRec.litAt_of_drop (by decide) hd
  rw [FOOTER_length] at hd2
  rw [footer_literal e hd, footerLoop_eq,
    search_absent _ (p := p.advance 20) (by decide) (by rw [hd2]; exact ht) (p.length + 1)
      (by simp only [FileRec.advance_length, FileRec.advance_current]; omega) (by omega) 5
      (by decide)]
  exact ⟨_, rfl⟩

theorem footer_terminator_int {p : FileRec} {text post : List Nat} (e : EdidRec)
    (hd : p.start.drop p.current = FOOTER ++ (text ++ TERMINATOR ++ post))
    (ht : ¬ TERMINATOR <:+: text) (hpost : post ≠ []) :
    readEdidFooterforLogFile p e =
      .ret (if 512 < toInt32 text.length ∨ toInt32 text.length < 1 then
          (false, p.advance (20 + text.length), e)
        else (true, p.advance (20 + text.length),
          { e with name := some (strncpy (text ++ (TERMINATOR ++ post ++ p.beyond))
              (toInt32 text.length).toNat ++ [0]) })) := by
  obtain ⟨-, hlen, hd2⟩ := FileRec.litAt_of_drop (by decide) hd
  rw [FOOTER_length] at hd2 hlen
  simp only [List.length_append, TERMINATOR_length] at hlen
  have hpl : 1 ≤ post.length := List.length_pos.mpr hpost
  have hs := search_in 5 TERMINATOR (t := [45, 45, 45]) (a := 32)
    (by decide) (by decide) ht hd2 (by rw [TERMINATOR_length]; omega) (p.length + 1)
    (by omega)
  have hmem : ((p.advance 20).advance text.length).mem.drop (p.current + 20) =
      text ++ (TERMINATOR ++ post ++ p.beyond) := by
    have := FileRec.mem_drop (p.advance 20)
      (by simp only [FileRec.advance_current, FileRec.advance_length]; omega)
    simp only [FileRec.advance_mem, FileRec.advance_current, FileRec.advance_beyond] at this ⊢
    rw [this]
    simp only [FileRec.advance_start, FileRec.advance_current] at hd2
    simp only [FileRec.advance_start]
    rw [hd2]
    simp [List.append_assoc]
  rw [footer_literal e hd, footerLoop_eq, hs]
  simp only [Res.ret_bind, if_true]
  rw [captureName_eq (p.current + 20) e (by simp) hmem, FileRec.advance_advance]

/-- The footer parser on a text shorter than 2^31 bytes. -/
theorem footer_terminator {p : FileRec} {text post : List Nat} (e : EdidRec)
    (hd : p.start.drop p.current = FOOTER ++ (text ++ TERMINATOR ++ post))
    (ht : ¬ TERMINATOR <:+: text) (hpost : post ≠ []) (hsmall : text.length < 2147483648) :
    readEdidFooterforLogFile p e =
      .ret (if 512 < text.length ∨ text.length < 1 then (false, p.advance (20 + text.length), e)
        else (true, p.advance (20 + text.length),
          { e with name := some (strncpy (text ++ (TERMINATOR ++ post ++ p.beyond)) text.length
              ++ [0]) })) := by
  rw [footer_terminator_int e hd ht hpost, toInt32_of_lt hsmall]
  by_cases h : 512 < text.length ∨ text.length < 1
  · rw [if_pos (by omega), if_pos h]
  · rw [if_neg (by omega), if_neg h, Int.toNat_ofNat]


theorem colon_skip (mid : List Nat) : ∀ (p : FileRec) (n : Nat) (tail : List Nat),
    58 ∉ mid → p.start.drop p.current = mid ++ 58 :: tail →
    readMonitorNameforTextFile.colon (n + mid.length + 1) p = .ret (p.advance mid.length) := by
  induction mid with
  | nil =>
    intro p n tail _ hd
    simp only [List.nil_append] at hd
    obtain ⟨hp, -, -⟩ := FileRec.peek_of_drop hd
    simp [readMonitorNameforTextFile.colon, hp]
  | cons c mid ih =>
    intro p n tail hc hd
    simp only [List.cons_append] at hd
    obtain ⟨hp, -, hd2⟩ := FileRec.peek_of_drop hd
    have hc1 : c ≠ 58 := fun h => hc (by simp [h])
    have hc2 : 58 ∉ mid := fun h => hc (List.mem_cons_of_mem _ h)
    have hfuel : n + (c :: mid).length + 1 = (n + mid.length + 1) + 1 := by
      simp only [List.length_cons]; omega
    rw [hfuel, readMonitorNameforTextFile.colon, hp]
    simp only [Char.reduceToNat, ne_eq, hc1, not_false_eq_true, if_true]
    rw [ih (p.advance 1) n tail hc2 hd2, FileRec.advance_advance]
    simp [Nat.add_comm]

/-- The monitor-name parser up to the start of the name: the cursor is moved two
characters past the first `:` after the first `Monitor Name`. -/
theorem monitor_begin {p : FileRec} {s mid tail : List Nat} (e : EdidRec)
    (hd : p.start.drop p.current = s ++ MONITOR_NAME ++ (mid ++ 58 :: tail))
    (hs : ¬ MONITOR_NAME <:+: s) (hmid : 58 ∉ mid) :
    readMonitorNameforTextFile p e =
      readMonitorNameforTextFile.loop (p.length + 1)
        (p.advance (s.length + 12 + mid.length + 2)) (p.current + (s.length + 12 + mid.length + 2))
        e ∧
    p.start.drop (p.current + (s.length + 12 + mid.length + 2)) = tail.drop 1 ∧
    p.current + (s.length + 12 + mid.length + 1) + tail.length = p.length := by
  have hlen := (drop_append_of_drop hd).2 (by simp [MONITOR_NAME, bytesOf])
  simp only [List.length_append, MONITOR_NAME_length, List.length_cons] at hlen
  have hfind := search_in 12 MONITOR_NAME (a := 77)
    (t := bytesOf "onitor Name") (by decide) (by decide) hs hd
    (by rw [MONITOR_NAME_length]; omega) (p.length + 1) (by simp only [FileRec.length]; omega)
  have hd1 : p.start.drop (p.current + (s.length + 12)) = mid ++ 58 :: tail := by
    have := (drop_append_of_drop hd).1
    simpa [MONITOR_NAME_length, Nat.add_assoc] using this
  have hcol := colon_skip mid ((p.advance s.length).advance 12)
    (p.mem.length - mid.length) tail hmid
    (by simpa [FileRec.advance, Nat.add_assoc] using hd1)
  have hml : mid.length ≤ p.mem.length := by
    simp only [FileRec.mem, List.length_append]; omega
  have hd2 : p.start.drop (p.current + (s.length + 12 + mid.length + 2)) = tail.drop 1 := by
    have h1 := (drop_append_of_drop (a := mid ++ [58]) (b := tail)
      (by simpa using hd1)).1
    have h2 : p.current + (s.length + 12 + mid.length + 2) =
        (p.current + (s.length + 12) + (mid ++ [58]).length) + 1 := by
      simp only [List.length_append, List.length_singleton]; omega
    rw [h2, ← List.drop_drop, h1]
  refine ⟨?_, hd2, by simp only [FileRec.length]; omega⟩
  rw [readMonitorNameforTextFile, monitorFind_eq, hfind]
  simp only [Res.ret_bind, if_true, Bool.not_true, Bool.false_eq_true, if_false,
    FileRec.advance_mem]
  have hfuel : p.mem.length + 1 = p.mem.length - mid.length + mid.length + 1 := by omega
  rw [hfuel, hcol]
  simp only [Res.ret_bind, FileRec.advance_advance, FileRec.advance_length,
    FileRec.advance_current]
  simp [Nat.add_assoc]


theorem monitor_no_crlf {p : FileRec} {s mid tail : List Nat} (e : EdidRec)
    (hd : p.start.drop p.current = s ++ MONITOR_NAME ++ (mid ++ 58 :: tail))
    (hs : ¬ MONITOR_NAME <:+: s) (hmid : 58 ∉ mid) (hno : ¬ CRLF <:+: tail.drop 1) :
    ∃ p', readMonitorNameforTextFile p e = .ret (false, p', e) := by
  obtain ⟨hr, hd2, -⟩ := monitor_begin e hd hs hmid
  rw [hr, monitorLoop_eq,
    search_absent CRLF (p := p.advance (s.length + 12 + mid.length + 2)) (by decide)
      (by simpa using (hd2 ▸ hno)) (p.length + 1)
      (by simp only [FileRec.advance_length, FileRec.advance_current]; omega) (by omega) 2
      (by decide)]
  exact ⟨_, rfl⟩

theorem monitor_crlf_int {p : FileRec} (s mid tail text post : List Nat) (e : EdidRec)
    (hd : p.start.drop p.current = s ++ MONITOR_NAME ++ (mid ++ 58 :: tail))
    (hs : ¬ MONITOR_NAME <:+: s) (hmid : 58 ∉ mid)
    (htail : tail.drop 1 = text ++ CRLF ++ post) (ht : ¬ CRLF <:+: text) :
    readMonitorNameforTextFile p e =
      .ret (if 512 < toInt32 text.length ∨ toInt32 text.length < 1 then
          (false, p.advance (s.length + 12 + mid.length + 2 + text.length), e)
        else (true, p.advance (s.length + 12 + mid.length + 2 + text.length),
          { e with name := some (strncpy (text ++ (CRLF ++ post ++ p.beyond))
              (toInt32 text.length).toNat ++ [0]) })) := by
  obtain ⟨hr, hd2, hlen⟩ := monitor_begin e hd hs hmid
  rw [htail] at hd2
  have htl : tail.length = 1 + (text.length + 2 + post.length) := by
    have := congrArg List.length htail
    simp only [List.length_drop, List.length_append, CRLF, List.length_cons,
      List.length_nil] at this
    omega
  have hsr := search_in 2 CRLF (t := [10]) (a := 13)
    (p := p.advance (s.length + 12 + mid.length + 2))
    (by decide) (by decide) ht (by simpa using hd2) (by simp [CRLF]) (p.length + 1)
    (by omega)
  have hmem : ((p.advance (s.length + 12 + mid.length + 2)).advance text.length).mem.drop
      (p.current + (s.length + 12 + mid.length + 2)) = text ++ (CRLF ++ post ++ p.beyond) := by
    have := FileRec.mem_drop (p.advance (s.length + 12 + mid.length + 2))
      (by simp only [FileRec.advance_current, FileRec.advance_length]; omega)
    simp only [FileRec.advance_mem, FileRec.advance_current, FileRec.advance_beyond,
      FileRec.advance_start] at this ⊢
    rw [this, hd2]
    simp [List.append_assoc]
  rw [hr, monitorLoop_eq, hsr]
  simp only [Res.ret_bind, if_true]
  rw [captureName_eq _ e (by simp) hmem, FileRec.advance_advance]

/-- The monitor-name parser on a text shorter than 2^31 bytes. -/
theorem monitor_crlf {p : FileRec} (s mid tail text post : List Nat) (e : EdidRec)
    (hd : p.start.drop p.current = s ++ MONITOR_NAME ++ (mid ++ 58 :: tail))
    (hs : ¬ MONITOR_NAME <:+: s) (hmid : 58 ∉ mid)
    (htail : tail.drop 1 = text ++ CRLF ++ post) (ht : ¬ CRLF <:+: text)
    (hsmall : text.length < 2147483648) :
    readMonitorNameforTextFile p e =
      .ret (if 512 < text.length ∨ text.length < 1 then
          (false, p.advance (s.length + 12 + mid.length + 2 + text.length), e)
        else (true, p.advance (s.length + 12 + mid.length + 2 + text.length),
          { e with name := some (strncpy (text ++ (CRLF ++ post ++ p.beyond)) text.length
              ++ [0]) })) := by
  rw [monitor_crlf_int s mid tail text post e hd hs hmid htail ht, toInt32_of_lt hsmall]
  by_cases h : 512 < text.length ∨ text.length < 1
  · rw [if_pos (by omega), if_pos h]
  · rw [if_neg (by omega), if_neg h, Int.toNat_ofNat]


/-- The name that `strncpy` stores when it copies fewer characters than the text
has. -/
theorem cString_strncpy_take (text more : List Nat) (n : Nat) (hn : n ≤ text.length) :
    cString (strncpy (text ++ more) n ++ [0]) = cString (text.take n) := by
  have h := cString_strncpy (text.take n) (text.drop n ++ more)
  rw [← List.append_assoc, List.take_append_drop, List.length_take, Nat.min_eq_left hn] at h
  exact h

theorem strncpy_take_of_no_nul {text : List Nat} (more : List Nat) (n : Nat)
    (hn : n ≤ text.length) (h0 : 0 ∉ text) : strncpy (text ++ more) n = text.take n := by
  have h := @strncpy_of_no_nul (text.take n) (text.drop n ++ more)
    (fun hm => h0 (List.mem_of_mem_take hm))
  rw [← List.append_assoc, List.take_append_drop, List.length_take, Nat.min_eq_left hn] at h
  exact h

theorem hugeName_length : hugeName.length = 4294967297 := by
  rw [hugeName, List.length_cons, List.length_replicate]

theorem hugeName_no_char {c : Nat} (hc : c ≠ 97) : c ∉ hugeName := by
  rw [hugeName]
  intro h
  rcases List.mem_cons.1 h with h | h
  · exact hc h
  · exact hc (List.eq_of_mem_replicate h)

theorem strncpy_hugeName (more : List Nat) : strncpy (hugeName ++ more) 1 = [97] := by
  rw [hugeName]
  simp only [strncpy, List.cons_append, List.take_succ_cons, List.take_zero, cString]
  rfl

/-- C9 (as amended). The log footer: `readEdidFooterforLogFile` fails when the
20 bytes at the cursor are not `--- End of EDID for `, and when no ` ---` occurs
after them in the view. When the first ` ---` after them is followed by at least
one more byte of the view, the length of the text in between is taken as a C
`int` (its low 32 bits, in two's complement): the call fails if that value is
below 1 or above 512, and succeeds if it is 1..512, leaving the cursor on the
terminator; the name it stores is then the first so many characters of the
text, cut at their first NUL byte. For a text shorter than 2^31 bytes the value
is the length: the call fails for a length of 0 or of more than 512, and for a
length of 1..512 (1 and 512 included) the name is the text cut at its first NUL
byte, hence exactly the text when the text holds no NUL byte, and never a
truncation to 512 characters. -/
theorem C9_log_footer_name (p : FileRec) (e : EdidRec) :
    (¬ FOOTER <+: p.start.drop p.current →
      readEdidFooterforLogFile p e = .ret (false, p, e)) ∧
    (∀ after, p.start.drop p.current = FOOTER ++ after → ¬ TERMINATOR <:+: after →
      ∃ p', readEdidFooterforLogFile p e = .ret (false, p', e)) ∧
    (∀ text post, p.start.drop p.current = FOOTER ++ (text ++ TERMINATOR ++ post) →
      ¬ TERMINATOR <:+: text → post ≠ [] →
      ((toInt32 text.length < 1 ∨ 512 < toInt32 text.length) →
        readEdidFooterforLogFile p e = .ret (false, p.advance (20 + text.length), e)) ∧
      (1 ≤ toInt32 text.length → toInt32 text.length ≤ 512 →
        ∃ buf, readEdidFooterforLogFile p e =
            .ret (true, p.advance (20 + text.length), { e with name := some buf }) ∧
          cString buf = cString (text.take (text.length % 4294967296)) ∧
          (0 ∉ text → buf = text.take (text.length % 4294967296) ++ [0])) ∧
      (text.length < 2147483648 →
        ((text.length < 1 ∨ 512 < text.length) →
          readEdidFooterforLogFile p e = .ret (false, p.advance (20 + text.length), e)) ∧
        (1 ≤ text.length → text.length ≤ 512 →
          ∃ buf, readEdidFooterforLogFile p e =
              .ret (true, p.advance (20 + text.length), { e with name := some buf }) ∧
            cString buf = cString text ∧ (0 ∉ text → buf = text ++ [0])))) := by
  refine ⟨footer_no_literal e, fun after hd ht => footer_no_terminator e hd ht, ?_⟩
  intro text post hd ht hpost
  have hi := footer_terminator_int e hd ht hpost
  refine ⟨?_, ?_, ?_⟩
  · intro hbad
    rw [hi, if_pos (by omega)]
  · intro h1 h512
    obtain ⟨hv, hle, -⟩ := toInt32_pos h1
    have hn : (toInt32 text.length).toNat = text.length % 4294967296 := by
      rw [hv, Int.toNat_ofNat]
    refine ⟨_, by rw [hi, if_neg (by omega)], ?_, fun h0 => ?_⟩
    · rw [hn]
      exact cString_strncpy_take _ _ _ hle
    · rw [hn, strncpy_take_of_no_nul _ _ hle h0]
  · intro hsmall
    have hr := footer_terminator e hd ht hpost hsmall
    constructor
    · intro hbad
      rw [hr, if_pos (by omega)]
    · intro h1 h512
      refine ⟨_, by rw [hr, if_neg (by omega)], cString_strncpy _ _, fun h0 => ?_⟩
      rw [strncpy_of_no_nul _ h0]

theorem C9_log_footer_name_witness :
    ∃ buf, readEdidFooterforLogFile ⟨FOOTER ++ ([68, 70, 80] ++ TERMINATOR ++ [10]), [], 0⟩
          EdidRec.fresh =
        .ret (true, FileRec.advance ⟨FOOTER ++ ([68, 70, 80] ++ TERMINATOR ++ [10]), [], 0⟩
          (20 + 3), { EdidRec.fresh with name := some buf }) ∧
      cString buf = cString [68, 70, 80] ∧ (0 ∉ [68, 70, 80] → buf = [68, 70, 80] ++ [0]) :=
  (((C9_log_footer_name ⟨FOOTER ++ ([68, 70, 80] ++ TERMINATOR ++ [10]), [], 0⟩
      EdidRec.fresh).2.2 [68, 70, 80] [10] (by rfl) (by decide) (by decide)).2.2
    (by decide)).2 (by decide) (by decide)

set_option maxRecDepth 100000 in
/-- C9 fails as stated. With the text `a`, NUL, `b` (length 3) between the
footer literal and the first terminator the call succeeds, but the name it
stores is the C string `a`, not the text; on a view that ends with the
terminator ` ---` the call fails although the terminator occurs in the view and
the text `x` has length 1; and with a text of 2^32 + 1 characters `a` the call
succeeds, the `int` value of the length being 1, and stores the name `a`. -/
theorem C9_counterexample :
    (readEdidFooterforLogFile ⟨FOOTER ++ ([97, 0, 98] ++ TERMINATOR ++ [10]), [], 0⟩
          EdidRec.fresh =
        .ret (true, ⟨FOOTER ++ ([97, 0, 98] ++ TERMINATOR ++ [10]), [], 23⟩,
          ⟨0, none, some [97, 0, 0, 0]⟩) ∧
      EdidRec.nameString ⟨0, none, some [97, 0, 0, 0]⟩ = some [97] ∧
      ¬ TERMINATOR <:+: [97, 0, 98]) ∧
    (TERMINATOR <:+: [120] ++ TERMINATOR ∧ ¬ TERMINATOR <:+: [120] ∧
      readEdidFooterforLogFile ⟨FOOTER ++ ([120] ++ TERMINATOR), [], 0⟩ EdidRec.fresh =
        .ret (false, ⟨FOOTER ++ ([120] ++ TERMINATOR), [], 21⟩, EdidRec.fresh)) ∧
    (hugeName.length = 4294967297 ∧ ¬ TERMINATOR <:+: hugeName ∧
      readEdidFooterforLogFile ⟨FOOTER ++ (hugeName ++ TERMINATOR ++ [10]), [], 0⟩
          EdidRec.fresh =
        .ret (true, ⟨FOOTER ++ (hugeName ++ TERMINATOR ++ [10]), [], 4294967317⟩,
          ⟨0, none, some [97, 0]⟩)) := by
  have ht : ¬ TERMINATOR <:+: hugeName := by
    have := @not_infix_append_of_not_mem TERMINATOR [45, 45, 45] 32 (by decide) hugeName []
      (hugeName_no_char (by decide)) (by decide)
    rwa [List.append_nil] at this
  refine ⟨by decide, by decide, hugeName_length, ht, ?_⟩
  have h := @footer_terminator_int ⟨FOOTER ++ (hugeName ++ TERMINATOR ++ [10]), [], 0⟩ hugeName
    [10] EdidRec.fresh rfl ht (by decide)
  have hv : toInt32 hugeName.length = 1 := by rw [hugeName_length]; decide
  rw [hv, if_neg (by decide)] at h
  have hn : (1 : Int).toNat = 1 := rfl
  rw [hn, strncpy_hugeName, hugeName_length] at h
  exact h


/-- C10 (as amended). The monitor name: when `Monitor Name` occurs at or after
the cursor and a `:` follows it in the view, `readMonitorNameforTextFile` takes
as start the position two characters past the first `:` after the first
`Monitor Name` and as end the first CR LF pair at or after that start. It fails
when no CR LF pair follows. The length of the text in between is taken as a C
`int` (its low 32 bits, in two's complement): the call fails if that value is
below 1 or above 512, and succeeds if it is 1..512, leaving the cursor on the
CR; the name it stores is then the first so many characters of the text, cut at
their first NUL byte. For a text shorter than 2^31 bytes the value is the
length: the call fails for a length of 0 or of more than 512, and for a length
of 1..512 the name is the text cut at its first NUL byte, hence exactly the
text when the text holds no NUL byte. -/
theorem C10_text_monitor_name (p : FileRec) (e : EdidRec) (s mid tail : List Nat)
    (hd : p.start.drop p.current = s ++ MONITOR_NAME ++ (mid ++ 58 :: tail))
    (hs : ¬ MONITOR_NAME <:+: s) (hmid : 58 ∉ mid) :
    (¬ CRLF <:+: tail.drop 1 → ∃ p', readMonitorNameforTextFile p e = .ret (false, p', e)) ∧
    (∀ text post, tail.drop 1 = text ++ CRLF ++ post → ¬ CRLF <:+: text →
      ((toInt32 text.length < 1 ∨ 512 < toInt32 text.length) →
        readMonitorNameforTextFile p e =
          .ret (false, p.advance (s.length + 12 + mid.length + 2 + text.length), e)) ∧
      (1 ≤ toInt32 text.length → toInt32 text.length ≤ 512 →
        ∃ buf, readMonitorNameforTextFile p e =
            .ret (true, p.advance (s.length + 12 + mid.length + 2 + text.length),
              { e with name := some buf }) ∧
          cString buf = cString (text.take (text.length % 4294967296)) ∧
          (0 ∉ text → buf = text.take (text.length % 4294967296) ++ [0])) ∧
      (text.length < 2147483648 →
        ((text.length < 1 ∨ 512 < text.length) →
          readMonitorNameforTextFile p e =
            .ret (false, p.advance (s.length + 12 + mid.length + 2 + text.length), e)) ∧
        (1 ≤ text.length → text.length ≤ 512 →
          ∃ buf, readMonitorNameforTextFile p e =
              .ret (true, p.advance (s.length + 12 + mid.length + 2 + text.length),
                { e with name := some buf }) ∧
            cString buf = cString text ∧ (0 ∉ text → buf = text ++ [0])))) := by
  refine ⟨fun hno => monitor_no_crlf e hd hs hmid hno, ?_⟩
  intro text post htail ht
  have hi := monitor_crlf_int s mid tail text post e hd hs hmid htail ht
  refine ⟨?_, ?_, ?_⟩
  · intro hbad
    rw [hi, if_pos (by omega)]
  · intro h1 h512
    obtain ⟨hv, hle, -⟩ := toInt32_pos h1
    have hn : (toInt32 text.length).toNat = text.length % 4294967296 := by
      rw [hv, Int.toNat_ofNat]
    refine ⟨_, by rw [hi, if_neg (by omega)], ?_, fun h0 => ?_⟩
    · rw [hn]
      exact cString_strncpy_take _ _ _ hle
    · rw [hn, strncpy_take_of_no_nul _ _ hle h0]
  · intro hsmall
    have hr := monitor_crlf s mid tail text post e hd hs hmid htail ht hsmall
    constructor
    · intro hbad
      rw [hr, if_pos (by omega)]
    · intro h1 h512
      refine ⟨_, by rw [hr, if_neg (by omega)], cString_strncpy _ _, fun h0 => ?_⟩
      rw [strncpy_of_no_nul _ h0]

theorem C10_text_monitor_name_witness :
    ∃ buf, readMonitorNameforTextFile
        ⟨[13, 10] ++ MONITOR_NAME ++ ([32] ++ 58 :: (32 :: bytesOf "AppleStudio" ++ CRLF)), [], 0⟩
        EdidRec.fresh =
      .ret (true, FileRec.advance
          ⟨[13, 10] ++ MONITOR_NAME ++ ([32] ++ 58 :: (32 :: bytesOf "AppleStudio" ++ CRLF)), [], 0⟩
          (2 + 12 + 1 + 2 + 11), { EdidRec.fresh with name := some buf }) ∧
      cString buf = cString (bytesOf "AppleStudio") ∧
      (0 ∉ bytesOf "AppleStudio" → buf = bytesOf "AppleStudio" ++ [0]) :=
  (((C10_text_monitor_name
      ⟨[13, 10] ++ MONITOR_NAME ++ ([32] ++ 58 :: (32 :: bytesOf "AppleStudio" ++ CRLF)), [], 0⟩
      EdidRec.fresh [13, 10] [32] (32 :: bytesOf "AppleStudio" ++ CRLF)
      (by rfl) (by decide) (by decide)).2
    (bytesOf "AppleStudio") [] (by rfl) (by decide)).2.2 (by decide)).2 (by decide) (by decide)

set_option maxRecDepth 100000 in
/-- C10 fails as stated. With the text `a`, NUL, `b` (length 3) between the start
and the first CR LF, the call succeeds but the name it stores is the C string
`a`, not the text; and with a text of 2^32 + 1 characters `a` the call succeeds,
the `int` value of the length being 1, and stores the name `a`. -/
theorem C10_counterexample :
    (readMonitorNameforTextFile ⟨MONITOR_NAME ++ ([58, 32] ++ [97, 0, 98] ++ CRLF), [], 0⟩
        EdidRec.fresh =
      .ret (true, ⟨MONITOR_NAME ++ ([58, 32] ++ [97, 0, 98] ++ CRLF), [], 17⟩,
        ⟨0, none, some [97, 0, 0, 0]⟩) ∧
    EdidRec.nameString ⟨0, none, some [97, 0, 0, 0]⟩ = some [97] ∧
    ¬ CRLF <:+: [97, 0, 98]) ∧
    (hugeName.length = 4294967297 ∧ ¬ CRLF <:+: hugeName ∧
      readMonitorNameforTextFile
          ⟨[] ++ MONITOR_NAME ++ ([] ++ 58 :: (32 :: (hugeName ++ CRLF ++ []))), [], 0⟩
          EdidRec.fresh =
        .ret (true,
          ⟨[] ++ MONITOR_NAME ++ ([] ++ 58 :: (32 :: (hugeName ++ CRLF ++ []))), [], 4294967311⟩,
          ⟨0, none, some [97, 0]⟩)) := by
  have ht : ¬ CRLF <:+: hugeName := by
    have := @not_infix_append_of_not_mem CRLF [10] 13 (by decide) hugeName []
      (hugeName_no_char (by decide)) (by decide)
    rwa [List.append_nil] at this
  refine ⟨by decide, hugeName_length, ht, ?_⟩
  have h := @monitor_crlf_int
    ⟨[] ++ MONITOR_NAME ++ ([] ++ 58 :: (32 :: (hugeName ++ CRLF ++ []))), [], 0⟩
    [] [] (32 :: (hugeName ++ CRLF ++ [])) hugeName [] EdidRec.fresh rfl (by decide) (by decide)
    rfl ht
  have hv : toInt32 hugeName.length = 1 := by rw [hugeName_length]; decide
  rw [hv, if_neg (by decide)] at h
  have hn : (1 : Int).toNat = 1 := rfl
  rw [hn, strncpy_hugeName, hugeName_length] at h
  exact h

/-! ## The log scan -/

theorem strncpy_self (text more : List Nat) :
    strncpy (text ++ more) text.length = strncpy text text.length := by
  simp [strncpy]

/-- One call of `findEdidforLogFile` on a well-formed triple that stands after a
text without the header. -/
theorem findEdidforLogFile_triple {p : FileRec} (junk : List Nat) (t : Triple) (r : List Nat)
    (hd : p.start.drop p.current = junk ++ (t.render ++ r))
    (hj : 82 ∉ junk) (hw : t.wf = true) :
    findEdidforLogFile p =
      .ret (some t.record,
        p.advance (junk.length + t.gap.length + 15 + (renderLog t.items).length + 20 +
          t.name.length)) ∧
    p.start.drop (p.current + (junk.length + t.gap.length + 15 + (renderLog t.items).length +
      20 + t.name.length)) = TERMINATOR ++ [10] ++ r := by
  simp only [Triple.wf, Bool.and_eq_true, decide_eq_true_eq, List.all_eq_true] at hw
  obtain ⟨⟨⟨⟨⟨⟨hgap, hitems⟩, hb1⟩, hb2⟩, hn1⟩, hn2⟩, hterm⟩ := hw
  have hs : ¬ HEADER <:+: junk ++ t.gap :=
    not_infix_append_of_not_mem (t := bytesOf "aw EDID bytes:") (a := 82) (by decide)
      junk t.gap hj hgap
  have hd1 : p.start.drop p.current = (junk ++ t.gap) ++ HEADER ++
      (renderLog t.items ++ 45 :: (bytesOf "-- End of EDID for " ++
        (t.name ++ (TERMINATOR ++ [10])) ++ r)) := by
    rw [hd, Triple.render]
    have : FOOTER = 45 :: bytesOf "-- End of EDID for " := by decide
    simp [this, List.append_assoc]
  have hlen := (drop_append_of_drop hd1).2 (by simp [HEADER, bytesOf])
  simp only [List.length_append, HEADER_length, List.length_cons] at hlen
  -- the header
  have hfind : findEdidHeaderforLogFile p =
      .ret (true, p.advance (junk.length + t.gap.length + 15)) := by
    rw [findEdidHeaderforLogFile, headerLoop_eq,
      search_in 15 HEADER (t := bytesOf "aw EDID bytes:") (a := 82) (by decide) (by decide)
        hs hd1 (by rw [HEADER_length]; omega) (p.length + 1)
        (by simp only [FileRec.length, List.length_append]; omega)]
    simp [FileRec.advance_advance]
  -- the data
  have hd2 : (p.advance (junk.length + t.gap.length + 15)).start.drop
      (p.advance (junk.length + t.gap.length + 15)).current =
      renderLog t.items ++ 45 :: (bytesOf "-- End of EDID for " ++
        (t.name ++ (TERMINATOR ++ [10])) ++ r) := by
    have := FileRec.drop_advance hd1
    simpa [HEADER_length] using this
  have hdata := log_decode_ok EdidRec.fresh (fun i hi => hitems i hi) hd2 hb1
    (by simp only [MAX_EDID_SIZE]; omega)
  -- the footer
  have hd3 := FileRec.drop_advance hd2
  rw [FileRec.advance_advance] at hd3
  have hd4 : (p.advance (junk.length + t.gap.length + 15 + (renderLog t.items).length)).start.drop
      (p.advance (junk.length + t.gap.length + 15 + (renderLog t.items).length)).current =
      FOOTER ++ (t.name ++ TERMINATOR ++ ([10] ++ r)) := by
    rw [hd3]
    have : FOOTER = 45 :: bytesOf "-- End of EDID for " := by decide
    simp [this, List.append_assoc]
  have hfoot := footer_terminator
    { EdidRec.fresh with size := (bytesLog t.items).length, bytes := some (bytesLog t.items) }
    hd4 hterm (by simp) (by omega)
  rw [if_neg (by omega), strncpy_self, FileRec.advance_advance] at hfoot
  constructor
  · rw [findEdidforLogFile, hfind]
    simp only [Res.ret_bind, Bool.not_true, Bool.false_eq_true, if_false]
    rw [hdata, FileRec.advance_advance]
    simp only [Res.ret_bind, Bool.not_true, Bool.false_eq_true, if_false]
    rw [hfoot]
    simp only [Res.ret_bind, Bool.not_true, Bool.false_eq_true, if_false]
    rw [Triple.record]
    have : junk.length + t.gap.length + 15 + (renderLog t.items).length + (20 + t.name.length)
        = junk.length + t.gap.length + 15 + (renderLog t.items).length + 20 + t.name.length := by
      omega
    rw [this]
  · have h5 := FileRec.drop_advance (a := FOOTER ++ t.name) (b := TERMINATOR ++ ([10] ++ r))
      (by rw [hd4]; simp [List.append_assoc])
    simp only [FileRec.advance_start, FileRec.advance_current, List.length_append,
      FOOTER_length] at h5
    rw [List.append_assoc, ← h5]
    congr 1
    omega


theorem scan_stop {p q : FileRec} (h : findEdidforLogFile p = .ret (none, q)) (n : Nat)
    (acc : List EdidRec) :
    extract_edids.scan (n + 1) LOG_FILE p acc = .ret (acc, q) := by
  simp [extract_edids.scan, h, LOG_FILE, TEXT_FILE]

theorem scan_step {p q : FileRec} {e : EdidRec} (h : findEdidforLogFile p = .ret (some e, q))
    (n : Nat) (acc : List EdidRec) :
    extract_edids.scan (n + 1) LOG_FILE p acc = extract_edids.scan n LOG_FILE q (acc ++ [e]) := by
  simp [extract_edids.scan, h, LOG_FILE, TEXT_FILE]

theorem findEdidforLogFile_no_header {p : FileRec} (h : ¬ HEADER <:+: p.start.drop p.current) :
    ∃ q, findEdidforLogFile p = .ret (none, q) := by
  refine ⟨{ p with current := restCursor 15 p }, ?_⟩
  rw [findEdidforLogFile, findEdidHeaderforLogFile, headerLoop_eq,
    search_absent _ (by decide) h (p.length + 1) (by omega) (by omega) 15 (by decide)]
  rfl

/-- The scan loop on a sequence of well-formed triples followed by a text
without the header. -/
theorem scan_triples (ts : List Triple) : ∀ (p : FileRec) (junk tail : List Nat)
    (acc : List EdidRec) (fuel : Nat),
    p.start.drop p.current = junk ++ (renderTriples ts ++ tail) → 82 ∉ junk →
    (∀ t ∈ ts, t.wf = true) → ¬ HEADER <:+: tail → ts.length < fuel →
    ∃ q, extract_edids.scan fuel LOG_FILE p acc = .ret (acc ++ ts.map Triple.record, q) := by
  induction ts with
  | nil =>
    intro p junk tail acc fuel hd hj _ htail hf
    obtain ⟨n, rfl⟩ : ∃ n, fuel = n + 1 := ⟨fuel - 1, by simp at hf; omega⟩
    simp only [renderTriples, List.nil_append] at hd
    obtain ⟨q, hq⟩ := findEdidforLogFile_no_header (p := p)
      (by rw [hd]; exact not_infix_append_of_not_mem (t := bytesOf "aw EDID bytes:") (a := 82)
            (by decide) junk tail hj htail)
    exact ⟨q, by rw [scan_stop hq]; simp⟩
  | cons t ts ih =>
    intro p junk tail acc fuel hd hj hw htail hf
    obtain ⟨n, rfl⟩ : ∃ n, fuel = n + 1 := ⟨fuel - 1, by simp at hf; omega⟩
    simp only [renderTriples, List.append_assoc] at hd
    obtain ⟨h1, h2⟩ := findEdidforLogFile_triple junk t (renderTriples ts ++ tail) hd hj
      (hw t (List.mem_cons_self _ _))
    obtain ⟨q, hq⟩ := ih (p.advance (junk.length + t.gap.length + 15 +
        (renderLog t.items).length + 20 + t.name.length)) (TERMINATOR ++ [10]) tail
      (acc ++ [t.record]) n h2 (by decide) (fun x hx => hw x (List.mem_cons_of_mem _ hx)) htail
      (by simp at hf; omega)
    exact ⟨q, by rw [scan_step h1, hq]; simp⟩


theorem length_le_renderTriples (ts : List Triple) : ts.length ≤ (renderTriples ts).length := by
  induction ts with
  | nil => simp
  | cons t ts ih =>
    simp only [renderTriples, Triple.render, List.length_append, List.length_cons,
      HEADER_length]
    omega

theorem record_of_no_nul (t : Triple) (h : 0 ∉ t.name) :
    t.record = ⟨(bytesLog t.items).length, some (bytesLog t.items), some (t.name ++ [0])⟩ := by
  have := strncpy_of_no_nul [] h
  rw [List.append_nil] at this
  rw [Triple.record, this]

/-- C1 (as amended). Log-style extraction of N triples: for every N and every
view made of N well-formed triples, each after a text that does not contain the
header marker, and ended by a text that does not contain it either, the log scan
loop started at cursor 0 returns exactly N records in file order, the i-th with
exactly the bytes and the name of the i-th triple, provided no name holds a NUL
character. A well-formed triple is `Raw EDID bytes:`, a stream of newline-label-colon
groups, non-newline whitespace and 1 to 4095 hex pairs, then
`--- End of EDID for `, a name of 1 to 512 characters without ` ---`, then ` ---`
and a newline. Every iteration budget above N is enough, the one that
`extract_edids` hands to the loop included. -/
theorem C1_log_scan_extracts_triples (ts : List Triple) (tail beyond : List Nat) (fuel : Nat)
    (hw : ∀ t ∈ ts, t.wf = true) (h0 : ∀ t ∈ ts, 0 ∉ t.name)
    (htail : ¬ HEADER <:+: tail) (hf : ts.length < fuel) :
    (∃ q, extract_edids.scan fuel LOG_FILE ⟨renderTriples ts ++ tail, beyond, 0⟩ [] =
      .ret (ts.map fun t =>
        ⟨(bytesLog t.items).length, some (bytesLog t.items), some (t.name ++ [0])⟩, q)) ∧
    ts.length < FileRec.length ⟨renderTriples ts ++ tail, beyond, 0⟩ + 1 := by
  constructor
  · obtain ⟨q, hq⟩ := scan_triples ts ⟨renderTriples ts ++ tail, beyond, 0⟩ [] tail [] fuel
      (by simp) (by simp) hw htail hf
    refine ⟨q, ?_⟩
    rw [hq, List.nil_append]
    congr 2
    apply List.map_congr_left
    intro t ht
    exact record_of_no_nul t (h0 t ht)
  · have := length_le_renderTriples ts
    simp only [FileRec.length, List.length_append]
    omega

theorem C1_log_scan_extracts_triples_witness :
    (∃ q, extract_edids.scan 3 LOG_FILE
        ⟨renderTriples sampleTriples ++ bytesOf "(II) end of log", [], 0⟩ [] =
      .ret (sampleTriples.map fun t =>
        ⟨(bytesLog t.items).length, some (bytesLog t.items), some (t.name ++ [0])⟩, q)) ∧
    sampleTriples.length <
      FileRec.length ⟨renderTriples sampleTriples ++ bytesOf "(II) end of log", [], 0⟩ + 1 :=
  C1_log_scan_extracts_triples sampleTriples (bytesOf "(II) end of log") [] 3
    (by decide) (by decide) (by decide) (by decide)

/-- C1 fails as stated. The triple with the hex stream `00` and the name `a`,
NUL, `b` (three characters, no ` ---`) is well formed, and the scan returns one
record, but its name is the C string `a`. -/
theorem C1_counterexample :
    nulTriple.wf = true ∧
    (∃ q, extract_edids.scan 2 LOG_FILE ⟨renderTriples [nulTriple] ++ [], [], 0⟩ [] =
      .ret ([⟨1, some [0], some [97, 0, 0, 0]⟩], q)) ∧
    EdidRec.nameString ⟨1, some [0], some [97, 0, 0, 0]⟩ = some [97] ∧
    nulTriple.name = [97, 0, 98] := by
  refine ⟨by decide, ?_, by decide, rfl⟩
  obtain ⟨q, hq⟩ := scan_triples [nulTriple] ⟨renderTriples [nulTriple] ++ [], [], 0⟩ [] [] [] 2
    (by simp) (by simp) (by decide) (by decide) (by decide)
  have hrec : ([] : List EdidRec) ++ List.map Triple.record [nulTriple] =
      [⟨1, some [0], some [97, 0, 0, 0]⟩] := by decide
  exact ⟨q, by rw [hq, hrec]⟩


/-- A read at the end of the view when no memory follows it. -/
theorem FileRec.peek_end {p : FileRec} (h : p.start.drop p.current = []) (hb : p.beyond = []) :
    p.peek 0 = none := by
  have hlen : p.start.length ≤ p.current := by
    have := congrArg List.length h
    simp only [List.length_drop, List.length_nil] at this
    omega
  simp [FileRec.peek, FileRec.mem, hb, hlen]

/-- Truncated data: when the view ends after a well-formed stream and no memory
follows the view, the log decoder reads the byte after the view. -/
theorem log_decode_truncated {p : FileRec} {items : List LogItem} (pEdid : EdidRec)
    (hw : ∀ i ∈ items, i.wf = true)
    (hd : p.start.drop p.current = renderLog items) (hb : p.beyond = [])
    (h2 : (bytesLog items).length < MAX_EDID_SIZE) (hcur : p.current ≤ p.length) :
    readEdidDataforLogFile p pEdid = .fault := by
  have hlen : p.current + (renderLog items).length = p.length := by
    have := congrArg List.length hd
    simp only [List.length_drop] at this
    simp only [FileRec.length] at hcur ⊢
    omega
  have hd2 := FileRec.drop_advance (a := renderLog items) (b := []) (by simpa using hd)
  obtain ⟨n, hn⟩ : ∃ n, p.length + 2 = (n + 1) + (renderLog items).length :=
    ⟨p.current + 1, by omega⟩
  have := log_items items p [] (n + 1) [] hw (by simpa using hd) (by simpa using h2)
  simp only [List.length_nil, List.nil_append] at this
  have hs : scratch [] = List.replicate MAX_EDID_SIZE 0 := by simp [scratch]
  rw [hs] at this
  rw [readEdidDataforLogFile, hn, this, readEdidDataforLogFile.loop,
    FileRec.peek_end hd2 (by simpa using hb)]
  rfl

theorem findEdidforLogFile_truncated {p : FileRec} (s : List Nat) (items : List LogItem)
    (hd : p.start.drop p.current = s ++ HEADER ++ renderLog items)
    (hs : ¬ HEADER <:+: s) (hw : ∀ i ∈ items, i.wf = true) (hb : p.beyond = [])
    (h2 : (bytesLog items).length < MAX_EDID_SIZE) :
    findEdidforLogFile p = .fault := by
  have hlen := (drop_append_of_drop hd).2 (by simp [HEADER, bytesOf])
  simp only [List.length_append, HEADER_length] at hlen
  have hfind : findEdidHeaderforLogFile p = .ret (true, p.advance (s.length + 15)) := by
    rw [findEdidHeaderforLogFile, headerLoop_eq,
      search_in 15 HEADER (t := bytesOf "aw EDID bytes:") (a := 82) (by decide) (by decide)
        hs hd (by rw [HEADER_length]; omega) (p.length + 1)
        (by simp only [FileRec.length]; omega)]
    simp [FileRec.advance_advance]
  have hd2 : (p.advance (s.length + 15)).start.drop (p.advance (s.length + 15)).current =
      renderLog items := by
    have := FileRec.drop_advance hd
    simpa [HEADER_length] using this
  rw [findEdidforLogFile, hfind]
  simp only [Res.ret_bind, Bool.not_true, Bool.false_eq_true, if_false]
  rw [log_decode_truncated EdidRec.fresh hw hd2 (by simpa using hb) h2
    (by simp only [FileRec.advance_current, FileRec.advance_length]
        simp only [FileRec.length]; omega)]
  rfl

theorem scan_fault {p : FileRec} (h : findEdidforLogFile p = .fault) (n : Nat)
    (acc : List EdidRec) :
    extract_edids.scan (n + 1) LOG_FILE p acc = .fault := by
  simp [extract_edids.scan, h, LOG_FILE, Res.bind]

/-! ## Text-style extraction -/

/-- A table, rows each followed by another row and a last row followed by a
second CR LF, as a token stream and its end. -/
theorem table_eq (rows : List TextRow) (last : TextRow) (rest : List Nat) :
    renderRows rows ++ (last.render ++ (CRLF ++ rest)) =
      renderText (rowsItems rows ++ pairItems last) ++
        last.gap :: (last.column ++ 13 :: 10 :: 13 :: 10 :: rest) := by
  rw [renderText_append, render_rowsItems, render_pairItems, TextRow.render]
  simp [CRLF, List.append_assoc]

theorem table_bytes (rows : List TextRow) (last : TextRow) :
    bytesText (rowsItems rows ++ pairItems last) = bytesRows rows ++ last.bytes := by
  rw [bytesText_append, bytes_rowsItems, bytes_pairItems]

theorem last_wf {last : TextRow} (h : last.wf = true) :
    isspace last.gap = true ∧ isspace ((last.column ++ [13]).headD 0) = true ∧
      ¬ CRLF <:+: last.column := by
  simp only [TextRow.wf, Bool.and_eq_true, decide_eq_true_eq] at h
  obtain ⟨⟨⟨-, hgap⟩, hcol⟩, hno⟩ := h
  refine ⟨hgap, ?_, hno⟩
  cases hc : last.column with
  | nil => simp [hc] at hcol
  | cons w c => simpa [hc] using hcol

/-- The text decoder on a table of at most 4095 pairs. -/
theorem text_table_ok {p : FileRec} (rows : List TextRow) (last : TextRow) (rest : List Nat)
    (pEdid : EdidRec)
    (hd : p.start.drop p.current = renderRows rows ++ (last.render ++ (CRLF ++ rest)))
    (hrows : ∀ row ∈ rows, row.wf = true) (hlast : last.wf = true)
    (hcap : (bytesRows rows ++ last.bytes).length ≤ 4095) :
    readEdidDataforTextFile p pEdid =
      .ret (true, p.advance ((renderRows rows).length + last.render.length - 2),
        { pEdid with size := (bytesRows rows ++ last.bytes).length,
                     bytes := some (bytesRows rows ++ last.bytes) }) ∧
    p.start.drop (p.current + ((renderRows rows).length + last.render.length - 2)) =
      CRLF ++ (CRLF ++ rest) := by
  rw [table_eq] at hd
  obtain ⟨hgap, hhead, hno⟩ := last_wf hlast
  have hw := (wf_table rows last (last.gap :: (last.column ++ 13 :: 10 :: 13 :: 10 :: rest))
    hrows hlast).1
  have hb := table_bytes rows last
  have h1 : 1 ≤ (bytesRows rows ++ last.bytes).length := by
    simp [TextRow.bytes]; omega
  have hok := text_decode_ok pEdid hd hw hgap hhead hno (by rw [hb]; exact h1)
    (by rw [hb]; simp only [MAX_EDID_SIZE]; omega)
  have hlen : (renderText (rowsItems rows ++ pairItems last)).length + (1 + last.column.length) =
      (renderRows rows).length + last.render.length - 2 := by
    rw [renderText_append, render_rowsItems, render_pairItems, TextRow.render]
    simp only [List.length_append, List.length_cons, CRLF, List.length_nil]
    omega
  rw [hb, hlen] at hok
  refine ⟨hok, ?_⟩
  have h5 := FileRec.drop_advance
    (a := renderText (rowsItems rows ++ pairItems last) ++ last.gap :: last.column)
    (b := 13 :: 10 :: 13 :: 10 :: rest) (by rw [hd]; simp [List.append_assoc])
  simp only [FileRec.advance_start, FileRec.advance_current, List.length_append,
    List.length_cons] at h5
  rw [← hlen, Nat.add_comm 1 last.column.length, h5]
  rfl

/-- The text decoder on a table of 4096 pairs or more: failure. -/
theorem text_table_cap {p : FileRec} (rows : List TextRow) (last : TextRow) (rest : List Nat)
    (pEdid : EdidRec)
    (hd : p.start.drop p.current = renderRows rows ++ (last.render ++ (CRLF ++ rest)))
    (hrows : ∀ row ∈ rows, row.wf = true) (hlast : last.wf = true)
    (hcap : 4096 ≤ (bytesRows rows ++ last.bytes).length) :
    ∃ q, readEdidDataforTextFile p pEdid = .ret (false, q, pEdid) := by
  rw [table_eq] at hd
  have hw := (wf_table rows last (last.gap :: (last.column ++ 13 :: 10 :: 13 :: 10 :: rest))
    hrows hlast).1
  exact text_decode_cap pEdid hw hd (by rw [table_bytes]; simp only [MAX_EDID_SIZE]; omega)


theorem TextRow.wf_of (row : TextRow) (h1 : row.first.b < 256)
    (h2 : ∀ m ∈ row.more, (m.1 = 32 ∨ m.1 = 45) ∧ m.2.b < 256)
    (h3 : isspace row.gap = true) (w : Nat) (c : List Nat) (h4 : row.column = w :: c)
    (h4w : isspace w = true) (h5 : ¬ CRLF <:+: row.column) : row.wf = true := by
  have hall : row.more.all (fun m => (m.1 == 32 || m.1 == 45) && decide (m.2.b < 256)) = true := by
    rw [List.all_eq_true]
    intro m hm
    have := h2 m hm
    simp [this.2]
    exact this.1
  rw [TextRow.wf, hall]
  simp [h1, h3, h5]
  rw [h4]
  exact h4w

theorem bigRow_wf : bigRow.wf = true := by
  apply TextRow.wf_of bigRow (by decide) ?_ (by decide) 32 [120] rfl (by decide) (by decide)
  intro m hm
  have hm2 : m ∈ List.replicate 4095 ((32 : Nat), (⟨171, false, true⟩ : HexPair)) := hm
  rw [List.eq_of_mem_replicate hm2]
  decide

theorem bigRow_bytes : bigRow.bytes.length = 4096 := by
  rw [TextRow.bytes, List.length_cons, List.length_map]
  exact congrArg (· + 1) (List.length_replicate 4095 _)

/-- The text-style extraction on a table followed, later, by the monitor name. -/
theorem findEdidforTextFile_table (rows : List TextRow) (last : TextRow)
    (mid label name post beyond : List Nat) (ch : Nat)
    (hrows : ∀ row ∈ rows, row.wf = true) (hlast : last.wf = true)
    (hcap : (bytesRows rows ++ last.bytes).length ≤ 4095)
    (hmid : ¬ MONITOR_NAME <:+: mid) (hlabel : 58 ∉ label)
    (hn1 : 1 ≤ name.length) (hn2 : name.length ≤ 512) (hcr : ¬ CRLF <:+: name) :
    ∃ q, findEdidforTextFile
        ⟨renderRows rows ++ (last.render ++ (CRLF ++ (mid ++ MONITOR_NAME ++
          (label ++ 58 :: ch :: (name ++ CRLF ++ post))))), beyond, 0⟩ =
      .ret (some ⟨(bytesRows rows ++ last.bytes).length, some (bytesRows rows ++ last.bytes),
        some (strncpy name name.length ++ [0])⟩, q) := by
  obtain ⟨hdec, hd2⟩ := text_table_ok
    (p := ⟨renderRows rows ++ (last.render ++ (CRLF ++ (mid ++ MONITOR_NAME ++
          (label ++ 58 :: ch :: (name ++ CRLF ++ post))))), beyond, 0⟩)
    rows last (mid ++ MONITOR_NAME ++ (label ++ 58 :: ch :: (name ++ CRLF ++ post)))
    EdidRec.fresh (by rfl) hrows hlast hcap
  have hs : ¬ MONITOR_NAME <:+: CRLF ++ CRLF ++ mid :=
    not_infix_append_of_not_mem (t := bytesOf "onitor Name") (a := 77) (by decide)
      (CRLF ++ CRLF) mid (by decide) hmid
  have hmon := monitor_crlf (CRLF ++ CRLF ++ mid) label (ch :: (name ++ CRLF ++ post)) name post
    { EdidRec.fresh with size := (bytesRows rows ++ last.bytes).length,
                         bytes := some (bytesRows rows ++ last.bytes) }
    (p := FileRec.advance ⟨renderRows rows ++ (last.render ++ (CRLF ++ (mid ++ MONITOR_NAME ++
          (label ++ 58 :: ch :: (name ++ CRLF ++ post))))), beyond, 0⟩
          ((renderRows rows).length + last.render.length - 2))
    (by rw [FileRec.advance_start, FileRec.advance_current, hd2]; simp [List.append_assoc])
    hs hlabel (by simp) hcr (by omega)
  rw [if_neg (by omega), strncpy_self] at hmon
  rw [findEdidforTextFile, hdec]
  simp only [Res.ret_bind, Bool.not_true, Bool.false_eq_true, if_false]
  rw [hmon]
  exact ⟨_, rfl⟩


theorem scan_text {p q : FileRec} {e : EdidRec} (h : findEdidforTextFile p = .ret (some e, q))
    (n : Nat) (acc : List EdidRec) :
    extract_edids.scan (n + 1) TEXT_FILE p acc = .ret (acc ++ [e], q) := by
  simp [extract_edids.scan, h, LOG_FILE, TEXT_FILE]

/-- C2 (as amended). Text-style extraction: for every view that starts with a
table of rows, each row being hex pairs separated by a single space or a single
`-`, then at least two whitespace characters and the rest of the line (free of
CR LF), then CR LF, the last row being followed by a second CR LF, the table
holding at most 4095 pairs in all, and that later contains `Monitor Name` (for
the first time after the table), a `:` (the first after it), one more character
and a name of 1 to 512 characters, none of them NUL, ended by CR LF,
`findEdidforTextFile` started at cursor 0 returns a record whose bytes are the
pairs of the table in order and whose name is that name; the scan loop returns
exactly that one record. -/
theorem C2_text_extraction (rows : List TextRow) (last : TextRow)
    (mid label name post beyond : List Nat) (ch : Nat)
    (hrows : ∀ row ∈ rows, row.wf = true) (hlast : last.wf = true)
    (hcap : (bytesRows rows ++ last.bytes).length ≤ 4095)
    (hmid : ¬ MONITOR_NAME <:+: mid) (hlabel : 58 ∉ label)
    (hn1 : 1 ≤ name.length) (hn2 : name.length ≤ 512) (hcr : ¬ CRLF <:+: name)
    (h0 : 0 ∉ name) :
    ∃ q, findEdidforTextFile
        ⟨renderRows rows ++ (last.render ++ (CRLF ++ (mid ++ MONITOR_NAME ++
          (label ++ 58 :: ch :: (name ++ CRLF ++ post))))), beyond, 0⟩ =
      .ret (some ⟨(bytesRows rows ++ last.bytes).length, some (bytesRows rows ++ last.bytes),
        some (name ++ [0])⟩, q) ∧
      ∀ fuel, 0 < fuel → extract_edids.scan fuel TEXT_FILE
        ⟨renderRows rows ++ (last.render ++ (CRLF ++ (mid ++ MONITOR_NAME ++
          (label ++ 58 :: ch :: (name ++ CRLF ++ post))))), beyond, 0⟩ [] =
        .ret ([⟨(bytesRows rows ++ last.bytes).length, some (bytesRows rows ++ last.bytes),
          some (name ++ [0])⟩], q) := by
  obtain ⟨q, hq⟩ := findEdidforTextFile_table rows last mid label name post beyond ch hrows hlast
    hcap hmid hlabel hn1 hn2 hcr
  have hs := strncpy_of_no_nul [] h0
  rw [List.append_nil] at hs
  rw [hs] at hq
  refine ⟨q, hq, ?_⟩
  intro fuel hf
  obtain ⟨n, rfl⟩ : ∃ n, fuel = n + 1 := ⟨fuel - 1, by omega⟩
  rw [scan_text hq]
  rfl

theorem C2_text_extraction_witness :
    ∃ q, findEdidforTextFile
        ⟨renderRows sampleRows ++ (sampleLast.render ++ (CRLF ++
          (bytesOf "EDID Version : 1.1" ++ CRLF ++ MONITOR_NAME ++
            ([32] ++ 58 :: 32 :: (bytesOf "AppleStudio" ++ CRLF ++ []))))), [], 0⟩ =
      .ret (some ⟨(bytesRows sampleRows ++ sampleLast.bytes).length,
        some (bytesRows sampleRows ++ sampleLast.bytes),
        some (bytesOf "AppleStudio" ++ [0])⟩, q) ∧
      ∀ fuel, 0 < fuel → extract_edids.scan fuel TEXT_FILE
        ⟨renderRows sampleRows ++ (sampleLast.render ++ (CRLF ++
          (bytesOf "EDID Version : 1.1" ++ CRLF ++ MONITOR_NAME ++
            ([32] ++ 58 :: 32 :: (bytesOf "AppleStudio" ++ CRLF ++ []))))), [], 0⟩ [] =
        .ret ([⟨(bytesRows sampleRows ++ sampleLast.bytes).length,
          some (bytesRows sampleRows ++ sampleLast.bytes),
          some (bytesOf "AppleStudio" ++ [0])⟩], q) :=
  C2_text_extraction sampleRows sampleLast (bytesOf "EDID Version : 1.1" ++ CRLF) [32]
    (bytesOf "AppleStudio") [] [] 32 (by decide) (by decide) (by decide) (by decide)
    (by decide) (by decide) (by decide) (by decide) (by decide)

/-- C2 fails as stated. A table of one well-formed row of 4096 pairs, followed
by the monitor name, gives no record; and with the name `a`, NUL, `b` the record
of the small table carries the C string `a` as its name. -/
theorem C2_counterexample :
    (bigRow.wf = true ∧ bigRow.bytes.length = 4096 ∧
      ∃ q, findEdidforTextFile
          ⟨renderRows [] ++ (bigRow.render ++ (CRLF ++ ([] ++ MONITOR_NAME ++
            ([] ++ 58 :: 32 :: (bytesOf "AppleStudio" ++ CRLF ++ []))))), [], 0⟩ =
        .ret (none, q)) ∧
    (∃ q, findEdidforTextFile
          ⟨renderRows sampleRows ++ (sampleLast.render ++ (CRLF ++ ([] ++ MONITOR_NAME ++
            ([] ++ 58 :: 32 :: ([97, 0, 98] ++ CRLF ++ []))))), [], 0⟩ =
        .ret (some ⟨8, some [0, 255, 6, 16, 0, 65, 10, 136], some [97, 0, 0, 0]⟩, q) ∧
      EdidRec.nameString ⟨8, some [0, 255, 6, 16, 0, 65, 10, 136], some [97, 0, 0, 0]⟩ =
        some [97]) := by
  constructor
  · refine ⟨bigRow_wf, bigRow_bytes, ?_⟩
    obtain ⟨q, hq⟩ := text_table_cap
      (p := ⟨renderRows [] ++ (bigRow.render ++ (CRLF ++ ([] ++ MONITOR_NAME ++
            ([] ++ 58 :: 32 :: (bytesOf "AppleStudio" ++ CRLF ++ []))))), [], 0⟩)
      [] bigRow ([] ++ MONITOR_NAME ++ ([] ++ 58 :: 32 :: (bytesOf "AppleStudio" ++ CRLF ++ [])))
      EdidRec.fresh (by rfl) (by simp) bigRow_wf
      (by rw [bytesRows, List.nil_append, bigRow_bytes])
    rw [findEdidforTextFile, hq]
    exact ⟨q, rfl⟩
  · obtain ⟨q, hq⟩ := findEdidforTextFile_table sampleRows sampleLast [] [] [97, 0, 98] [] [] 32
      (by decide) (by decide) (by decide) (by decide) (by decide) (by decide) (by decide)
      (by decide)
    have hrec : (⟨(bytesRows sampleRows ++ sampleLast.bytes).length,
          some (bytesRows sampleRows ++ sampleLast.bytes),
          some (strncpy [97, 0, 98] [97, 0, 98].length ++ [0])⟩ : EdidRec) =
        ⟨8, some [0, 255, 6, 16, 0, 65, 10, 136], some [97, 0, 0, 0]⟩ := by decide
    rw [hrec] at hq
    exact ⟨q, hq, by decide⟩


/-! ## Output naming -/

/-- C13. The base name of the output: an explicit output path gives its
home-shorthand expansion, whatever the directories allow; otherwise an
accessible current directory gives `./edid.bin`; otherwise the home
directory, taken from the environment and from the account record only when
the environment has none, gives `<home>/edid.bin` when it is accessible; in
every other case the result is `/tmp/edid.bin`. -/
theorem C13_findFileName_resolution (tilde_expansion : List Nat → List Nat)
    (access : List Nat → Bool) :
    (∀ accessDot getenvHome pwDir o,
      findFileName tilde_expansion accessDot getenvHome pwDir access (some o) =
        tilde_expansion o) ∧
    (∀ getenvHome pwDir,
      findFileName tilde_expansion true getenvHome pwDir access none = bytesOf "./edid.bin") ∧
    (∀ home pwDir,
      findFileName tilde_expansion false (some home) pwDir access none =
        if access home then home ++ bytesOf "/edid.bin" else bytesOf "/tmp/edid.bin") ∧
    (∀ home,
      findFileName tilde_expansion false none (some home) access none =
        if access home then home ++ bytesOf "/edid.bin" else bytesOf "/tmp/edid.bin") ∧
    findFileName tilde_expansion false none none access none = bytesOf "/tmp/edid.bin" := by
  have h1 : bytesOf "./" ++ EDID_OUTPUT_FILE_NAME = bytesOf "./edid.bin" := by decide
  have h2 : bytesOf "/tmp/" ++ EDID_OUTPUT_FILE_NAME = bytesOf "/tmp/edid.bin" := by decide
  have h3 : ∀ t : List Nat,
      t ++ bytesOf "/" ++ EDID_OUTPUT_FILE_NAME = t ++ bytesOf "/edid.bin" := by
    intro t
    rw [List.append_assoc]
    congr 1
  refine ⟨fun _ _ _ _ => rfl, fun _ _ => ?_, fun home _ => ?_, fun home => ?_, ?_⟩
  · simp [findFileName, h1]
  · simp only [findFileName, Bool.false_eq_true, if_false, h2, h3]
  · simp only [findFileName, Bool.false_eq_true, if_false, h2, h3]
  · simp only [findFileName, Bool.false_eq_true, if_false, h2]


/-! ## End of view, bounds and detection from a cursor -/

set_option maxRecDepth 100000 in
/-- C17, the failing input. When the terminator ` ---` is the last four bytes of
the view, the footer parser does not find it: the call fails, and so does
`findEdidforLogFile` on a log that ends with the footer; with one more byte (a
newline) after the terminator the same log gives the record. -/
theorem C17_terminator_at_end_of_view :
    readEdidFooterforLogFile ⟨FOOTER ++ bytesOf "DFP-1 ---", [], 0⟩ EdidRec.fresh =
      .ret (false, ⟨FOOTER ++ bytesOf "DFP-1 ---", [], 25⟩, EdidRec.fresh) ∧
    findEdidforLogFile
        ⟨bytesOf "Raw EDID bytes: 00 ff --- End of EDID for DFP-1 ---", [], 0⟩ =
      .ret (none, ⟨bytesOf "Raw EDID bytes: 00 ff --- End of EDID for DFP-1 ---", [], 47⟩) ∧
    findEdidforLogFile
        ⟨bytesOf "Raw EDID bytes: 00 ff --- End of EDID for DFP-1 ---" ++ [10], [], 0⟩ =
      .ret (some ⟨2, some [0, 255], some (bytesOf "DFP-1" ++ [0])⟩,
        ⟨bytesOf "Raw EDID bytes: 00 ff --- End of EDID for DFP-1 ---" ++ [10], [], 47⟩) := by
  decide

set_option maxRecDepth 100000 in
/-- C19, the failing input. The log decoder reads the byte at offset `L`, the
first one after the view. Started at cursor `L` (the cursor that a header ending
the view leaves) with no memory after the view, it faults on its first read; and
on the view `00` its result is decided by the byte after the view: success with
the byte `-` there, failure with `x`, a fault with none. -/
theorem C19_log_decoder_reads_past_view :
    readEdidDataforLogFile ⟨HEADER, [], 15⟩ EdidRec.fresh = .fault ∧
    readEdidDataforLogFile ⟨bytesOf "00", [45], 0⟩ EdidRec.fresh =
      .ret (true, ⟨bytesOf "00", [45], 2⟩, ⟨1, some [0], none⟩) ∧
    readEdidDataforLogFile ⟨bytesOf "00", [120], 0⟩ EdidRec.fresh =
      .ret (false, ⟨bytesOf "00", [120], 2⟩, EdidRec.fresh) ∧
    readEdidDataforLogFile ⟨bytesOf "00", [], 0⟩ EdidRec.fresh = .fault := by
  decide

set_option maxRecDepth 100000 in
/-- C20, the failing input. The text decoder reads bytes after the view. On the
view `00 ` its look-ahead for a second whitespace character reads offset `L`,
a fault when no memory follows; on the view `00`, two spaces, CR LF its
look-ahead for the second CR LF reads offsets `L` and `L + 1`, and these two
bytes decide the result: success when they are CR LF, failure when they are
`xx`, a fault when there are none. -/
theorem C20_text_decoder_reads_past_view :
    readEdidDataforTextFile ⟨bytesOf "00 ", [], 0⟩ EdidRec.fresh = .fault ∧
    readEdidDataforTextFile ⟨bytesOf "00  " ++ CRLF, [13, 10], 0⟩ EdidRec.fresh =
      .ret (true, ⟨bytesOf "00  " ++ CRLF, [13, 10], 4⟩, ⟨1, some [0], none⟩) ∧
    readEdidDataforTextFile ⟨bytesOf "00  " ++ CRLF, [120, 120], 0⟩ EdidRec.fresh =
      .ret (false, ⟨bytesOf "00  " ++ CRLF, [120, 120], 6⟩, EdidRec.fresh) ∧
    readEdidDataforTextFile ⟨bytesOf "00  " ++ CRLF, [], 0⟩ EdidRec.fresh = .fault := by
  decide

/-- The classification by `findFileType` from any cursor. -/
theorem findFileType_from (view beyond : List Nat) (c : Nat) :
    ∃ t p, findFileType ⟨view, beyond, c⟩ = .ret (t, p) ∧
      (t = LOG_FILE ↔ HEADER <:+: view.drop c) ∧
      (t = TEXT_FILE ↔ ¬ HEADER <:+: view.drop c ∧ EDID_VERSION <:+: view) ∧
      (t = UNKNOWN_FILE ↔ ¬ HEADER <:+: view.drop c ∧ ¬ EDID_VERSION <:+: view) := by
  by_cases h : HEADER <:+: view.drop c
  · have hcur : c ≤ view.length := by
      by_contra hc
      rw [List.drop_eq_nil_of_le (by omega)] at h
      exact absurd h (by decide)
    rcases findEdidHeaderforLogFile_spec ⟨view, beyond, c⟩ hcur with ⟨-, j, -, hr⟩ | ⟨h', -⟩
    · refine ⟨LOG_FILE, _, by rw [findFileType, hr]; rfl, ?_⟩
      simp [h, LOG_FILE, TEXT_FILE, UNKNOWN_FILE]
    · exact absurd h h'
  · have hr : findEdidHeaderforLogFile ⟨view, beyond, c⟩ =
        .ret (false, { (⟨view, beyond, c⟩ : FileRec) with
          current := restCursor 15 ⟨view, beyond, c⟩ }) := by
      rw [findEdidHeaderforLogFile, headerLoop_eq,
        search_absent _ (by decide) h _ (by simp [FileRec.length]) (by omega) 15 (by decide)]
      rfl
    rw [findFileType, hr]
    rcases findEdidfooterforTextFile_spec
      ({ start := view, beyond := beyond, current := restCursor 15 ⟨view, beyond, c⟩ })
      with ⟨h2, hr2⟩ | ⟨h2, hr2⟩
    · refine ⟨TEXT_FILE, _, by simp only [Res.ret_bind]; rw [hr2]; rfl, ?_⟩
      simp at h2
      simp [h, h2, LOG_FILE, TEXT_FILE, UNKNOWN_FILE]
    · refine ⟨UNKNOWN_FILE, _, by simp only [Res.ret_bind]; rw [hr2]; rfl, ?_⟩
      simp at h2
      simp [h, h2, LOG_FILE, TEXT_FILE, UNKNOWN_FILE]

/-- C18 (as amended). Detection looks for the log marker from the initial
cursor on and for the text marker from the start of the view: from any cursor
`findFileType` returns `LOG_FILE` exactly when `Raw EDID bytes:` occurs at or
after the cursor, `TEXT_FILE` exactly when it does not and `EDID Version`
occurs anywhere in the view, and `UNKNOWN_FILE` otherwise; so two initial
cursors give the same classification whenever the log marker occurs at or after
both or at or after neither. -/
theorem C18_detection_from_cursor (view beyond : List Nat) (c : Nat) :
    (∃ t p, findFileType ⟨view, beyond, c⟩ = .ret (t, p) ∧
      (t = LOG_FILE ↔ HEADER <:+: view.drop c) ∧
      (t = TEXT_FILE ↔ ¬ HEADER <:+: view.drop c ∧ EDID_VERSION <:+: view) ∧
      (t = UNKNOWN_FILE ↔ ¬ HEADER <:+: view.drop c ∧ ¬ EDID_VERSION <:+: view)) ∧
    ∀ d, (HEADER <:+: view.drop c ↔ HEADER <:+: view.drop d) →
      ∃ t p q, findFileType ⟨view, beyond, c⟩ = .ret (t, p) ∧
        findFileType ⟨view, beyond, d⟩ = .ret (t, q) := by
  refine ⟨findFileType_from view beyond c, ?_⟩
  intro d hcd
  obtain ⟨t, p, hr, h1, h2, h3⟩ := findFileType_from view beyond c
  obtain ⟨t', q, hr', h1', h2', h3'⟩ := findFileType_from view beyond d
  have ht : t = t' := by
    by_cases hh : HEADER <:+: view.drop c
    · rw [h1.2 hh, h1'.2 (hcd.1 hh)]
    · have hh' : ¬ HEADER <:+: view.drop d := fun x => hh (hcd.2 x)
      by_cases hv : EDID_VERSION <:+: view
      · rw [h2.2 ⟨hh, hv⟩, h2'.2 ⟨hh', hv⟩]
      · rw [h3.2 ⟨hh, hv⟩, h3'.2 ⟨hh', hv⟩]
  exact ⟨t, p, q, hr, by rw [hr', ht]⟩

theorem C18_detection_from_cursor_witness :
    ∃ t p q, findFileType ⟨bytesOf "log: Raw EDID bytes: 00", [], 0⟩ = .ret (t, p) ∧
      findFileType ⟨bytesOf "log: Raw EDID bytes: 00", [], 5⟩ = .ret (t, q) :=
  (C18_detection_from_cursor (bytesOf "log: Raw EDID bytes: 00") [] 0).2 5 (by decide)

/-- C18 fails as stated. On the view `Raw EDID bytes:` followed by
`EDID Version`, detection from cursor 0 gives `LOG_FILE` and detection from
cursor 1, which lies after the start of the only log marker, gives `TEXT_FILE`. -/
theorem C18_counterexample :
    findFileType ⟨HEADER ++ EDID_VERSION, [], 0⟩ =
      .ret (LOG_FILE, ⟨HEADER ++ EDID_VERSION, [], 15⟩) ∧
    findFileType ⟨HEADER ++ EDID_VERSION, [], 1⟩ =
      .ret (TEXT_FILE, ⟨HEADER ++ EDID_VERSION, [], 0⟩) := by
  decide


/-! ## The end-to-end examples -/

set_option maxRecDepth 100000 in
theorem documentedLog_eq : documentedLog = renderTriples [documentedTriple] ++ [] := by
  decide

set_option maxRecDepth 100000 in
theorem documentedText_eq : documentedText =
    renderRows documentedTextRows ++ (documentedTextLast.render ++ (CRLF ++
      (documentedTextMid ++ MONITOR_NAME ++
        ([32] ++ 58 :: 32 :: (bytesOf "AppleStudio" ++ CRLF ++ []))))) := by
  decide


/-- The run of `extract_edids` on a non-empty view that contains the log header. -/
theorem extract_edids_log (view beyond : List Nat) (writeEdidFile : Nat → EdidRec → Bool)
    (h : HEADER <:+: view) :
    extract_edids (some (view, beyond)) writeEdidFile =
      (extract_edids.scan (view.length + 1) LOG_FILE ⟨view, beyond, 0⟩ []).bind fun s =>
        .ret (extract_edids.done writeEdidFile true s.1) := by
  have hne : view.length ≠ 0 := by
    intro h0
    rw [List.length_eq_zero.1 h0] at h
    exact absurd h (by decide)
  obtain ⟨j, -, hs⟩ := search_present (p := ⟨view, beyond, 0⟩) (by simpa using h)
    (by simp) (view.length + 1) (by simp [FileRec.length])
  rw [HEADER_length] at hs
  have hft : findFileType ⟨view, beyond, 0⟩ =
      .ret (LOG_FILE, (FileRec.advance ⟨view, beyond, 0⟩ j).advance 15) := by
    rw [findFileType, findEdidHeaderforLogFile, headerLoop_eq]
    simp only [FileRec.length]
    rw [hs]
    rfl
  simp only [extract_edids, hne, if_false, hft, Res.ret_bind]
  simp [LOG_FILE, UNKNOWN_FILE, FileRec.advance, FileRec.length]

/-- The run of `extract_edids` on a view that contains the text marker and not
the log header. -/
theorem extract_edids_text (view beyond : List Nat) (writeEdidFile : Nat → EdidRec → Bool)
    (h1 : ¬ HEADER <:+: view) (h2 : EDID_VERSION <:+: view) :
    extract_edids (some (view, beyond)) writeEdidFile =
      (extract_edids.scan (view.length + 1) TEXT_FILE ⟨view, beyond, 0⟩ []).bind fun s =>
        .ret (extract_edids.done writeEdidFile true s.1) := by
  have hne : view.length ≠ 0 := by
    intro h0
    rw [List.length_eq_zero.1 h0] at h2
    exact absurd h2 (by decide)
  have hhead : findEdidHeaderforLogFile ⟨view, beyond, 0⟩ =
      .ret (false, { (⟨view, beyond, 0⟩ : FileRec) with
        current := restCursor 15 ⟨view, beyond, 0⟩ }) := by
    rw [findEdidHeaderforLogFile, headerLoop_eq,
      search_absent _ (by decide) (by simpa using h1) _ (by simp [FileRec.length]) (by omega)
        15 (by decide)]
    rfl
  rcases findEdidfooterforTextFile_spec
    ({ start := view, beyond := beyond, current := restCursor 15 ⟨view, beyond, 0⟩ })
    with ⟨-, hr2⟩ | ⟨h2', -⟩
  · have hft : findFileType ⟨view, beyond, 0⟩ = .ret (TEXT_FILE, ⟨view, beyond, 0⟩) := by
      rw [findFileType, hhead]
      simp only [Res.ret_bind]
      rw [hr2]
      rfl
    simp only [extract_edids, hne, if_false, hft, Res.ret_bind]
    simp [LOG_FILE, TEXT_FILE, UNKNOWN_FILE, FileRec.length]
  · exact absurd h2 h2'


theorem bytesLog_append (a b : List LogItem) : bytesLog (a ++ b) = bytesLog a ++ bytesLog b := by
  induction a with
  | nil => rfl
  | cons i a ih => simp [bytesLog, ih]

theorem bytesLog_spacedBytes (row : List Nat) : bytesLog (spacedBytes row) = row := by
  induction row with
  | nil => rfl
  | cons b row ih => simp [spacedBytes, bytesLog, LogItem.bytes, ih]

theorem bytesLog_labelledRows (rows : List (List Nat)) :
    bytesLog (labelledRows rows) = rowBytes rows := by
  induction rows with
  | nil => rfl
  | cons row rows ih =>
    simp [labelledRows, bytesLog, LogItem.bytes, bytesLog_append, bytesLog_spacedBytes, ih,
      rowBytes]

theorem rowBytes_length (m : Nat) (rows : List (List Nat)) (h : ∀ r ∈ rows, r.length = m) :
    (rowBytes rows).length = m * rows.length := by
  induction rows with
  | nil => rfl
  | cons row rows ih =>
    have h1 := h row (by simp)
    have h2 := ih (fun r hr => h r (by simp [hr]))
    simp only [rowBytes, List.length_append, List.length_cons, h1, h2]
    ring

theorem spacedBytes_wf (row : List Nat) (h : ∀ b ∈ row, b < 256) :
    (spacedBytes row).all LogItem.wf = true := by
  induction row with
  | nil => rfl
  | cons b row ih =>
    have h1 := h b (by simp)
    have h2 := ih (fun c hc => h c (by simp [hc]))
    have hs : LogItem.wf (.space 32) = true := by decide
    rw [spacedBytes, List.all_cons, List.all_cons, hs, h2]
    simp [LogItem.wf, h1]

theorem labelledRows_wf (rows : List (List Nat)) (h : ∀ r ∈ rows, ∀ b ∈ r, b < 256) :
    (labelledRows rows).all LogItem.wf = true := by
  induction rows with
  | nil => rfl
  | cons row rows ih =>
    have h1 := spacedBytes_wf row (h row (by simp))
    have h2 := ih (fun r hr => h r (by simp [hr]))
    have hl : LogItem.wf (.label NVIDIA_LABEL) = true := by decide
    rw [labelledRows, List.all_cons, List.all_append, hl, h1, h2]
    rfl

/-- The excerpt of the end-to-end example is a well-formed triple. -/
theorem exampleTriple_wf (gap : List Nat) (rows : List (List Nat))
    (hgap : ¬ HEADER <:+: gap) (hn1 : 1 ≤ rows.length) (hn2 : rows.length ≤ 255)
    (hrow : ∀ r ∈ rows, r.length = 16 ∧ ∀ b ∈ r, b < 256) :
    (exampleTriple gap rows).wf = true := by
  have hb : bytesLog (labelledRows rows ++ [.label NVIDIA_LABEL, .space 32]) = rowBytes rows := by
    rw [bytesLog_append, bytesLog_labelledRows]
    simp [bytesLog, LogItem.bytes]
  have hlen := rowBytes_length 16 rows (fun r hr => (hrow r hr).1)
  have hw := labelledRows_wf rows (fun r hr => (hrow r hr).2)
  have ht : ([LogItem.label NVIDIA_LABEL, LogItem.space 32]).all LogItem.wf = true := by decide
  have hname1 : 1 ≤ (bytesOf "ViewSonic VPD150 (DFP-1)").length := by decide
  have hname2 : (bytesOf "ViewSonic VPD150 (DFP-1)").length ≤ 512 := by decide
  have hname3 : ¬ TERMINATOR <:+: bytesOf "ViewSonic VPD150 (DFP-1)" := by decide
  simp only [Triple.wf, exampleTriple, hb, hlen, List.all_append, hw, ht, Bool.and_true,
    Bool.and_eq_true, decide_eq_true_eq]
  refine ⟨⟨⟨⟨⟨hgap, ?_⟩, ?_⟩, hname1⟩, hname2⟩, hname3⟩ <;> omega

/-- The run of `extract_edids` on a log made of one well-formed triple whose name
holds no NUL, followed by a text without the header. -/
theorem extract_edids_triple (t : Triple) (tail beyond : List Nat)
    (writeEdidFile : Nat → EdidRec → Bool) (hw : t.wf = true) (h0 : 0 ∉ t.name)
    (htail : ¬ HEADER <:+: tail) :
    extract_edids (some (renderTriples [t] ++ tail, beyond)) writeEdidFile =
      .ret ⟨writeEdidFile 0 ⟨(bytesLog t.items).length, some (bytesLog t.items),
              some (t.name ++ [0])⟩, 1,
            [(⟨(bytesLog t.items).length, some (bytesLog t.items), some (t.name ++ [0])⟩,
              writeEdidFile 0 ⟨(bytesLog t.items).length, some (bytesLog t.items),
                some (t.name ++ [0])⟩)]⟩ := by
  have hin : HEADER <:+: renderTriples [t] ++ tail := by
    refine ⟨t.gap, renderLog t.items ++ (FOOTER ++ (t.name ++ (TERMINATOR ++ [10]))) ++ tail, ?_⟩
    simp [renderTriples, Triple.render]
  obtain ⟨q, hq⟩ := scan_triples [t] ⟨renderTriples [t] ++ tail, beyond, 0⟩ [] tail []
    ((renderTriples [t] ++ tail).length + 1) (by simp) (by simp)
    (by intro u hu; rw [List.mem_singleton.1 hu]; exact hw) htail
    (by
      have := length_le_renderTriples [t]
      simp only [List.length_append, List.length_singleton] at this ⊢
      omega)
  rw [extract_edids_log _ _ _ hin, hq]
  simp only [Res.ret_bind, List.nil_append, List.map_cons, List.map_nil, record_of_no_nul t h0]
  rfl

/-- C14 (as amended). End-to-end log example: a log excerpt made of a text
without the header, the header `Raw EDID bytes:`, n lines (1 ≤ n ≤ 255) each
made of a newline, the label `(--) NVIDIA(0):` and 16 hex pairs each after a
space, then a newline, the label, a space, the footer
`--- End of EDID for ViewSonic VPD150 (DFP-1) ---` and a newline, then a text
without the header. The run of `extract_edids` on it finds exactly one record,
of 16·n decoded bytes (the pairs in order), named `ViewSonic VPD150 (DFP-1)`,
and makes one write attempt, for that record: 16 lines give 256 bytes, and 128
bytes come from 8 lines. -/
theorem C14_log_example_rows (gap tail beyond : List Nat) (rows : List (List Nat))
    (writeEdidFile : Nat → EdidRec → Bool)
    (hgap : ¬ HEADER <:+: gap) (hn1 : 1 ≤ rows.length) (hn2 : rows.length ≤ 255)
    (hrow : ∀ r ∈ rows, r.length = 16 ∧ ∀ b ∈ r, b < 256) (htail : ¬ HEADER <:+: tail) :
    extract_edids (some (renderTriples [exampleTriple gap rows] ++ tail, beyond)) writeEdidFile =
      .ret ⟨writeEdidFile 0 ⟨16 * rows.length, some (rowBytes rows),
              some (bytesOf "ViewSonic VPD150 (DFP-1)" ++ [0])⟩, 1,
            [(⟨16 * rows.length, some (rowBytes rows),
                some (bytesOf "ViewSonic VPD150 (DFP-1)" ++ [0])⟩,
              writeEdidFile 0 ⟨16 * rows.length, some (rowBytes rows),
                some (bytesOf "ViewSonic VPD150 (DFP-1)" ++ [0])⟩)]⟩ ∧
    (rowBytes rows).length = 16 * rows.length := by
  have hb : bytesLog (exampleTriple gap rows).items = rowBytes rows := by
    rw [exampleTriple, bytesLog_append, bytesLog_labelledRows]
    simp [bytesLog, LogItem.bytes]
  have hlen := rowBytes_length 16 rows (fun r hr => (hrow r hr).1)
  refine ⟨?_, hlen⟩
  have h := extract_edids_triple (exampleTriple gap rows) tail beyond writeEdidFile
    (exampleTriple_wf gap rows hgap hn1 hn2 hrow)
    (by show 0 ∉ bytesOf "ViewSonic VPD150 (DFP-1)"; decide) htail
  rw [hb, hlen] at h
  exact h

/-- C14 at the eight rows of the header comment, after the text
`(--) NVIDIA(0): `, with nothing after the footer line and every write
succeeding: one record of 16·8 bytes. -/
theorem C14_log_example_rows_witness :
    extract_edids (some (renderTriples [exampleTriple (bytesOf "(--) NVIDIA(0): ")
        documentedLogData] ++ [], [])) (fun _ _ => true) =
      .ret ⟨true, 1,
            [(⟨16 * documentedLogData.length, some (rowBytes documentedLogData),
                some (bytesOf "ViewSonic VPD150 (DFP-1)" ++ [0])⟩, true)]⟩ ∧
    (rowBytes documentedLogData).length = 16 * documentedLogData.length :=
  C14_log_example_rows (bytesOf "(--) NVIDIA(0): ") [] [] documentedLogData (fun _ _ => true)
    (by decide) (by decide) (by decide) (by decide) (by decide)

set_option maxRecDepth 100000 in
/-- C14 fails as stated. The excerpt with the header, 16 labelled lines of 16
pairs `00` and the footer line gives one record of 256 bytes, not of 128. -/
theorem C14_counterexample :
    zeroRows.length = 16 ∧ (∀ r ∈ zeroRows, r.length = 16) ∧
    extract_edids (some (renderTriples [exampleTriple [] zeroRows] ++ [], []))
        (fun _ _ => true) =
      .ret ⟨true, 1,
            [(⟨256, some (List.replicate 256 0),
                some (bytesOf "ViewSonic VPD150 (DFP-1)" ++ [0])⟩, true)]⟩ ∧
    (256 : Nat) ≠ 128 := by
  refine ⟨by decide, by decide, ?_, by decide⟩
  have h := extract_edids_triple (exampleTriple [] zeroRows) [] [] (fun _ _ => true)
    (exampleTriple_wf [] zeroRows (by decide) (by decide) (by decide) (by decide))
    (by decide) (by decide)
  have hb : bytesLog (exampleTriple [] zeroRows).items = List.replicate 256 0 := by decide
  have hl : (List.replicate 256 0 : List Nat).length = 256 := by simp
  rw [hb, hl] at h
  exact h

set_option maxRecDepth 100000 in
/-- C15. The verbose-log dump of the header comment, every line ended by a
newline, is classified as a log file, and the run of `extract_edids` on it
finds exactly one record: 128 bytes, the pairs of the eight rows in order
(beginning 00 ff ff ff ff ff ff 00 5a 63 47 4b and ending 00 ce), with the name
`ViewSonic VPD150 (DFP-1)`; it makes one write attempt, for that record. -/
theorem C15_documented_log_sample (beyond : List Nat) (writeEdidFile : Nat → EdidRec → Bool) :
    (∃ p, findFileType ⟨documentedLog, beyond, 0⟩ = .ret (LOG_FILE, p)) ∧
    extract_edids (some (documentedLog, beyond)) writeEdidFile =
      .ret ⟨writeEdidFile 0 ⟨128, some (rowBytes documentedLogData),
              some (bytesOf "ViewSonic VPD150 (DFP-1)" ++ [0])⟩, 1,
            [(⟨128, some (rowBytes documentedLogData),
                some (bytesOf "ViewSonic VPD150 (DFP-1)" ++ [0])⟩,
              writeEdidFile 0 ⟨128, some (rowBytes documentedLogData),
                some (bytesOf "ViewSonic VPD150 (DFP-1)" ++ [0])⟩)]⟩ ∧
    (rowBytes documentedLogData).length = 128 ∧
    (rowBytes documentedLogData).take 12 = [0, 255, 255, 255, 255, 255, 255, 0, 90, 99, 71, 75] ∧
    (rowBytes documentedLogData).drop 126 = [0, 206] ∧
    EdidRec.nameString ⟨128, some (rowBytes documentedLogData),
      some (bytesOf "ViewSonic VPD150 (DFP-1)" ++ [0])⟩ =
        some (bytesOf "ViewSonic VPD150 (DFP-1)") := by
  have hin : HEADER <:+: documentedLog := by
    rw [documentedLog_eq]
    refine ⟨documentedTriple.gap, renderLog documentedTriple.items ++
      (FOOTER ++ (documentedTriple.name ++ (TERMINATOR ++ [10]))) ++ [], ?_⟩
    simp [renderTriples, Triple.render]
  refine ⟨?_, ?_, by decide, by decide, by decide, by decide⟩
  · obtain ⟨t, p, h, hlog, -, -⟩ := findFileType_spec documentedLog beyond
    exact ⟨p, by rw [h, hlog.2 hin]⟩
  · have h := extract_edids_triple documentedTriple [] beyond writeEdidFile
      (by decide) (by decide) (by decide)
    have hb : bytesLog documentedTriple.items = rowBytes documentedLogData := by decide
    have hl : (rowBytes documentedLogData).length = 128 := by decide
    have hn : documentedTriple.name = bytesOf "ViewSonic VPD150 (DFP-1)" := rfl
    rw [hb, hl, hn, ← documentedLog_eq] at h
    exact h

set_option maxRecDepth 100000 in
/-- C16. The text-style dump of the header comment (eight rows of 16 hex pairs
with a `-` between the 8th and the 9th, four spaces and a text column of 16
characters, a blank line and the line `EDID Version                : 1.1`)
followed by the line `Monitor Name : AppleStudio`, every line ended by CR LF,
is classified as a text file, and the run of `extract_edids` on it finds
exactly one record: 128 bytes, the pairs of the eight rows in order (beginning
00 FF FF FF FF FF FF 00 06 10 F4 01 and ending 00 88), with the name
`AppleStudio`; it makes one write attempt, for that record. -/
theorem C16_documented_text_sample (beyond : List Nat) (writeEdidFile : Nat → EdidRec → Bool) :
    (∃ p, findFileType ⟨documentedText, beyond, 0⟩ = .ret (TEXT_FILE, p)) ∧
    extract_edids (some (documentedText, beyond)) writeEdidFile =
      .ret ⟨writeEdidFile 0 ⟨128, some (bytesRows documentedTextRows ++ documentedTextLast.bytes),
              some (bytesOf "AppleStudio" ++ [0])⟩, 1,
            [(⟨128, some (bytesRows documentedTextRows ++ documentedTextLast.bytes),
                some (bytesOf "AppleStudio" ++ [0])⟩,
              writeEdidFile 0 ⟨128,
                some (bytesRows documentedTextRows ++ documentedTextLast.bytes),
                some (bytesOf "AppleStudio" ++ [0])⟩)]⟩ ∧
    (bytesRows documentedTextRows ++ documentedTextLast.bytes).length = 128 ∧
    (bytesRows documentedTextRows ++ documentedTextLast.bytes).take 12 =
      [0, 255, 255, 255, 255, 255, 255, 0, 6, 16, 244, 1] ∧
    (bytesRows documentedTextRows ++ documentedTextLast.bytes).drop 126 = [0, 136] ∧
    EdidRec.nameString ⟨128, some (bytesRows documentedTextRows ++ documentedTextLast.bytes),
      some (bytesOf "AppleStudio" ++ [0])⟩ = some (bytesOf "AppleStudio") := by
  have h1 : ¬ HEADER <:+: documentedText := by
    have : ¬ HEADER <:+: documentedText ++ [] :=
      not_infix_append_of_not_mem (t := bytesOf "aw EDID bytes:") (a := 82)
        (by decide) documentedText [] (by decide) (by decide)
    simpa using this
  have h2 : EDID_VERSION <:+: documentedText := by
    refine ⟨renderRows documentedTextRows ++ documentedTextLast.render ++ CRLF,
      bytesOf "                : 1.1" ++ CRLF ++ MONITOR_NAME ++
        ([32] ++ 58 :: 32 :: (bytesOf "AppleStudio" ++ CRLF)), ?_⟩
    decide
  refine ⟨?_, ?_, by decide, by decide, by decide, by decide⟩
  · obtain ⟨t, p, h, -, htext, -⟩ := findFileType_spec documentedText beyond
    exact ⟨p, by rw [h, htext.2 ⟨h1, h2⟩]⟩
  · obtain ⟨q, hq⟩ := findEdidforTextFile_table documentedTextRows documentedTextLast
      documentedTextMid [32] (bytesOf "AppleStudio") [] beyond 32
      (by decide) (by decide) (by decide) (by decide) (by decide) (by decide) (by decide)
      (by decide)
    rw [← documentedText_eq] at hq
    have hl : (bytesRows documentedTextRows ++ documentedTextLast.bytes).length = 128 := by
      decide
    have hn : strncpy (bytesOf "AppleStudio") (bytesOf "AppleStudio").length ++ [0] =
        bytesOf "AppleStudio" ++ [0] := by decide
    rw [hl, hn] at hq
    rw [extract_edids_text _ _ _ h1 h2, scan_text hq]
    rfl


/-! ## The write loop and the returned status -/

/-- The colon loop on a text without a colon that ends the memory. -/
theorem colon_fault (tail : List Nat) : ∀ (p : FileRec) (n : Nat),
    58 ∉ tail → p.mem.drop p.current = tail → tail.length < n →
    readMonitorNameforTextFile.colon n p = .fault := by
  induction tail with
  | nil =>
    intro p n _ hd hn
    obtain ⟨m, rfl⟩ : ∃ m, n = m + 1 := ⟨n - 1, by simp at hn; omega⟩
    have hp : p.peek 0 = none := by
      have hlen : p.mem.length ≤ p.current := by
        rw [List.drop_eq_nil_iff] at hd
        exact hd
      simp [FileRec.peek, hlen]
    rw [readMonitorNameforTextFile.colon, hp]
  | cons c tail ih =>
    intro p n hc hd hn
    obtain ⟨m, rfl⟩ : ∃ m, n = m + 1 := ⟨n - 1, by simp at hn; omega⟩
    have hp : p.peek 0 = some c := by
      have := congrArg (fun l => l[0]?) hd
      simpa [FileRec.peek] using this
    have hc1 : c ≠ 58 := by
      intro h
      exact hc (by simp [h])
    have hd2 : (p.advance 1).mem.drop (p.advance 1).current = tail := by
      have := congrArg (List.drop 1) hd
      simpa [FileRec.advance, FileRec.mem, List.drop_drop, Nat.add_comm] using this
    rw [readMonitorNameforTextFile.colon, hp]
    have hc2 : c ≠ ':'.toNat := hc1
    simp only []
    rw [if_pos hc2]
    exact ih (p.advance 1) m (fun h => hc (by simp [h])) hd2 (by simpa using hn)

/-- C21, the failing input. The loop that looks for the `:` after
`Monitor Name` has no bound: on every view in which `Monitor Name` occurs and
no `:` occurs after its first occurrence, the parser reads past the view. With
no readable memory after the view the call faults (it does not return); with a
`:` in the memory after the view it returns failure with the cursor two bytes
after that `:`, beyond the end of the view. -/
theorem C21_missing_colon_reads_past_view (s tail : List Nat) (e : EdidRec)
    (hs : ¬ MONITOR_NAME <:+: s) (ht : 58 ∉ tail) :
    readMonitorNameforTextFile ⟨s ++ MONITOR_NAME ++ tail, [], 0⟩ e = .fault ∧
    readMonitorNameforTextFile ⟨bytesOf "Monitor Name", bytesOf ": x", 0⟩ EdidRec.fresh =
      .ret (false, ⟨bytesOf "Monitor Name", bytesOf ": x", 14⟩, EdidRec.fresh) := by
  refine ⟨?_, by decide⟩
  have hfind := @search_in 12 MONITOR_NAME (bytesOf "onitor Name") s tail 77
    ⟨s ++ MONITOR_NAME ++ tail, [], 0⟩ (by decide) (by decide) hs (by simp)
    (by rw [MONITOR_NAME_length]; omega) ((s ++ MONITOR_NAME ++ tail).length + 1)
    (by simp only [List.length_append]; omega)
  rw [readMonitorNameforTextFile, monitorFind_eq]
  simp only [FileRec.length]
  rw [hfind]
  simp only [Res.ret_bind, if_true, Bool.not_true, Bool.false_eq_true, if_false,
    FileRec.advance_advance]
  rw [colon_fault tail _ _ ht (by simp [FileRec.advance, FileRec.mem, MONITOR_NAME_length])
    (by simp only [FileRec.mem, FileRec.advance, List.length_append]; omega)]
  rfl

/-- C21 on the view `see Monitor Name = none`, which has no colon. -/
theorem C21_missing_colon_reads_past_view_witness :
    readMonitorNameforTextFile
        ⟨bytesOf "see " ++ MONITOR_NAME ++ bytesOf " = none", [], 0⟩ EdidRec.fresh = .fault ∧
    readMonitorNameforTextFile ⟨bytesOf "Monitor Name", bytesOf ": x", 0⟩ EdidRec.fresh =
      .ret (false, ⟨bytesOf "Monitor Name", bytesOf ": x", 14⟩, EdidRec.fresh) :=
  C21_missing_colon_reads_past_view (bytesOf "see ") (bytesOf " = none") EdidRec.fresh
    (by decide) (by decide)

/-- C27. A row ended directly by CR LF swallows the next row. For every text
made of a well-formed token stream `front`, CR LF right after it, a text `row`
and CR LF, a well-formed token stream `back`, and the end of the table (two
whitespace characters, the rest of the line and CR LF CR LF), the text decoder
succeeds, and its bytes are those of `front` followed by those of `back`: the
CR makes the decoder skip up to and including the next CR LF, so that `row`
contributes nothing, whatever it holds. -/
theorem C27_row_swallowed (front back : List TextItem) (row col r beyond : List Nat) (gap : Nat)
    (pEdid : EdidRec)
    (hw : wfText (front ++ (TextItem.skip 13 (10 :: row) :: TextItem.space 10 :: back))
      (gap :: (col ++ 13 :: 10 :: 13 :: 10 :: r)) = true)
    (hgap : isspace gap = true) (hhead : isspace ((col ++ [13]).headD 0) = true)
    (hno : ¬ CRLF <:+: col)
    (h1 : 1 ≤ (bytesText front ++ bytesText back).length)
    (h2 : (bytesText front ++ bytesText back).length < MAX_EDID_SIZE) :
    ∃ q, readEdidDataforTextFile
        ⟨renderText front ++ (CRLF ++ (row ++ (CRLF ++ (renderText back ++
          gap :: (col ++ 13 :: 10 :: 13 :: 10 :: r))))), beyond, 0⟩ pEdid =
      .ret (true, q,
        { pEdid with
          size := (bytesText front ++ bytesText back).length
          bytes := some (bytesText front ++ bytesText back) }) := by
  have hb : bytesText (front ++ (TextItem.skip 13 (10 :: row) :: TextItem.space 10 :: back)) =
      bytesText front ++ bytesText back := by
    rw [bytesText_append]
    simp [bytesText, TextItem.bytes]
  have hr : renderText (front ++ (TextItem.skip 13 (10 :: row) :: TextItem.space 10 :: back)) =
      renderText front ++ (CRLF ++ (row ++ (CRLF ++ renderText back))) := by
    rw [renderText_append]
    simp [renderText, TextItem.render, CRLF]
  have h := @text_decode_ok
    ⟨renderText front ++ (CRLF ++ (row ++ (CRLF ++ (renderText back ++
          gap :: (col ++ 13 :: 10 :: 13 :: 10 :: r))))), beyond, 0⟩
    (front ++ (TextItem.skip 13 (10 :: row) :: TextItem.space 10 :: back)) gap col r
    pEdid (by rw [hr]; simp) hw hgap hhead hno (by rw [hb]; exact h1) (by rw [hb]; exact h2)
  rw [hb] at h
  exact ⟨_, h⟩

set_option maxRecDepth 100000 in
/-- C27 on the input `AA BB` CR LF `CC DD` CR LF `EE FF  x` CR LF CR LF: the four
bytes AA BB EE FF. -/
theorem C27_row_swallowed_witness :
    ∃ q, readEdidDataforTextFile
        ⟨bytesOf "AA BB" ++ (CRLF ++ (bytesOf "CC DD" ++ (CRLF ++ (bytesOf "EE FF" ++
          32 :: (bytesOf " x" ++ 13 :: 10 :: 13 :: 10 :: []))))), [], 0⟩ EdidRec.fresh =
      .ret (true, q, ⟨4, some [170, 187, 238, 255], none⟩) :=
  C27_row_swallowed [.byte 170 true true, .space 32, .byte 187 true true]
    [.byte 238 true true, .space 32, .byte 255 true true] (bytesOf "CC DD") (bytesOf " x") [] []
    32 EdidRec.fresh (by decide) (by decide) (by decide) (by decide) (by decide) (by decide)


/-! ## A byte cut after its first digit -/

/-- The log state machine at a hex digit followed by a character that is not
one: it fails at that character. -/
theorem log_half_byte {p : FileRec} {c d : Nat} {rest : List Nat}
    (hd : p.start.drop p.current = c :: d :: rest) (hc : IS_HEX c = true)
    (hx : IS_HEX d = false) (n k : Nat) (pData : List Nat) :
    readEdidDataforLogFile.loop (n + 2) p STATE_LOOKING_FOR_TOP_NIBBLE k pData =
      .ret (false, p.advance 1, k,
        pData.set k (pData.getD k 0 ||| (HEX_TO_NIBBLE c <<< 4))) := by
  have hd2 := (FileRec.peek_of_drop hd).2.2
  have hs := not_isspace_of_hex hc
  have h10 : c ≠ 10 := by
    intro h
    rw [h] at hc
    exact absurd hc (by decide)
  rw [log_step hd, if_pos rfl, if_neg h10, hs, if_neg (by simp), hc, if_pos rfl, log_step hd2,
    if_neg (by decide), if_pos rfl, hx, if_neg (by simp)]

/-- The same for the text state machine. -/
theorem text_half_byte {p : FileRec} {c d : Nat} {rest : List Nat}
    (hd : p.start.drop p.current = c :: d :: rest) (hc : IS_HEX c = true)
    (hx : IS_HEX d = false) (n k : Nat) (pData : List Nat) :
    readEdidDataforTextFile.loop (n + 2) p STATE_LOOKING_FOR_TOP_NIBBLE k pData =
      .ret (false, p.advance 1, k,
        pData.set k (pData.getD k 0 ||| (HEX_TO_NIBBLE c <<< 4))) := by
  have hd2 := (FileRec.peek_of_drop hd).2.2
  rw [text_step hd, if_pos rfl, hc, if_pos rfl, text_step hd2,
    if_neg (by decide), if_pos rfl, hx, if_neg (by simp)]

/-- The log decoder on a well-formed stream followed by a hex digit and a
character that is not one. -/
theorem log_decode_half_byte {p : FileRec} {items : List LogItem} {c d : Nat} {rest : List Nat}
    (pEdid : EdidRec) (hw : ∀ i ∈ items, i.wf = true)
    (hd : p.start.drop p.current = renderLog items ++ c :: d :: rest)
    (hc : IS_HEX c = true) (hx : IS_HEX d = false) :
    ∃ q, readEdidDataforLogFile p pEdid = .ret (false, q, pEdid) := by
  by_cases hcap : (bytesLog items).length < MAX_EDID_SIZE
  · have hlen := (drop_append_of_drop hd).2 (by simp)
    have hd2 := FileRec.drop_advance hd
    obtain ⟨n, hn⟩ : ∃ n, p.length + 2 = (n + 2) + (renderLog items).length :=
      ⟨p.length - (renderLog items).length, by
        simp only [FileRec.length, List.length_cons] at hlen ⊢; omega⟩
    have := log_items items p [] (n + 2) (c :: d :: rest) hw hd (by simpa using hcap)
    simp only [List.length_nil, List.nil_append] at this
    have hs : scratch [] = List.replicate MAX_EDID_SIZE 0 := by simp [scratch]
    rw [hs] at this
    rw [readEdidDataforLogFile, hn, this, log_half_byte hd2 hc hx]
    exact ⟨(p.advance (renderLog items).length).advance 1, by simp [saveEdidData]⟩
  · exact log_decode_cap pEdid hw hd (by omega)

/-- The text decoder on a well-formed stream followed by a hex digit and a
character that is not one. -/
theorem text_decode_half_byte {p : FileRec} {items : List TextItem} {c d : Nat}
    {rest : List Nat} (pEdid : EdidRec) (hw : wfText items (c :: d :: rest) = true)
    (hd : p.start.drop p.current = renderText items ++ c :: d :: rest)
    (hc : IS_HEX c = true) (hx : IS_HEX d = false) :
    ∃ q, readEdidDataforTextFile p pEdid = .ret (false, q, pEdid) := by
  by_cases hcap : (bytesText items).length < MAX_EDID_SIZE
  · have hlen := (drop_append_of_drop hd).2 (by simp)
    have hd2 := FileRec.drop_advance hd
    obtain ⟨n, hn⟩ : ∃ n, p.length + 2 = (n + 2) + (renderText items).length :=
      ⟨p.length - (renderText items).length, by
        simp only [FileRec.length, List.length_cons] at hlen ⊢; omega⟩
    have := text_items items p [] (n + 2) (c :: d :: rest) hw hd (by simpa using hcap)
    simp only [List.length_nil, List.nil_append] at this
    have hs : scratch [] = List.replicate MAX_EDID_SIZE 0 := by simp [scratch]
    rw [hs] at this
    rw [readEdidDataforTextFile, hn, this, text_half_byte hd2 hc hx]
    exact ⟨(p.advance (renderText items).length).advance 1, by simp [saveEdidData]⟩
  · exact text_decode_cap pEdid hw hd (by omega)

/-- C23. No label or separator inside a byte. In both decoders the state
machine, in the state that looks for a high nibble and at a hex digit followed
in the view by a character that is not a hex digit, fails at that character,
whatever `k` and the scratch buffer are; so each decoder returns failure, with
the record untouched, on every view made of a well-formed token stream followed
by a hex digit and a character that is not one. -/
theorem C23_no_separator_inside_byte (p : FileRec) (c d : Nat) (rest : List Nat)
    (hc : IS_HEX c = true) (hx : IS_HEX d = false) :
    (p.start.drop p.current = c :: d :: rest → ∀ (n k : Nat) (pData : List Nat),
      (∃ r, readEdidDataforLogFile.loop (n + 2) p STATE_LOOKING_FOR_TOP_NIBBLE k pData =
        .ret (false, r)) ∧
      (∃ r, readEdidDataforTextFile.loop (n + 2) p STATE_LOOKING_FOR_TOP_NIBBLE k pData =
        .ret (false, r))) ∧
    (∀ (items : List LogItem) (pEdid : EdidRec), (∀ i ∈ items, i.wf = true) →
      p.start.drop p.current = renderLog items ++ c :: d :: rest →
      ∃ q, readEdidDataforLogFile p pEdid = .ret (false, q, pEdid)) ∧
    (∀ (items : List TextItem) (pEdid : EdidRec), wfText items (c :: d :: rest) = true →
      p.start.drop p.current = renderText items ++ c :: d :: rest →
      ∃ q, readEdidDataforTextFile p pEdid = .ret (false, q, pEdid)) := by
  refine ⟨?_, ?_, ?_⟩
  · intro hd n k pData
    exact ⟨⟨_, log_half_byte hd hc hx n k pData⟩, ⟨_, text_half_byte hd hc hx n k pData⟩⟩
  · intro items pEdid hw hd
    exact log_decode_half_byte pEdid hw hd hc hx
  · intro items pEdid hw hd
    exact text_decode_half_byte pEdid hw hd hc hx

set_option maxRecDepth 100000 in
/-- C23 on the view `00 f:f`, in which a colon follows the high nibble `f`. -/
theorem C23_no_separator_inside_byte_witness :
    (∃ q, readEdidDataforLogFile ⟨bytesOf "00 f:f", [], 0⟩ EdidRec.fresh =
      .ret (false, q, EdidRec.fresh)) ∧
    (∃ q, readEdidDataforTextFile ⟨bytesOf "00 f:f", [], 0⟩ EdidRec.fresh =
      .ret (false, q, EdidRec.fresh)) :=
  ⟨(C23_no_separator_inside_byte ⟨bytesOf "00 f:f", [], 0⟩ 102 58 [102] (by decide)
      (by decide)).2.1 [.byte 0 false false, .space 32] EdidRec.fresh (by decide) (by decide),
   (C23_no_separator_inside_byte ⟨bytesOf "00 f:f", [], 0⟩ 102 58 [102] (by decide)
      (by decide)).2.2 [.byte 0 false false, .space 32] EdidRec.fresh (by decide) (by decide)⟩


/-! ## The cursor only moves forward -/

/-- A search keeps the memory and moves the cursor forward; when it finds the
literal, `need` bytes of the view remain at the cursor. -/
theorem search_frame (need : Nat) (lit : List Nat) (fuel : Nat) :
    ∀ (p : FileRec) (r : Bool × FileRec), search need lit fuel p = .ret r →
      r.2.start = p.start ∧ r.2.beyond = p.beyond ∧ p.current ≤ r.2.current ∧
      (r.1 = true → r.2.current + need ≤ r.2.length) := by
  induction fuel with
  | zero => intro p r h; simp [search] at h
  | succ n ih =>
    intro p r h
    rw [search] at h
    split at h
    · rename_i hneed
      split at h
      · simp only [Res.ret.injEq] at h; subst h; exact ⟨rfl, rfl, Nat.le_refl _, fun _ => hneed⟩
      · obtain ⟨h1, h2, h3, h4⟩ := ih (p.advance 1) r h
        simp only [FileRec.advance_start, FileRec.advance_beyond, FileRec.advance_current] at h1 h2 h3
        exact ⟨h1, h2, by omega, h4⟩
    · simp only [Res.ret.injEq] at h; subst h; exact ⟨rfl, rfl, Nat.le_refl _, by simp⟩

/-- A search with enough fuel returns. -/
theorem search_total (need : Nat) (lit : List Nat) (hneed1 : 1 ≤ need) (fuel : Nat) :
    ∀ (p : FileRec), p.length + 1 ≤ fuel + p.current → 0 < fuel →
      ∃ r, search need lit fuel p = .ret r := by
  induction fuel with
  | zero => intro p _ h; omega
  | succ n ih =>
    intro p hf _
    rw [search]
    split
    · rename_i hneed
      split
      · exact ⟨_, rfl⟩
      · by_cases hn : n = 0
        · subst hn
          exfalso
          omega
        · exact ih (p.advance 1) (by simp only [FileRec.advance_length, FileRec.advance_current]; omega)
            (by omega)
    · exact ⟨_, rfl⟩

/-- The log state machine keeps the memory and moves the cursor forward; when
it ends at `done`, the cursor is inside the view or right after it, and two
characters have been passed for every byte pair completed. -/
theorem log_loop_frame (fuel : Nat) : ∀ (p : FileRec) (state k : Nat) (pData : List Nat)
    (r : Bool × FileRec × Nat × List Nat),
    readEdidDataforLogFile.loop fuel p state k pData = .ret r →
    r.2.1.start = p.start ∧ r.2.1.beyond = p.beyond ∧ p.current ≤ r.2.1.current ∧
    (p.current ≤ p.length → r.2.1.current ≤ p.length) ∧
    (r.1 = true → p.current + 2 * r.2.2.1 ≤ r.2.1.current + 2 * k +
      (if state = STATE_LOOKING_FOR_BOTTOM_NIBBLE then 1 else 0)) := by
  induction fuel with
  | zero => intro p state k pData r h; simp [readEdidDataforLogFile.loop] at h
  | succ n ih =>
    intro p state k pData r h
    rw [readEdidDataforLogFile.loop] at h
    split at h
    · simp at h
    · simp only [] at h
      repeat' split at h
      all_goals first
        | (simp only [Res.ret.injEq] at h; subst h
           refine ⟨rfl, rfl, Nat.le_refl _, fun hcur => hcur, ?_⟩
           intro hr
           first
             | (simp at hr; done)
             | (simp only []; split <;> omega))
        | (rename_i hend
           have hcur2 : (p.advance 1).current ≤ (p.advance 1).length := by
             simp only [FileRec.advance_length, FileRec.advance_current]; omega
           obtain ⟨h1, h2, h3, h4, h5⟩ := ih _ _ _ _ r h
           have h4 := h4 hcur2
           simp only [FileRec.advance_start, FileRec.advance_beyond, FileRec.advance_current,
             FileRec.advance_length] at h1 h2 h3 h4
           refine ⟨h1, h2, by omega, fun _ => h4, ?_⟩
           intro hr
           have h6 := h5 hr
           simp only [FileRec.advance_current] at h6
           simp only [STATE_LOOKING_FOR_TOP_NIBBLE, STATE_LOOKING_FOR_BOTTOM_NIBBLE,
             STATE_LOOKING_FOR_END_OF_LABEL] at *
           repeat' split at h6
           all_goals (repeat' split)
           all_goals omega)

/-- The text state machine keeps the memory and moves the cursor forward. -/
theorem text_loop_frame (fuel : Nat) : ∀ (p : FileRec) (state k : Nat) (pData : List Nat)
    (r : Bool × FileRec × Nat × List Nat),
    readEdidDataforTextFile.loop fuel p state k pData = .ret r →
    r.2.1.start = p.start ∧ r.2.1.beyond = p.beyond ∧ p.current ≤ r.2.1.current := by
  induction fuel with
  | zero => intro p state k pData r h; simp [readEdidDataforTextFile.loop] at h
  | succ n ih =>
    intro p state k pData r h
    rw [readEdidDataforTextFile.loop] at h
    split at h
    · simp at h
    · simp only [] at h
      repeat' split at h
      all_goals first
        | (simp at h; done)
        | (simp only [Res.ret.injEq] at h; subst h; exact ⟨rfl, rfl, Nat.le_refl _⟩)
        | (obtain ⟨h1, h2, h3⟩ := ih _ _ _ _ r h
           simp only [FileRec.advance_start, FileRec.advance_beyond,
             FileRec.advance_current] at h1 h2 h3
           exact ⟨h1, h2, by omega⟩)

/-- The colon loop keeps the memory and moves the cursor forward. -/
theorem colon_frame (fuel : Nat) : ∀ (p q : FileRec),
    readMonitorNameforTextFile.colon fuel p = .ret q →
    q.start = p.start ∧ q.beyond = p.beyond ∧ p.current ≤ q.current := by
  induction fuel with
  | zero => intro p q h; simp [readMonitorNameforTextFile.colon] at h
  | succ n ih =>
    intro p q h
    rw [readMonitorNameforTextFile.colon] at h
    split at h
    · simp at h
    · split at h
      · obtain ⟨h1, h2, h3⟩ := ih _ _ h
        simp only [FileRec.advance_start, FileRec.advance_beyond,
          FileRec.advance_current] at h1 h2 h3
        exact ⟨h1, h2, by omega⟩
      · simp only [Res.ret.injEq] at h; subst h; exact ⟨rfl, rfl, Nat.le_refl _⟩

theorem saveEdidData_cursor (pEdid : EdidRec) (r : Bool × FileRec × Nat × List Nat) :
    (saveEdidData pEdid r).2.1 = r.2.1 ∧
    ((saveEdidData pEdid r).1 = true → r.1 = true ∧ 1 ≤ r.2.2.1) := by
  simp only [saveEdidData]
  split
  · split
    · exact ⟨rfl, by simp⟩
    · rename_i h1 h2
      exact ⟨rfl, fun _ => ⟨h1, by omega⟩⟩
  · exact ⟨rfl, by simp⟩

theorem captureName_cursor (p : FileRec) (begin : Nat) (e : EdidRec) :
    (captureName p begin e).2.1 = p ∧
    ((captureName p begin e).1 = true → begin + 1 ≤ p.current) := by
  simp only [captureName]
  split
  · exact ⟨rfl, by simp⟩
  · rename_i h
    simp only [gt_iff_lt, Bool.or_eq_true, decide_eq_true_eq, not_or, not_lt] at h
    obtain ⟨-, h1, h2⟩ := toInt32_pos h.2
    exact ⟨rfl, fun _ => by omega⟩

/-- The header search keeps the memory and moves the cursor forward, by at
least the 15 bytes of the header when it finds it. -/
theorem findEdidHeaderforLogFile_frame {p : FileRec} {r : Bool × FileRec}
    (h : findEdidHeaderforLogFile p = .ret r) :
    r.2.start = p.start ∧ r.2.beyond = p.beyond ∧ p.current ≤ r.2.current ∧
    (r.1 = true → p.current + 15 ≤ r.2.current ∧ r.2.current ≤ r.2.length) := by
  rw [findEdidHeaderforLogFile, headerLoop_eq] at h
  cases hs : search 15 HEADER (p.length + 1) p with
  | fault => rw [hs] at h; simp [Res.bind] at h
  | fuel => rw [hs] at h; simp [Res.bind] at h
  | ret x =>
    rw [hs] at h
    obtain ⟨h1, h2, h3, h4⟩ := search_frame _ _ _ _ _ hs
    simp only [Res.ret_bind] at h
    split at h
    · rename_i hx
      simp only [Res.ret.injEq] at h; subst h
      have := h4 hx
      simp only [FileRec.advance_start, FileRec.advance_beyond, FileRec.advance_current,
        FileRec.advance_length]
      exact ⟨h1, h2, by omega, fun _ => ⟨by omega, by omega⟩⟩
    · rename_i hx
      simp only [Res.ret.injEq] at h; subst h
      exact ⟨h1, h2, h3, fun hr => absurd hr hx⟩

/-- The log decoder keeps the memory and moves the cursor forward, by at least
two characters when it succeeds. -/
theorem readEdidDataforLogFile_frame {p : FileRec} {e : EdidRec} {r : Bool × FileRec × EdidRec}
    (h : readEdidDataforLogFile p e = .ret r) :
    r.2.1.start = p.start ∧ r.2.1.beyond = p.beyond ∧ p.current ≤ r.2.1.current ∧
    (p.current ≤ p.length → r.2.1.current ≤ p.length) ∧
    (r.1 = true → p.current + 2 ≤ r.2.1.current) := by
  rw [readEdidDataforLogFile] at h
  cases hl : readEdidDataforLogFile.loop (p.length + 2) p STATE_LOOKING_FOR_TOP_NIBBLE 0
      (List.replicate MAX_EDID_SIZE 0) with
  | fault => rw [hl] at h; simp [Res.bind] at h
  | fuel => rw [hl] at h; simp [Res.bind] at h
  | ret x =>
    rw [hl] at h
    simp only [Res.ret_bind, Res.ret.injEq] at h
    subst h
    obtain ⟨h1, h2, h3, h4, h5⟩ := log_loop_frame _ _ _ _ _ _ hl
    obtain ⟨hc, hs⟩ := saveEdidData_cursor e x
    rw [hc]
    refine ⟨h1, h2, h3, h4, ?_⟩
    intro hr
    obtain ⟨hx, hk⟩ := hs hr
    have := h5 hx
    simp only [STATE_LOOKING_FOR_TOP_NIBBLE, STATE_LOOKING_FOR_BOTTOM_NIBBLE] at this
    simp at this
    omega

/-- The text decoder keeps the memory and moves the cursor forward. -/
theorem readEdidDataforTextFile_frame {p : FileRec} {e : EdidRec} {r : Bool × FileRec × EdidRec}
    (h : readEdidDataforTextFile p e = .ret r) :
    r.2.1.start = p.start ∧ r.2.1.beyond = p.beyond ∧ p.current ≤ r.2.1.current := by
  rw [readEdidDataforTextFile] at h
  cases hl : readEdidDataforTextFile.loop (p.length + 2) p STATE_LOOKING_FOR_TOP_NIBBLE 0
      (List.replicate MAX_EDID_SIZE 0) with
  | fault => rw [hl] at h; simp [Res.bind] at h
  | fuel => rw [hl] at h; simp [Res.bind] at h
  | ret x =>
    rw [hl] at h
    simp only [Res.ret_bind, Res.ret.injEq] at h
    subst h
    rw [(saveEdidData_cursor e x).1]
    exact text_loop_frame _ _ _ _ _ _ hl

/-- The footer parser keeps the memory and moves the cursor forward; when it
succeeds the cursor has passed the 20 bytes of the footer literal and at least
one character of the name, and five bytes of the view remain. -/
theorem readEdidFooterforLogFile_frame {p : FileRec} {e : EdidRec} {r : Bool × FileRec × EdidRec}
    (h : readEdidFooterforLogFile p e = .ret r) :
    r.2.1.start = p.start ∧ r.2.1.beyond = p.beyond ∧ p.current ≤ r.2.1.current ∧
    (r.1 = true → p.current + 21 ≤ r.2.1.current ∧ r.2.1.current + 5 ≤ r.2.1.length) := by
  rw [readEdidFooterforLogFile] at h
  split at h
  · simp only [Res.ret.injEq] at h; subst h; exact ⟨rfl, rfl, Nat.le_refl _, by simp⟩
  · split at h
    · simp only [Res.ret.injEq] at h; subst h; exact ⟨rfl, rfl, Nat.le_refl _, by simp⟩
    · simp only [footerLoop_eq] at h
      cases hs : search 5 TERMINATOR ((p.advance 20).length + 1) (p.advance 20) with
      | fault => rw [hs] at h; simp [Res.bind] at h
      | fuel => rw [hs] at h; simp [Res.bind] at h
      | ret x =>
        rw [hs] at h
        obtain ⟨h1, h2, h3, h4⟩ := search_frame _ _ _ _ _ hs
        simp only [FileRec.advance_start, FileRec.advance_beyond,
          FileRec.advance_current] at h1 h2 h3
        simp only [Res.ret_bind] at h
        split at h
        · rename_i hx
          simp only [Res.ret.injEq] at h; subst h
          obtain ⟨hc, hn⟩ := captureName_cursor x.2 (p.advance 20).current e
          rw [hc]
          refine ⟨h1, h2, by omega, ?_⟩
          intro hr
          have := hn hr
          simp only [FileRec.advance_current] at this
          exact ⟨by omega, h4 hx⟩
        · simp only [Res.ret.injEq] at h; subst h
          exact ⟨h1, h2, by simp only []; omega, by simp⟩

/-- The monitor-name parser keeps the memory and moves the cursor forward. -/
theorem readMonitorNameforTextFile_frame {p : FileRec} {e : EdidRec}
    {r : Bool × FileRec × EdidRec} (h : readMonitorNameforTextFile p e = .ret r) :
    r.2.1.start = p.start ∧ r.2.1.beyond = p.beyond ∧ p.current ≤ r.2.1.current := by
  rw [readMonitorNameforTextFile, monitorFind_eq] at h
  cases hs : search 12 MONITOR_NAME (p.length + 1) p with
  | fault => rw [hs] at h; simp [Res.bind] at h
  | fuel => rw [hs] at h; simp [Res.bind] at h
  | ret x =>
    rw [hs] at h
    obtain ⟨h1, h2, h3, -⟩ := search_frame _ _ _ _ _ hs
    simp only [Res.ret_bind] at h
    split at h
    · rename_i hx
      simp only [Res.ret_bind, Bool.not_true, Bool.false_eq_true, if_false] at h
      cases hc : readMonitorNameforTextFile.colon ((x.2.advance 12).mem.length + 1)
          (x.2.advance 12) with
      | fault => rw [hc] at h; simp [Res.bind] at h
      | fuel => rw [hc] at h; simp [Res.bind] at h
      | ret y =>
        rw [hc] at h
        obtain ⟨g1, g2, g3⟩ := colon_frame _ _ _ hc
        simp only [FileRec.advance_start, FileRec.advance_beyond,
          FileRec.advance_current] at g1 g2 g3
        simp only [Res.ret_bind, monitorLoop_eq] at h
        cases hl : search 2 CRLF ((y.advance 2).length + 1) (y.advance 2) with
        | fault => rw [hl] at h; simp [Res.bind] at h
        | fuel => rw [hl] at h; simp [Res.bind] at h
        | ret z =>
          rw [hl] at h
          obtain ⟨f1, f2, f3, -⟩ := search_frame _ _ _ _ _ hl
          simp only [FileRec.advance_start, FileRec.advance_beyond,
            FileRec.advance_current] at f1 f2 f3
          simp only [Res.ret_bind] at h
          split at h
          · simp only [Res.ret.injEq] at h; subst h
            rw [(captureName_cursor _ _ _).1]
            exact ⟨by rw [f1, g1, h1], by rw [f2, g2, h2], by omega⟩
          · simp only [Res.ret.injEq] at h; subst h
            exact ⟨by rw [f1, g1, h1], by rw [f2, g2, h2], by simp only []; omega⟩
    · rename_i hx
      simp only [Res.ret_bind] at h
      have hx' : x.1 = false := by simpa using hx
      simp only [hx', Bool.not_false, if_true, Res.ret.injEq] at h
      subst h
      exact ⟨h1, h2, h3⟩


/-! ## Progress and termination of the log scan -/

/-- A call of `findEdidforLogFile` keeps the memory and moves the cursor
forward; when it returns a record the cursor has moved by at least 38 bytes and
five bytes of the view remain. -/
theorem findEdidforLogFile_frame {p q : FileRec} {o : Option EdidRec}
    (h : findEdidforLogFile p = .ret (o, q)) :
    q.start = p.start ∧ q.beyond = p.beyond ∧ p.current ≤ q.current ∧
    (o.isSome = true → p.current + 38 ≤ q.current ∧ q.current + 5 ≤ q.length) := by
  simp only [findEdidforLogFile] at h
  cases h1 : findEdidHeaderforLogFile p with
  | fault => rw [h1] at h; simp [Res.bind] at h
  | fuel => rw [h1] at h; simp [Res.bind] at h
  | ret x =>
    rw [h1] at h
    obtain ⟨a1, a2, a3, a4⟩ := findEdidHeaderforLogFile_frame h1
    simp only [Res.ret_bind] at h
    split at h
    · simp only [Res.ret.injEq, Prod.mk.injEq] at h
      obtain ⟨rfl, rfl⟩ := h
      exact ⟨a1, a2, a3, by simp⟩
    · rename_i hx
      have hx' : x.1 = true := by simpa using hx
      cases h2 : readEdidDataforLogFile x.2 EdidRec.fresh with
      | fault => rw [h2] at h; simp [Res.bind] at h
      | fuel => rw [h2] at h; simp [Res.bind] at h
      | ret y =>
        rw [h2] at h
        obtain ⟨b1, b2, b3, -, b5⟩ := readEdidDataforLogFile_frame h2
        simp only [Res.ret_bind] at h
        split at h
        · simp only [Res.ret.injEq, Prod.mk.injEq] at h
          obtain ⟨rfl, rfl⟩ := h
          exact ⟨by rw [b1, a1], by rw [b2, a2], by omega, by simp⟩
        · rename_i hy
          have hy' : y.1 = true := by simpa using hy
          cases h3 : readEdidFooterforLogFile y.2.1 y.2.2 with
          | fault => rw [h3] at h; simp [Res.bind] at h
          | fuel => rw [h3] at h; simp [Res.bind] at h
          | ret z =>
            rw [h3] at h
            obtain ⟨c1, c2, c3, c4⟩ := readEdidFooterforLogFile_frame h3
            simp only [Res.ret_bind] at h
            split at h
            · simp only [Res.ret.injEq, Prod.mk.injEq] at h
              obtain ⟨rfl, rfl⟩ := h
              exact ⟨by rw [c1, b1, a1], by rw [c2, b2, a2], by omega, by simp⟩
            · rename_i hz
              have hz' : z.1 = true := by simpa using hz
              simp only [Res.ret.injEq, Prod.mk.injEq] at h
              obtain ⟨rfl, rfl⟩ := h
              have := a4 hx'
              have := b5 hy'
              have := c4 hz'
              exact ⟨by rw [c1, b1, a1], by rw [c2, b2, a2], by omega, fun _ => ⟨by omega, by omega⟩⟩

/-- A call of `findEdidforTextFile` keeps the memory and moves the cursor
forward. -/
theorem findEdidforTextFile_frame {p q : FileRec} {o : Option EdidRec}
    (h : findEdidforTextFile p = .ret (o, q)) :
    q.start = p.start ∧ q.beyond = p.beyond ∧ p.current ≤ q.current := by
  simp only [findEdidforTextFile] at h
  cases h2 : readEdidDataforTextFile p EdidRec.fresh with
  | fault => rw [h2] at h; simp [Res.bind] at h
  | fuel => rw [h2] at h; simp [Res.bind] at h
  | ret y =>
    rw [h2] at h
    obtain ⟨b1, b2, b3⟩ := readEdidDataforTextFile_frame h2
    simp only [Res.ret_bind] at h
    split at h
    · simp only [Res.ret.injEq, Prod.mk.injEq] at h
      obtain ⟨rfl, rfl⟩ := h
      exact ⟨b1, b2, b3⟩
    · cases h3 : readMonitorNameforTextFile y.2.1 y.2.2 with
      | fault => rw [h3] at h; simp [Res.bind] at h
      | fuel => rw [h3] at h; simp [Res.bind] at h
      | ret z =>
        rw [h3] at h
        obtain ⟨c1, c2, c3⟩ := readMonitorNameforTextFile_frame h3
        simp only [Res.ret_bind] at h
        split at h
        · simp only [Res.ret.injEq, Prod.mk.injEq] at h
          obtain ⟨rfl, rfl⟩ := h
          exact ⟨by rw [c1, b1], by rw [c2, b2], by omega⟩
        · simp only [Res.ret.injEq, Prod.mk.injEq] at h
          obtain ⟨rfl, rfl⟩ := h
          exact ⟨by rw [c1, b1], by rw [c2, b2], by omega⟩

/-- With the cursor inside the view or at its end and one unit of fuel for every
remaining byte and one more, the log state machine does not run out of fuel;
and it does not fault when a readable byte follows the view. -/
theorem log_loop_total (fuel : Nat) : ∀ (p : FileRec) (state k : Nat) (pData : List Nat),
    p.current ≤ p.length → p.length + 1 ≤ fuel + p.current →
    readEdidDataforLogFile.loop fuel p state k pData ≠ .fuel ∧
    (p.beyond ≠ [] → readEdidDataforLogFile.loop fuel p state k pData ≠ .fault) := by
  induction fuel with
  | zero => intro p state k pData h1 h2; omega
  | succ n ih =>
    intro p state k pData hcur hfuel
    rw [readEdidDataforLogFile.loop]
    split
    · rename_i hp
      refine ⟨by simp, ?_⟩
      intro hb
      exfalso
      have hlen : p.mem.length ≤ p.current := by
        simpa [FileRec.peek] using hp
      have : 0 < p.beyond.length := List.length_pos.2 hb
      simp only [FileRec.mem, List.length_append, FileRec.length] at hlen hcur
      omega
    · simp only []
      repeat' split
      all_goals first
        | (refine ⟨?_, fun _ => ?_⟩ <;> exact fun hh => Res.noConfusion hh)
        | (rename_i hend
           exact ih _ _ _ _
             (by simp only [FileRec.advance_length, FileRec.advance_current]; omega)
             (by simp only [FileRec.advance_length, FileRec.advance_current]; omega))

/-- The footer parser returns on every input. -/
theorem readEdidFooterforLogFile_total (p : FileRec) (e : EdidRec) :
    ∃ r, readEdidFooterforLogFile p e = .ret r := by
  rw [readEdidFooterforLogFile]
  split
  · exact ⟨_, rfl⟩
  · split
    · exact ⟨_, rfl⟩
    · simp only [footerLoop_eq]
      obtain ⟨x, hx⟩ := search_total 5 TERMINATOR (by decide) ((p.advance 20).length + 1)
        (p.advance 20) (by omega) (by omega)
      rw [hx]
      simp only [Res.ret_bind]
      split <;> exact ⟨_, rfl⟩

/-- The log decoder, called with the cursor inside the view or at its end,
returns, or faults when no readable byte follows the view. -/
theorem readEdidDataforLogFile_total (p : FileRec) (e : EdidRec) (hcur : p.current ≤ p.length) :
    (∃ r, readEdidDataforLogFile p e = .ret r) ∨
    (readEdidDataforLogFile p e = .fault ∧ p.beyond = []) := by
  obtain ⟨h1, h2⟩ := log_loop_total (p.length + 2) p STATE_LOOKING_FOR_TOP_NIBBLE 0
    (List.replicate MAX_EDID_SIZE 0) hcur (by omega)
  rw [readEdidDataforLogFile]
  cases hl : readEdidDataforLogFile.loop (p.length + 2) p STATE_LOOKING_FOR_TOP_NIBBLE 0
      (List.replicate MAX_EDID_SIZE 0) with
  | fuel => exact absurd hl h1
  | ret x => exact Or.inl ⟨_, rfl⟩
  | fault =>
    right
    refine ⟨rfl, ?_⟩
    by_contra hb
    exact h2 hb hl

/-- A call of `findEdidforLogFile` with the cursor inside the view or at its end
returns, or faults when no readable byte follows the view. -/
theorem findEdidforLogFile_total (p : FileRec) (hcur : p.current ≤ p.length) :
    (∃ r, findEdidforLogFile p = .ret r) ∨ (findEdidforLogFile p = .fault ∧ p.beyond = []) := by
  simp only [findEdidforLogFile]
  rcases findEdidHeaderforLogFile_spec p hcur with ⟨-, j, hj, hr⟩ | ⟨-, hr⟩
  · rw [hr]
    simp only [Res.ret_bind, Bool.not_true, Bool.false_eq_true, if_false]
    rcases readEdidDataforLogFile_total (p.advance (j + 15)) EdidRec.fresh
      (by simp only [FileRec.advance_length, FileRec.advance_current]; omega) with ⟨y, hy⟩ | ⟨hy, hb⟩
    · rw [hy]
      simp only [Res.ret_bind]
      split
      · exact Or.inl ⟨_, rfl⟩
      · obtain ⟨z, hz⟩ := readEdidFooterforLogFile_total y.2.1 y.2.2
        rw [hz]
        simp only [Res.ret_bind]
        split <;> exact Or.inl ⟨_, rfl⟩
    · rw [hy]
      exact Or.inr ⟨rfl, by simpa using hb⟩
  · rw [hr]
    simp only [Res.ret_bind, Bool.not_false, if_true]
    exact Or.inl ⟨_, rfl⟩

/-- The log scan with one unit of fuel for every remaining byte of the view and
one more returns, or faults when no readable byte follows the view. -/
theorem scan_total (fuel : Nat) : ∀ (p : FileRec) (acc : List EdidRec),
    p.current ≤ p.length → p.length + 1 ≤ fuel + p.current →
    (∃ r, extract_edids.scan fuel LOG_FILE p acc = .ret r) ∨
    (extract_edids.scan fuel LOG_FILE p acc = .fault ∧ p.beyond = []) := by
  induction fuel with
  | zero => intro p acc h1 h2; omega
  | succ n ih =>
    intro p acc hcur hfuel
    rcases findEdidforLogFile_total p hcur with ⟨⟨o, q⟩, hr⟩ | ⟨hr, hb⟩
    · cases o with
      | none => exact Or.inl ⟨_, scan_stop hr n acc⟩
      | some e =>
        obtain ⟨f1, f2, f3, f4⟩ := findEdidforLogFile_frame hr
        obtain ⟨g1, g2⟩ := f4 rfl
        have hlen : q.length = p.length := by simp only [FileRec.length, f1]
        rw [scan_step hr]
        rcases ih q (acc ++ [e]) (by omega) (by omega) with h | ⟨h, hb⟩
        · exact Or.inl h
        · exact Or.inr ⟨h, by rw [← f2]; exact hb⟩
    · exact Or.inr ⟨scan_fault hr n acc, hb⟩

/-- The records that the log scan returns: those it was entered with, and at
most one more for every 38 bytes between the cursor and the end of the view. -/
theorem scan_count (fuel : Nat) : ∀ (p q : FileRec) (acc recs : List EdidRec),
    p.current ≤ p.length → extract_edids.scan fuel LOG_FILE p acc = .ret (recs, q) →
    ∃ more, recs = acc ++ more ∧ 38 * more.length + p.current ≤ p.length := by
  induction fuel with
  | zero => intro p q acc recs _ h; simp [extract_edids.scan] at h
  | succ n ih =>
    intro p q acc recs hcur h
    cases hr : findEdidforLogFile p with
    | fault => rw [scan_fault hr] at h; simp at h
    | fuel => simp [extract_edids.scan, hr, LOG_FILE, Res.bind] at h
    | ret x =>
      obtain ⟨o, q1⟩ := x
      cases o with
      | none =>
        rw [scan_stop hr] at h
        simp only [Res.ret.injEq, Prod.mk.injEq] at h
        exact ⟨[], by simp [h.1], by simpa using hcur⟩
      | some e =>
        obtain ⟨f1, f2, f3, f4⟩ := findEdidforLogFile_frame hr
        obtain ⟨g1, g2⟩ := f4 rfl
        have hlen : q1.length = p.length := by simp only [FileRec.length, f1]
        rw [scan_step hr] at h
        obtain ⟨more, hm1, hm2⟩ := ih q1 q (acc ++ [e]) recs (by omega) h
        exact ⟨e :: more, by simp [hm1], by simp only [List.length_cons]; omega⟩

/-- C26. Progress and termination of the log scan. From a cursor inside the
view or at its end, a call of `findEdidforLogFile` that returns a record leaves
the cursor at least 38 bytes further, and inside the view. The scan loop of
`extract_edids`, with its budget of one iteration for every byte of the view
and one more, never runs out of it: it returns, or it faults when no readable
byte follows the view; and what it returns holds at most `length / 38`
records. -/
theorem C26_log_scan_progress (view beyond : List Nat) (c : Nat) (hc : c ≤ view.length) :
    (∀ e q, findEdidforLogFile ⟨view, beyond, c⟩ = .ret (some e, q) →
      c + 38 ≤ q.current ∧ q.current ≤ view.length) ∧
    ((∃ r, extract_edids.scan (view.length + 1) LOG_FILE ⟨view, beyond, c⟩ [] = .ret r) ∨
      (extract_edids.scan (view.length + 1) LOG_FILE ⟨view, beyond, c⟩ [] = .fault ∧
        beyond = [])) ∧
    (∀ recs q, extract_edids.scan (view.length + 1) LOG_FILE ⟨view, beyond, c⟩ [] =
        .ret (recs, q) → recs.length ≤ view.length / 38) := by
  refine ⟨?_, ?_, ?_⟩
  · intro e q h
    obtain ⟨f1, -, -, f4⟩ := findEdidforLogFile_frame h
    obtain ⟨g1, g2⟩ := f4 rfl
    have hlen : q.length = view.length := by simp only [FileRec.length, f1]
    exact ⟨g1, by omega⟩
  · exact scan_total (view.length + 1) ⟨view, beyond, c⟩ [] hc (by simp [FileRec.length])
  · intro recs q h
    obtain ⟨more, hm1, hm2⟩ := scan_count _ _ _ _ _ hc h
    simp only [List.nil_append] at hm1
    subst hm1
    simp only [FileRec.length] at hm2
    rw [Nat.le_div_iff_mul_le (by decide)]
    omega

set_option maxRecDepth 100000 in
/-- C26 on a log of 43 bytes with one record: the cursor moves from 0 to 38. -/
theorem C26_log_scan_progress_witness :
    (0 + 38 ≤ (⟨bytesOf "Raw EDID bytes:00--- End of EDID for A ---.", [], 38⟩ : FileRec).current ∧
      (⟨bytesOf "Raw EDID bytes:00--- End of EDID for A ---.", [], 38⟩ : FileRec).current ≤
        (bytesOf "Raw EDID bytes:00--- End of EDID for A ---.").length) ∧
    [(⟨1, some [0], some [65, 0]⟩ : EdidRec)].length ≤
      (bytesOf "Raw EDID bytes:00--- End of EDID for A ---.").length / 38 :=
  ⟨(C26_log_scan_progress (bytesOf "Raw EDID bytes:00--- End of EDID for A ---.") [] 0
      (by decide)).1 ⟨1, some [0], some [65, 0]⟩
      ⟨bytesOf "Raw EDID bytes:00--- End of EDID for A ---.", [], 38⟩ (by decide),
   (C26_log_scan_progress (bytesOf "Raw EDID bytes:00--- End of EDID for A ---.") [] 0
      (by decide)).2.2 [⟨1, some [0], some [65, 0]⟩]
      ⟨bytesOf "Raw EDID bytes:00--- End of EDID for A ---.", [], 38⟩ (by decide)⟩


/-! ## Labels of the log variant -/

/-- The log state machine depends on the view only through the bytes from the
cursor on: two runs over views with the same bytes from the cursor on and the
same memory after the view end alike, with the same `k` and scratch buffer. -/
theorem log_loop_shift (n : Nat) : ∀ (p p' : FileRec) (state k : Nat) (pData : List Nat),
    p.beyond = p'.beyond → p.start.drop p.current = p'.start.drop p'.current →
    p.current ≤ p.length → p'.current ≤ p'.length →
    ((readEdidDataforLogFile.loop n p state k pData).bind fun x =>
        (.ret (x.1, x.2.2) : Res (Bool × Nat × List Nat))) =
      (readEdidDataforLogFile.loop n p' state k pData).bind fun x => .ret (x.1, x.2.2) := by
  induction n with
  | zero => intro p p' state k pData _ _ _ _; rfl
  | succ n ih =>
    intro p p' state k pData hb hd hcur hcur'
    have hm : p.mem.drop p.current = p'.mem.drop p'.current := by
      rw [FileRec.mem_drop p hcur, FileRec.mem_drop p' hcur', hd, hb]
    have hpeek : p'.peek 0 = p.peek 0 := by
      have := congrArg (fun l => l[0]?) hm
      simpa [FileRec.peek] using this.symm
    have hlen : p.length - p.current = p'.length - p'.current := by
      have := congrArg List.length hd
      simpa [FileRec.length] using this
    have hnext : p.current < p.length → ∀ (s k : Nat) (d : List Nat),
        ((readEdidDataforLogFile.loop n (p.advance 1) s k d).bind fun x =>
          (.ret (x.1, x.2.2) : Res (Bool × Nat × List Nat))) =
        (readEdidDataforLogFile.loop n (p'.advance 1) s k d).bind fun x => .ret (x.1, x.2.2) := by
      intro hE s k d
      have hE' : p'.current < p'.length := by omega
      apply ih
      · simpa using hb
      · have := congrArg (List.drop 1) hd
        simpa [FileRec.advance, List.drop_drop, Nat.add_comm] using this
      · simp only [FileRec.advance_length, FileRec.advance_current]; omega
      · simp only [FileRec.advance_length, FileRec.advance_current]; omega
    rw [readEdidDataforLogFile.loop, readEdidDataforLogFile.loop, hpeek]
    cases hp : p.peek 0 with
    | none => rfl
    | some c =>
      simp only []
      by_cases hE : p.current ≥ p.length
      · have hE' : p'.current ≥ p'.length := by omega
        simp only [hE, hE', if_true]
        split_ifs <;> rfl
      · have hE' : ¬ p'.current ≥ p'.length := by omega
        simp only [hE, hE', if_false]
        split_ifs <;> first | rfl | exact hnext (by omega) _ _ _

/-- The log state machine on a well-formed stream followed by a newline, a label
text and a colon: it arrives after the colon, looking for a high nibble, with the
bytes of the stream. -/
theorem log_label_run {p : FileRec} {items : List LogItem} {txt rest : List Nat}
    (hw : ∀ i ∈ items, i.wf = true) (hcap : (bytesLog items).length < MAX_EDID_SIZE)
    (htxt : 58 ∉ txt)
    (hd : p.start.drop p.current = renderLog items ++ 10 :: (txt ++ 58 :: rest)) :
    readEdidDataforLogFile.loop (p.length + 2) p STATE_LOOKING_FOR_TOP_NIBBLE 0
        (List.replicate MAX_EDID_SIZE 0) =
      readEdidDataforLogFile.loop (rest.length + 2 + p.current)
        (p.advance ((renderLog items).length + 1 + (txt.length + 1)))
        STATE_LOOKING_FOR_TOP_NIBBLE (bytesLog items).length (scratch (bytesLog items)) ∧
    (p.advance ((renderLog items).length + 1 + (txt.length + 1))).start.drop
        (p.advance ((renderLog items).length + 1 + (txt.length + 1))).current = rest ∧
    (p.advance ((renderLog items).length + 1 + (txt.length + 1))).current ≤ p.length := by
  have hlen := (drop_append_of_drop hd).2 (by simp)
  simp only [List.length_cons, List.length_append] at hlen
  have hd2 := FileRec.drop_advance hd
  have hd3 := (FileRec.peek_of_drop hd2).2.2
  have hd4 := FileRec.drop_advance (a := txt ++ [58]) (b := rest) (by rw [hd3]; simp)
  simp only [List.length_append, List.length_singleton, FileRec.advance_advance] at hd4
  have hfuel : p.length + 2 =
      ((rest.length + 2 + p.current) + (txt.length + 1) + 1) + (renderLog items).length := by
    simp only [FileRec.length]; omega
  have h1 := log_items items p [] ((rest.length + 2 + p.current) + (txt.length + 1) + 1)
    (10 :: (txt ++ 58 :: rest)) hw hd (by simpa using hcap)
  simp only [List.length_nil, List.nil_append] at h1
  have hs : scratch [] = List.replicate MAX_EDID_SIZE 0 := by simp [scratch]
  rw [hs] at h1
  have h3 := log_label_text txt ((p.advance (renderLog items).length).advance 1)
    (rest.length + 2 + p.current) (bytesLog items).length (scratch (bytesLog items)) rest
    (by simpa using htxt) hd3
  refine ⟨?_, hd4, ?_⟩
  · rw [hfuel, h1, log_step hd2, if_pos rfl, if_pos rfl, h3, FileRec.advance_advance,
      FileRec.advance_advance, ← Nat.add_assoc]
  · simp only [FileRec.advance_current, FileRec.length]; omega

/-- The outcome of the log decoder in terms of its state machine. -/
theorem decodeOutcome_log (p : FileRec) (e : EdidRec) :
    decodeOutcome (readEdidDataforLogFile p e) =
      ((readEdidDataforLogFile.loop (p.length + 2) p STATE_LOOKING_FOR_TOP_NIBBLE 0
          (List.replicate MAX_EDID_SIZE 0)).bind fun x =>
        (.ret (x.1, x.2.2) : Res (Bool × Nat × List Nat))).bind fun y =>
          .ret ((saveEdidData e (y.1, p, y.2)).1, (saveEdidData e (y.1, p, y.2)).2.2) := by
  rw [decodeOutcome, readEdidDataforLogFile]
  cases readEdidDataforLogFile.loop (p.length + 2) p STATE_LOOKING_FOR_TOP_NIBBLE 0
      (List.replicate MAX_EDID_SIZE 0) with
  | fault => rfl
  | fuel => rfl
  | ret x =>
    simp only [Res.ret_bind, saveEdidData]
    split_ifs <;> rfl

/-- C24. Labels never contribute data in the log variant. Take two views with
the same bytes before the cursor and the same memory after the view, which from
the cursor on hold the same well-formed token stream, a newline (met where a
high nibble is looked for), a label text without a colon, a colon, and the same
rest; the two label texts are arbitrary (hex digits, `-`, further newlines). The
log decoder has the same outcome on both: both runs fault, or both return, with
the same success flag and the same record. -/
theorem C24_labels_do_not_contribute (p p' : FileRec) (items : List LogItem)
    (txt txt' rest : List Nat) (e : EdidRec)
    (hw : ∀ i ∈ items, i.wf = true) (htxt : 58 ∉ txt) (htxt' : 58 ∉ txt')
    (hb : p.beyond = p'.beyond) (hc : p.current = p'.current)
    (hd : p.start.drop p.current = renderLog items ++ 10 :: (txt ++ 58 :: rest))
    (hd' : p'.start.drop p'.current = renderLog items ++ 10 :: (txt' ++ 58 :: rest)) :
    decodeOutcome (readEdidDataforLogFile p e) = decodeOutcome (readEdidDataforLogFile p' e) := by
  by_cases hcap : (bytesLog items).length < MAX_EDID_SIZE
  · obtain ⟨h1, h2, h3⟩ := log_label_run hw hcap htxt hd
    obtain ⟨h1', h2', h3'⟩ := log_label_run hw hcap htxt' hd'
    have hs := log_loop_shift (rest.length + 2 + p.current)
      (p.advance ((renderLog items).length + 1 + (txt.length + 1)))
      (p'.advance ((renderLog items).length + 1 + (txt'.length + 1)))
      STATE_LOOKING_FOR_TOP_NIBBLE (bytesLog items).length (scratch (bytesLog items))
      (by simpa using hb) (by rw [h2, h2'])
      (by simpa only [FileRec.advance_length] using h3)
      (by simpa only [FileRec.advance_length] using h3')
    rw [decodeOutcome_log, decodeOutcome_log, h1, h1', ← hc, hs]
    cases readEdidDataforLogFile.loop (rest.length + 2 + p.current)
        (p'.advance ((renderLog items).length + 1 + (txt'.length + 1)))
        STATE_LOOKING_FOR_TOP_NIBBLE (bytesLog items).length (scratch (bytesLog items)) with
    | fault => rfl
    | fuel => rfl
    | ret x =>
      simp only [Res.ret_bind, saveEdidData]
      split_ifs <;> rfl
  · obtain ⟨q, hq⟩ := log_decode_cap e hw hd (by omega)
    obtain ⟨q', hq'⟩ := log_decode_cap e hw hd' (by omega)
    rw [hq, hq']
    rfl

set_option maxRecDepth 100000 in
/-- C24 on the view `00`, newline, `(--) NVIDIA(0)`, colon, ` ff-` and the same
view with the label text `ab-cd`, newline, `12`: the same two bytes. -/
theorem C24_labels_do_not_contribute_witness :
    decodeOutcome (readEdidDataforLogFile
        ⟨bytesOf "00" ++ 10 :: (bytesOf "(--) NVIDIA(0)" ++ 58 :: bytesOf " ff-"), [], 0⟩
        EdidRec.fresh) =
      decodeOutcome (readEdidDataforLogFile
        ⟨bytesOf "00" ++ 10 :: ((bytesOf "ab-cd" ++ 10 :: bytesOf "12") ++ 58 :: bytesOf " ff-"),
          [], 0⟩ EdidRec.fresh) ∧
    decodeOutcome (readEdidDataforLogFile
        ⟨bytesOf "00" ++ 10 :: (bytesOf "(--) NVIDIA(0)" ++ 58 :: bytesOf " ff-"), [], 0⟩
        EdidRec.fresh) = .ret (true, ⟨2, some [0, 255], none⟩) :=
  ⟨C24_labels_do_not_contribute
      ⟨bytesOf "00" ++ 10 :: (bytesOf "(--) NVIDIA(0)" ++ 58 :: bytesOf " ff-"), [], 0⟩
      ⟨bytesOf "00" ++ 10 :: ((bytesOf "ab-cd" ++ 10 :: bytesOf "12") ++ 58 :: bytesOf " ff-"),
        [], 0⟩
      [.byte 0 false false] (bytesOf "(--) NVIDIA(0)") (bytesOf "ab-cd" ++ 10 :: bytesOf "12")
      (bytesOf " ff-") EdidRec.fresh (by decide) (by decide) (by decide) rfl rfl
      (by decide) (by decide),
    by decide⟩


/-! ## Monotone cursor -/

/-- C25. Monotone cursor. From every view and entry cursor, each of
`findEdidHeaderforLogFile`, `readEdidDataforLogFile`,
`readEdidFooterforLogFile`, `readEdidDataforTextFile` and
`readMonitorNameforTextFile`, whatever it returns, leaves the view and the
memory after it as they were and the cursor at or after its entry value; the
same holds for their compositions `findEdidforLogFile` and
`findEdidforTextFile`. The text-style detection `findEdidfooterforTextFile` is
the parser that moves the cursor backwards: when it finds `EDID Version` it
returns with the cursor at the start of the view, from any entry cursor. -/
theorem C25_monotone_cursor (p : FileRec) (e : EdidRec) :
    (∀ r, findEdidHeaderforLogFile p = .ret r →
      r.2.start = p.start ∧ r.2.beyond = p.beyond ∧ p.current ≤ r.2.current) ∧
    (∀ r, readEdidDataforLogFile p e = .ret r →
      r.2.1.start = p.start ∧ r.2.1.beyond = p.beyond ∧ p.current ≤ r.2.1.current) ∧
    (∀ r, readEdidFooterforLogFile p e = .ret r →
      r.2.1.start = p.start ∧ r.2.1.beyond = p.beyond ∧ p.current ≤ r.2.1.current) ∧
    (∀ r, readEdidDataforTextFile p e = .ret r →
      r.2.1.start = p.start ∧ r.2.1.beyond = p.beyond ∧ p.current ≤ r.2.1.current) ∧
    (∀ r, readMonitorNameforTextFile p e = .ret r →
      r.2.1.start = p.start ∧ r.2.1.beyond = p.beyond ∧ p.current ≤ r.2.1.current) ∧
    (∀ o q, findEdidforLogFile p = .ret (o, q) →
      q.start = p.start ∧ q.beyond = p.beyond ∧ p.current ≤ q.current) ∧
    (∀ o q, findEdidforTextFile p = .ret (o, q) →
      q.start = p.start ∧ q.beyond = p.beyond ∧ p.current ≤ q.current) ∧
    (EDID_VERSION <:+: p.start →
      findEdidfooterforTextFile p = .ret (true, { p with current := 0 })) := by
  refine ⟨?_, ?_, ?_, ?_, ?_, ?_, ?_, ?_⟩
  · intro r h
    obtain ⟨h1, h2, h3, -⟩ := findEdidHeaderforLogFile_frame h
    exact ⟨h1, h2, h3⟩
  · intro r h
    obtain ⟨h1, h2, h3, -⟩ := readEdidDataforLogFile_frame h
    exact ⟨h1, h2, h3⟩
  · intro r h
    obtain ⟨h1, h2, h3, -⟩ := readEdidFooterforLogFile_frame h
    exact ⟨h1, h2, h3⟩
  · intro r h
    exact readEdidDataforTextFile_frame h
  · intro r h
    exact readMonitorNameforTextFile_frame h
  · intro o q h
    obtain ⟨h1, h2, h3, -⟩ := findEdidforLogFile_frame h
    exact ⟨h1, h2, h3⟩
  · intro o q h
    exact findEdidforTextFile_frame h
  · intro h
    rcases findEdidfooterforTextFile_spec p with ⟨-, hr⟩ | ⟨hn, -⟩
    · exact hr
    · exact absurd h hn

set_option maxRecDepth 100000 in
/-- C25 on the view `xx 00 ff-EDID Version` entered at cursor 3: the log decoder
leaves the cursor at 8, and the text-style detection sets it to 0. -/
theorem C25_monotone_cursor_witness :
    ((⟨bytesOf "xx 00 ff-EDID Version", [], 8⟩ : FileRec).start =
        (⟨bytesOf "xx 00 ff-EDID Version", [], 3⟩ : FileRec).start ∧
      (⟨bytesOf "xx 00 ff-EDID Version", [], 8⟩ : FileRec).beyond =
        (⟨bytesOf "xx 00 ff-EDID Version", [], 3⟩ : FileRec).beyond ∧
      (⟨bytesOf "xx 00 ff-EDID Version", [], 3⟩ : FileRec).current ≤
        (⟨bytesOf "xx 00 ff-EDID Version", [], 8⟩ : FileRec).current) ∧
    findEdidfooterforTextFile ⟨bytesOf "xx 00 ff-EDID Version", [], 3⟩ =
      .ret (true, ⟨bytesOf "xx 00 ff-EDID Version", [], 0⟩) :=
  ⟨(C25_monotone_cursor ⟨bytesOf "xx 00 ff-EDID Version", [], 3⟩ EdidRec.fresh).2.1
      (true, ⟨bytesOf "xx 00 ff-EDID Version", [], 8⟩, ⟨2, some [0, 255], none⟩) (by decide),
    (C25_monotone_cursor ⟨bytesOf "xx 00 ff-EDID Version", [], 3⟩ EdidRec.fresh).2.2.2.2.2.2.2
      (by decide)⟩


/-! ## What a returned record was read from -/

/-- A read at the cursor gives the first of the bytes from the cursor on. -/
theorem FileRec.mem_of_peek {p : FileRec} {c : Nat} (h : p.peek 0 = some c) :
    p.mem.drop p.current = c :: (p.advance 1).mem.drop (p.advance 1).current := by
  simp only [FileRec.peek, Nat.add_zero] at h
  obtain ⟨hlt, hc⟩ := List.getElem?_eq_some_iff.1 h
  rw [List.drop_eq_getElem_cons hlt, hc]
  rfl

/-- A read `i` bytes after the cursor. -/
theorem FileRec.mem_of_peek_at {p : FileRec} {c : Nat} (i : Nat) (h : p.peek i = some c) :
    p.mem.drop (p.current + i) = c :: p.mem.drop (p.current + i + 1) := by
  simp only [FileRec.peek] at h
  obtain ⟨hlt, hc⟩ := List.getElem?_eq_some_iff.1 h
  rw [List.drop_eq_getElem_cons hlt, hc]

/-- Every hex digit is the digit of a nibble, in lower or in upper case. -/
theorem hex_as_digit {c : Nat} (h : IS_HEX c = true) :
    ∃ u, hexDigit u (HEX_TO_NIBBLE c) = c ∧ HEX_TO_NIBBLE c < 16 := by
  rw [IS_HEX_iff] at h
  rcases h with ⟨h1, h2⟩ | ⟨h1, h2⟩ | ⟨h1, h2⟩
  · interval_cases c <;> exact ⟨false, by decide, by decide⟩
  · interval_cases c <;> exact ⟨false, by decide, by decide⟩
  · interval_cases c <;> exact ⟨true, by decide, by decide⟩

/-- A search that finds the literal stops where it stands. -/
theorem search_hit (need : Nat) (lit : List Nat) (fuel : Nat) :
    ∀ (p q : FileRec), search need lit fuel p = .ret (true, q) →
      ∃ j, q = p.advance j ∧ q.litAt lit = true ∧ q.current + need ≤ q.length := by
  induction fuel with
  | zero => intro p q h; simp [search] at h
  | succ n ih =>
    intro p q h
    rw [search] at h
    split at h
    · rename_i hneed
      split at h
      · rename_i hl
        simp only [Res.ret.injEq, Prod.mk.injEq, true_and] at h
        subst h
        exact ⟨0, by simp, hl, hneed⟩
      · obtain ⟨j, h1, h2, h3⟩ := ih _ _ h
        exact ⟨1 + j, by rw [h1, FileRec.advance_advance], h2, h3⟩
    · simp at h

/-- One iteration of the log state machine at a readable byte. -/
theorem log_step_peek {p : FileRec} {c : Nat} (hp : p.peek 0 = some c) (n state k : Nat)
    (pData : List Nat) :
    readEdidDataforLogFile.loop (n + 1) p state k pData =
      if state = STATE_LOOKING_FOR_TOP_NIBBLE then
        if c = 10 then
          readEdidDataforLogFile.next n p STATE_LOOKING_FOR_END_OF_LABEL k pData
        else if isspace c then
          readEdidDataforLogFile.next n p STATE_LOOKING_FOR_TOP_NIBBLE k pData
        else if IS_HEX c then
          readEdidDataforLogFile.next n p STATE_LOOKING_FOR_BOTTOM_NIBBLE k
            (pData.set k (pData.getD k 0 ||| (HEX_TO_NIBBLE c <<< 4)))
        else if c = 45 then .ret (true, p, k, pData)
        else .ret (false, p, k, pData)
      else if state = STATE_LOOKING_FOR_BOTTOM_NIBBLE then
        if IS_HEX c then
          if k + 1 ≥ MAX_EDID_SIZE then
            .ret (false, p, k + 1, pData.set k (pData.getD k 0 ||| HEX_TO_NIBBLE c))
          else readEdidDataforLogFile.next n p STATE_LOOKING_FOR_TOP_NIBBLE (k + 1)
            (pData.set k (pData.getD k 0 ||| HEX_TO_NIBBLE c))
        else .ret (false, p, k, pData)
      else if state = STATE_LOOKING_FOR_END_OF_LABEL then
        if c = 58 then
          readEdidDataforLogFile.next n p STATE_LOOKING_FOR_TOP_NIBBLE k pData
        else readEdidDataforLogFile.next n p state k pData
      else .ret (false, p, k, pData) := by
  rw [readEdidDataforLogFile.loop]
  simp only [hp, readEdidDataforLogFile.next]
  rfl

theorem log_next_true {n : Nat} {p : FileRec} {state k : Nat} {pData : List Nat}
    {r : FileRec × Nat × List Nat}
    (h : readEdidDataforLogFile.next n p state k pData = .ret (true, r)) :
    readEdidDataforLogFile.loop n (p.advance 1) state k pData = .ret (true, r) := by
  rw [readEdidDataforLogFile.next] at h
  split at h
  · simp at h
  · exact h

/-- The log state machine reads a token stream: whenever it ends at `done`, the
bytes from the cursor on were a well-formed token stream followed by a `-`, the
final cursor stands on that `-`, and `k` and the scratch buffer hold the bytes of
the stream after those decoded before. The three parts are for the three states:
looking for a high nibble, for a low nibble (after the high nibble `h`), and for
the end of a label. -/
theorem log_loop_sound (n : Nat) :
    (∀ (p q : FileRec) (done : List Nat) (k' : Nat) (d' : List Nat),
      done.length < MAX_EDID_SIZE →
      readEdidDataforLogFile.loop n p STATE_LOOKING_FOR_TOP_NIBBLE done.length (scratch done) =
        .ret (true, q, k', d') →
      ∃ items rest, (∀ i ∈ items, i.wf = true) ∧
        p.mem.drop p.current = renderLog items ++ 45 :: rest ∧
        q = p.advance (renderLog items).length ∧
        k' = (done ++ bytesLog items).length ∧ d' = scratch (done ++ bytesLog items) ∧
        k' < MAX_EDID_SIZE) ∧
    (∀ (p q : FileRec) (done : List Nat) (k' : Nat) (d' : List Nat) (h : Nat),
      done.length < MAX_EDID_SIZE → h < 16 →
      readEdidDataforLogFile.loop n p STATE_LOOKING_FOR_BOTTOM_NIBBLE done.length
          (done ++ (0 ||| (h <<< 4)) :: List.replicate (MAX_EDID_SIZE - done.length - 1) 0) =
        .ret (true, q, k', d') →
      ∃ c items rest, IS_HEX c = true ∧ (∀ i ∈ items, i.wf = true) ∧
        p.mem.drop p.current = c :: (renderLog items ++ 45 :: rest) ∧
        q = p.advance (1 + (renderLog items).length) ∧
        k' = (done ++ (h * 16 + HEX_TO_NIBBLE c) :: bytesLog items).length ∧
        d' = scratch (done ++ (h * 16 + HEX_TO_NIBBLE c) :: bytesLog items) ∧
        k' < MAX_EDID_SIZE) ∧
    (∀ (p q : FileRec) (done : List Nat) (k' : Nat) (d' : List Nat),
      done.length < MAX_EDID_SIZE →
      readEdidDataforLogFile.loop n p STATE_LOOKING_FOR_END_OF_LABEL done.length
          (scratch done) = .ret (true, q, k', d') →
      ∃ txt items rest, 58 ∉ txt ∧ (∀ i ∈ items, i.wf = true) ∧
        p.mem.drop p.current = txt ++ 58 :: (renderLog items ++ 45 :: rest) ∧
        q = p.advance (txt.length + 1 + (renderLog items).length) ∧
        k' = (done ++ bytesLog items).length ∧ d' = scratch (done ++ bytesLog items) ∧
        k' < MAX_EDID_SIZE) := by
  induction n with
  | zero =>
    refine ⟨?_, ?_, ?_⟩ <;> intros <;> simp_all [readEdidDataforLogFile.loop]
  | succ n ih =>
    obtain ⟨ihT, ihB, ihL⟩ := ih
    refine ⟨?_, ?_, ?_⟩
    · intro p q done k' d' hk h
      cases hp : p.peek 0 with
      | none => rw [readEdidDataforLogFile.loop] at h; simp [hp] at h
      | some c =>
        have hm := FileRec.mem_of_peek hp
        rw [log_step_peek hp, if_pos rfl] at h
        by_cases h10 : c = 10
        · rw [if_pos h10] at h
          obtain ⟨txt, items, rest, htxt, hw, hd, hq, hk', hd', hlt⟩ :=
            ihL _ _ _ _ _ hk (log_next_true h)
          refine ⟨.label txt :: items, rest, ?_, ?_, ?_, ?_, ?_, hlt⟩
          · intro i hi
            rcases List.mem_cons.1 hi with rfl | hi
            · simpa [LogItem.wf] using htxt
            · exact hw i hi
          · rw [hm, hd, h10]
            simp [renderLog, LogItem.render]
          · rw [hq, FileRec.advance_advance]
            congr 1
            simp [renderLog, LogItem.render]
            omega
          · simpa [bytesLog, LogItem.bytes] using hk'
          · simpa [bytesLog, LogItem.bytes] using hd'
        · rw [if_neg h10] at h
          by_cases hsp : isspace c = true
          · rw [if_pos hsp] at h
            obtain ⟨items, rest, hw, hd, hq, hk', hd', hlt⟩ := ihT _ _ _ _ _ hk (log_next_true h)
            refine ⟨.space c :: items, rest, ?_, ?_, ?_, ?_, ?_, hlt⟩
            · intro i hi
              rcases List.mem_cons.1 hi with rfl | hi
              · simp [LogItem.wf, hsp, h10]
              · exact hw i hi
            · rw [hm, hd]
              simp [renderLog, LogItem.render]
            · rw [hq, FileRec.advance_advance]
              congr 1
              simp [renderLog, LogItem.render]
              omega
            · simpa [bytesLog, LogItem.bytes] using hk'
            · simpa [bytesLog, LogItem.bytes] using hd'
          · rw [if_neg hsp] at h
            by_cases hx : IS_HEX c = true
            · rw [if_pos hx, scratch_top hk] at h
              obtain ⟨u1, hu1, hn1⟩ := hex_as_digit hx
              obtain ⟨c2, items, rest, hx2, hw, hd, hq, hk', hd', hlt⟩ :=
                ihB _ _ _ _ _ (HEX_TO_NIBBLE c) hk hn1 (log_next_true h)
              obtain ⟨u2, hu2, hn2⟩ := hex_as_digit hx2
              have hb1 : (HEX_TO_NIBBLE c * 16 + HEX_TO_NIBBLE c2) / 16 = HEX_TO_NIBBLE c := by
                omega
              have hb2 : (HEX_TO_NIBBLE c * 16 + HEX_TO_NIBBLE c2) % 16 = HEX_TO_NIBBLE c2 := by
                omega
              refine ⟨.byte (HEX_TO_NIBBLE c * 16 + HEX_TO_NIBBLE c2) u1 u2 :: items, rest,
                ?_, ?_, ?_, ?_, ?_, hlt⟩
              · intro i hi
                rcases List.mem_cons.1 hi with rfl | hi
                · simp only [LogItem.wf, decide_eq_true_eq]; omega
                · exact hw i hi
              · rw [hm, hd]
                simp only [renderLog, LogItem.render, hb1, hb2, hu1, hu2, List.cons_append,
                  List.nil_append]
              · rw [hq, FileRec.advance_advance]
                congr 1
                simp [renderLog, LogItem.render]
                omega
              · simpa [bytesLog, LogItem.bytes] using hk'
              · simpa [bytesLog, LogItem.bytes] using hd'
            · rw [if_neg hx] at h
              by_cases h45 : c = 45
              · rw [if_pos h45] at h
                simp only [Res.ret.injEq, Prod.mk.injEq, true_and] at h
                obtain ⟨rfl, rfl, rfl⟩ := h
                refine ⟨[], (p.advance 1).mem.drop (p.advance 1).current, by simp, ?_,
                  by simp [renderLog], by simp [bytesLog], by simp [bytesLog], hk⟩
                rw [hm, h45]
                rfl
              · rw [if_neg h45] at h
                simp at h
    · intro p q done k' d' hn hk hlt16 h
      cases hp : p.peek 0 with
      | none => rw [readEdidDataforLogFile.loop] at h; simp [hp] at h
      | some c =>
        have hm := FileRec.mem_of_peek hp
        rw [log_step_peek hp, if_neg (by decide), if_pos rfl] at h
        by_cases hx : IS_HEX c = true
        · rw [if_pos hx] at h
          by_cases hcap : done.length + 1 ≥ MAX_EDID_SIZE
          · rw [if_pos hcap] at h
            simp at h
          · rw [if_neg hcap] at h
            obtain ⟨u, hu, hn2⟩ := hex_as_digit hx
            rw [scratch_bottom, nibbles_combine _ hlt16 _ hn2, scratch_snoc] at h
            have hl : done.length + 1 = (done ++ [hn * 16 + HEX_TO_NIBBLE c]).length := by simp
            rw [hl] at h
            obtain ⟨items, rest, hw, hd, hq, hk', hd', hlt⟩ :=
              ihT _ _ _ _ _ (by simp only [List.length_append, List.length_singleton]; omega)
                (log_next_true h)
            refine ⟨c, items, rest, hx, hw, by rw [hm, hd], ?_, ?_, ?_, hlt⟩
            · rw [hq, FileRec.advance_advance]
            · simpa [List.append_assoc] using hk'
            · simpa [List.append_assoc] using hd'
        · rw [if_neg hx] at h
          simp at h
    · intro p q done k' d' hk h
      cases hp : p.peek 0 with
      | none => rw [readEdidDataforLogFile.loop] at h; simp [hp] at h
      | some c =>
        have hm := FileRec.mem_of_peek hp
        rw [log_step_peek hp, if_neg (by decide), if_neg (by decide), if_pos rfl] at h
        by_cases h58 : c = 58
        · rw [if_pos h58] at h
          obtain ⟨items, rest, hw, hd, hq, hk', hd', hlt⟩ := ihT _ _ _ _ _ hk (log_next_true h)
          refine ⟨[], items, rest, by simp, hw, ?_, ?_, hk', hd', hlt⟩
          · rw [hm, hd, h58]
            rfl
          · rw [hq, FileRec.advance_advance,
              show 1 + (renderLog items).length =
                ([] : List Nat).length + 1 + (renderLog items).length by
                simp only [List.length_nil]]
        · rw [if_neg h58] at h
          obtain ⟨txt, items, rest, htxt, hw, hd, hq, hk', hd', hlt⟩ :=
            ihL _ _ _ _ _ hk (log_next_true h)
          refine ⟨c :: txt, items, rest, ?_, hw, ?_, ?_, hk', hd', hlt⟩
          · intro hmem
            rcases List.mem_cons.1 hmem with h | h
            · exact h58 h.symm
            · exact htxt h
          · rw [hm, hd]
            rfl
          · rw [hq, FileRec.advance_advance]
            congr 1
            simp
            omega

/-- The bytes between the cursor and a later position inside the memory. -/
theorem FileRec.mem_split (p : FileRec) (j : Nat) (h : p.current + j ≤ p.mem.length) :
    ∃ gap, gap.length = j ∧
      p.mem.drop p.current = gap ++ (p.advance j).mem.drop (p.advance j).current := by
  refine ⟨(p.mem.drop p.current).take j, ?_, ?_⟩
  · simp only [List.length_take, List.length_drop]; omega
  · rw [FileRec.advance_mem, FileRec.advance_current, ← List.drop_drop, List.take_append_drop]

theorem FileRec.length_le_mem (p : FileRec) : p.length ≤ p.mem.length := by
  simp [FileRec.length, FileRec.mem]

/-- What the log decoder has read when it succeeds: a well-formed token stream
that a `-` follows; the record holds the bytes of the stream, 1 to 4095 of
them. -/
theorem readEdidDataforLogFile_sound {p q : FileRec} {e e' : EdidRec}
    (h : readEdidDataforLogFile p e = .ret (true, q, e')) :
    ∃ items rest, (∀ i ∈ items, i.wf = true) ∧
      p.mem.drop p.current = renderLog items ++ 45 :: rest ∧
      q = p.advance (renderLog items).length ∧
      e' = { e with size := (bytesLog items).length, bytes := some (bytesLog items) } ∧
      1 ≤ (bytesLog items).length ∧ (bytesLog items).length ≤ 4095 := by
  rw [readEdidDataforLogFile] at h
  cases hl : readEdidDataforLogFile.loop (p.length + 2) p STATE_LOOKING_FOR_TOP_NIBBLE 0
      (List.replicate MAX_EDID_SIZE 0) with
  | fault => rw [hl] at h; simp [Res.bind] at h
  | fuel => rw [hl] at h; simp [Res.bind] at h
  | ret x =>
    rw [hl] at h
    obtain ⟨b, x, k, d⟩ := x
    simp only [Res.ret_bind, Res.ret.injEq, saveEdidData] at h
    split at h
    · rename_i hb
      subst hb
      split at h
      · simp at h
      · rename_i hk0
        simp only [Prod.mk.injEq, true_and] at h
        obtain ⟨rfl, rfl⟩ := h
        have hs : scratch [] = List.replicate MAX_EDID_SIZE 0 := by simp [scratch]
        rw [← hs] at hl
        obtain ⟨items, rest, hw, hd, hq, hk, hd', hlt⟩ :=
          (log_loop_sound (p.length + 2)).1 p x [] k d (by decide) hl
        simp only [List.nil_append] at hk hd'
        refine ⟨items, rest, hw, hd, hq, ?_, ?_, ?_⟩
        · rw [hd', hk, scratch_take]
        · omega
        · simp only [MAX_EDID_SIZE] at hlt; omega
    · simp at h

/-- What the header search has passed when it succeeds. -/
theorem findEdidHeaderforLogFile_sound {p q : FileRec}
    (h : findEdidHeaderforLogFile p = .ret (true, q)) :
    ∃ gap, p.mem.drop p.current = gap ++ (HEADER ++ q.mem.drop q.current) ∧
      q = p.advance (gap.length + 15) := by
  rw [findEdidHeaderforLogFile, headerLoop_eq] at h
  cases hs : search 15 HEADER (p.length + 1) p with
  | fault => rw [hs] at h; simp [Res.bind] at h
  | fuel => rw [hs] at h; simp [Res.bind] at h
  | ret x =>
    rw [hs] at h
    obtain ⟨b, x⟩ := x
    simp only [Res.ret_bind] at h
    split at h
    · rename_i hb
      subst hb
      simp only [Res.ret.injEq, Prod.mk.injEq, true_and] at h
      subst h
      obtain ⟨j, rfl, hl, hlen⟩ := search_hit _ _ _ _ _ hs
      obtain ⟨gap, hg, hsplit⟩ := p.mem_split j (by
        have := (p.advance j).length_le_mem
        simp only [FileRec.advance_current, FileRec.advance_length, FileRec.advance_mem] at *
        omega)
      obtain ⟨t, ht⟩ := (FileRec.litAt_iff _ _).1 hl
      have h15 := (drop_append_of_drop ht.symm).1
      rw [HEADER_length] at h15
      refine ⟨gap, ?_, by rw [FileRec.advance_advance, hg]⟩
      rw [hsplit, ← ht]
      simp only [FileRec.advance_mem, FileRec.advance_current] at h15 ⊢
      rw [h15]
    · simp only [Res.ret.injEq, Prod.mk.injEq] at h
      rename_i hb
      exact absurd h.1 hb

theorem strncpy_append_left (text more : List Nat) (n : Nat) (hn : n ≤ text.length) :
    strncpy (text ++ more) n = strncpy text n := by
  simp only [strncpy, List.take_append_of_le_length hn]

/-- What `captureName` stores when it succeeds, the text between `begin` and
the cursor being known. -/
theorem captureName_sound {x q : FileRec} {text more : List Nat} {begin : Nat} {e e' : EdidRec}
    (hcur : x.current = begin + text.length) (hm : x.mem.drop begin = text ++ more)
    (h : captureName x begin e = (true, q, e')) :
    q = x ∧ 1 ≤ toInt32 text.length ∧ toInt32 text.length ≤ 512 ∧
      e' = { e with name := some (strncpy text (toInt32 text.length).toNat ++ [0]) } := by
  rw [captureName_eq begin e hcur hm] at h
  split at h
  · simp at h
  · rename_i hc
    have h1 : 1 ≤ toInt32 text.length := by omega
    obtain ⟨hv, hle, -⟩ := toInt32_pos h1
    simp only [Prod.mk.injEq, true_and] at h
    obtain ⟨rfl, rfl⟩ := h
    refine ⟨rfl, h1, by omega, ?_⟩
    rw [strncpy_append_left _ _ _ (by rw [hv, Int.toNat_ofNat]; exact hle)]

/-- What the footer parser has read when it succeeds: the footer literal, a
text, and the terminator with one more byte of the view after it; the name is
filled from the text. -/
theorem readEdidFooterforLogFile_sound {p q : FileRec} {e e' : EdidRec}
    (h : readEdidFooterforLogFile p e = .ret (true, q, e')) :
    ∃ text rest, p.mem.drop p.current = FOOTER ++ (text ++ (TERMINATOR ++ rest)) ∧
      q = p.advance (20 + text.length) ∧ q.current + 5 ≤ q.length ∧
      1 ≤ toInt32 text.length ∧ toInt32 text.length ≤ 512 ∧
      e' = { e with name := some (strncpy text (toInt32 text.length).toNat ++ [0]) } := by
  rw [readEdidFooterforLogFile] at h
  split at h
  · simp at h
  · split at h
    · simp at h
    · rename_i h20 hlit
      have hlit' : p.litAt FOOTER = true := by simpa using hlit
      obtain ⟨t1, ht1⟩ := (FileRec.litAt_iff _ _).1 hlit'
      have hd20 := (drop_append_of_drop ht1.symm).1
      rw [FOOTER_length] at hd20
      simp only [footerLoop_eq] at h
      cases hs : search 5 TERMINATOR ((p.advance 20).length + 1) (p.advance 20) with
      | fault => rw [hs] at h; simp [Res.bind] at h
      | fuel => rw [hs] at h; simp [Res.bind] at h
      | ret x =>
        rw [hs] at h
        obtain ⟨b, x⟩ := x
        simp only [Res.ret_bind] at h
        split at h
        · rename_i hb
          subst hb
          simp only [Res.ret.injEq] at h
          obtain ⟨j, rfl, hl, hlen⟩ := search_hit _ _ _ _ _ hs
          obtain ⟨text, hg, hsplit⟩ := (p.advance 20).mem_split j (by
            have := ((p.advance 20).advance j).length_le_mem
            simp only [FileRec.advance_current, FileRec.advance_length,
              FileRec.advance_mem] at *
            omega)
          obtain ⟨rest, hrest⟩ := (FileRec.litAt_iff _ _).1 hl
          simp only [FileRec.advance_mem, FileRec.advance_current] at hsplit hrest hd20
          have hm : ((p.advance 20).advance j).mem.drop (p.advance 20).current =
              text ++ (TERMINATOR ++ rest) := by
            simp only [FileRec.advance_mem, FileRec.advance_current]
            rw [hsplit, ← hrest]
          obtain ⟨rfl, h1, h512, rfl⟩ := captureName_sound
            (by simp only [FileRec.advance_current]; omega) hm h
          refine ⟨text, rest, ?_, by rw [FileRec.advance_advance, hg], hlen, h1, h512, rfl⟩
          rw [← ht1, ← hd20, hsplit, ← hrest]
        · simp at h

/-- What a call of `findEdidforLogFile` that returns a record has read, and what
the record holds: from the cursor on, a text, the header, a well-formed token
stream, the footer literal, the text of the name, and the terminator, all of it
inside the view; the bytes of the record are the hex pairs of the stream in
order, 1 to 4095 of them, and its name is filled by `strncpy` from the text of
the name, whose `int` length is 1 to 512, and closed by a NUL. -/
theorem findEdidforLogFile_sound {p q : FileRec} {e : EdidRec}
    (h : findEdidforLogFile p = .ret (some e, q)) :
    ∃ gap items text rest, (∀ i ∈ items, i.wf = true) ∧
      p.mem.drop p.current =
        gap ++ (HEADER ++ (renderLog items ++ (FOOTER ++ (text ++ (TERMINATOR ++ rest))))) ∧
      q = p.advance (gap.length + 15 + (renderLog items).length + 20 + text.length) ∧
      q.current + 5 ≤ p.length ∧
      1 ≤ (bytesLog items).length ∧ (bytesLog items).length ≤ 4095 ∧
      1 ≤ toInt32 text.length ∧ toInt32 text.length ≤ 512 ∧
      e = ⟨(bytesLog items).length, some (bytesLog items),
        some (strncpy text (toInt32 text.length).toNat ++ [0])⟩ := by
  simp only [findEdidforLogFile] at h
  cases h1 : findEdidHeaderforLogFile p with
  | fault => rw [h1] at h; simp [Res.bind] at h
  | fuel => rw [h1] at h; simp [Res.bind] at h
  | ret x =>
    rw [h1] at h
    obtain ⟨b1, q1⟩ := x
    simp only [Res.ret_bind] at h
    split at h
    · simp at h
    · rename_i hb1
      have hb1' : b1 = true := by simpa using hb1
      subst hb1'
      obtain ⟨gap, hgap, rfl⟩ := findEdidHeaderforLogFile_sound h1
      cases h2 : readEdidDataforLogFile (p.advance (gap.length + 15)) EdidRec.fresh with
      | fault => rw [h2] at h; simp [Res.bind] at h
      | fuel => rw [h2] at h; simp [Res.bind] at h
      | ret y =>
        rw [h2] at h
        obtain ⟨b2, q2, e2⟩ := y
        simp only [Res.ret_bind] at h
        split at h
        · simp at h
        · rename_i hb2
          have hb2' : b2 = true := by simpa using hb2
          subst hb2'
          obtain ⟨items, rest1, hw, hd, rfl, rfl, hl1, hl2⟩ := readEdidDataforLogFile_sound h2
          cases h3 : readEdidFooterforLogFile
              ((p.advance (gap.length + 15)).advance (renderLog items).length)
              { EdidRec.fresh with size := (bytesLog items).length,
                                   bytes := some (bytesLog items) } with
          | fault => rw [h3] at h; simp [Res.bind] at h
          | fuel => rw [h3] at h; simp [Res.bind] at h
          | ret z =>
            rw [h3] at h
            obtain ⟨b3, q3, e3⟩ := z
            simp only [Res.ret_bind] at h
            split at h
            · simp at h
            · rename_i hb3
              have hb3' : b3 = true := by simpa using hb3
              subst hb3'
              simp only [Res.ret.injEq, Prod.mk.injEq, Option.some.injEq] at h
              obtain ⟨rfl, rfl⟩ := h
              obtain ⟨text, rest, hf, rfl, hlen, hn1, hn2, rfl⟩ :=
                readEdidFooterforLogFile_sound h3
              have hd2 := (drop_append_of_drop hd).1
              simp only [FileRec.advance_mem, FileRec.advance_current] at hd hd2 hf hgap
              rw [hd2] at hf
              refine ⟨gap, items, text, rest, hw, ?_, ?_, ?_, hl1, hl2, hn1, hn2, rfl⟩
              · rw [hgap, hd, hf]
              · simp only [FileRec.advance_advance]
                congr 1
                omega
              · simpa only [FileRec.advance_length] using hlen

/-- One iteration of the text state machine at a readable byte. -/
theorem text_step_peek {p : FileRec} {c : Nat} (hp : p.peek 0 = some c) (n state k : Nat)
    (pData : List Nat) :
    readEdidDataforTextFile.loop (n + 1) p state k pData =
      if state = STATE_LOOKING_FOR_TOP_NIBBLE then
        if IS_HEX c then
          readEdidDataforTextFile.next n p STATE_LOOKING_FOR_BOTTOM_NIBBLE k
            (pData.set k (pData.getD k 0 ||| (HEX_TO_NIBBLE c <<< 4)))
        else if c = 45 then
          readEdidDataforTextFile.next n p STATE_LOOKING_FOR_TOP_NIBBLE k pData
        else if isspace c then
          match p.peek 1 with
          | none => .fault
          | some c1 =>
            if isspace c1 then
              readEdidDataforTextFile.next n p STATE_LOOKING_FOR_END_OF_LABEL k pData
            else
              readEdidDataforTextFile.next n p STATE_LOOKING_FOR_TOP_NIBBLE k pData
        else .ret (false, p, k, pData)
      else if state = STATE_LOOKING_FOR_BOTTOM_NIBBLE then
        if IS_HEX c then
          if k + 1 ≥ MAX_EDID_SIZE then
            .ret (false, p, k + 1, pData.set k (pData.getD k 0 ||| HEX_TO_NIBBLE c))
          else readEdidDataforTextFile.next n p STATE_LOOKING_FOR_TOP_NIBBLE (k + 1)
            (pData.set k (pData.getD k 0 ||| HEX_TO_NIBBLE c))
        else .ret (false, p, k, pData)
      else if state = STATE_LOOKING_FOR_END_OF_LABEL then
        if c = 13 then
          match p.peek 1 with
          | none => .fault
          | some c1 =>
            if c1 = 10 then
              match p.peek 2 with
              | none => .fault
              | some c2 =>
                if c2 = 13 then
                  match p.peek 3 with
                  | none => .fault
                  | some c3 =>
                    if c3 = 10 then .ret (true, p, k, pData)
                    else readEdidDataforTextFile.next n p STATE_LOOKING_FOR_TOP_NIBBLE k pData
                else readEdidDataforTextFile.next n p STATE_LOOKING_FOR_TOP_NIBBLE k pData
            else readEdidDataforTextFile.next n p STATE_LOOKING_FOR_END_OF_LABEL k pData
        else readEdidDataforTextFile.next n p STATE_LOOKING_FOR_END_OF_LABEL k pData
      else .ret (false, p, k, pData) := by
  rw [readEdidDataforTextFile.loop]
  simp only [hp, readEdidDataforTextFile.next]
  rfl

theorem text_next_true {n : Nat} {p : FileRec} {state k : Nat} {pData : List Nat}
    {r : FileRec × Nat × List Nat}
    (h : readEdidDataforTextFile.next n p state k pData = .ret (true, r)) :
    readEdidDataforTextFile.loop n (p.advance 1) state k pData = .ret (true, r) := by
  rw [readEdidDataforTextFile.next] at h
  split at h
  · simp at h
  · exact h

/-- The end of a text-style table: a whitespace character, a column that starts
with whitespace and holds no CR LF, and CR LF CR LF. -/
theorem CRLF_infix_cons {c : Nat} {col : List Nat} (hcol : ¬ CRLF <:+: col)
    (hc : c ≠ 13 ∨ (col ++ [13]).headD 0 ≠ 10) : ¬ CRLF <:+: c :: col := by
  rw [List.infix_cons_iff]
  rintro (h | h)
  · obtain ⟨t, ht⟩ := h
    cases col with
    | nil => simp [CRLF] at ht
    | cons d col =>
      simp only [CRLF, List.cons_append, List.cons.injEq, List.nil_append] at ht
      rcases hc with hc | hc
      · exact hc ht.1.symm
      · exact hc (by simpa using ht.2.1.symm)
  · exact hcol h

/-- The first byte after the cursor, from a read one byte ahead. -/
theorem FileRec.next_of_peek {p : FileRec} {c1 : Nat} (h : p.peek 1 = some c1) :
    (p.advance 1).mem.drop (p.advance 1).current = c1 :: p.mem.drop (p.current + 1 + 1) :=
  FileRec.mem_of_peek_at 1 h

/-- The text state machine reads a table: whenever it ends at `done`, the bytes
from the cursor on were a well-formed token stream followed by the end of the
table (a whitespace character, a column that starts with whitespace and holds no
CR LF, and CR LF CR LF), the final cursor stands on the first CR of that end,
and `k` and the scratch buffer hold the bytes of the stream after those decoded
before. The three parts are for the three states: looking for a high nibble,
for a low nibble (after the high nibble `h`), and skipping to the end of the
line. -/
theorem text_loop_sound (n : Nat) :
    (∀ (p q : FileRec) (done : List Nat) (k' : Nat) (d' : List Nat),
      done.length < MAX_EDID_SIZE →
      readEdidDataforTextFile.loop n p STATE_LOOKING_FOR_TOP_NIBBLE done.length (scratch done) =
        .ret (true, q, k', d') →
      ∃ items gap col rest,
        wfText items (gap :: (col ++ 13 :: 10 :: 13 :: 10 :: rest)) = true ∧
        isspace gap = true ∧ isspace ((col ++ [13]).headD 0) = true ∧ ¬ CRLF <:+: col ∧
        p.mem.drop p.current = renderText items ++ gap :: (col ++ 13 :: 10 :: 13 :: 10 :: rest) ∧
        q = p.advance ((renderText items).length + (1 + col.length)) ∧
        k' = (done ++ bytesText items).length ∧ d' = scratch (done ++ bytesText items) ∧
        k' < MAX_EDID_SIZE) ∧
    (∀ (p q : FileRec) (done : List Nat) (k' : Nat) (d' : List Nat) (h : Nat),
      done.length < MAX_EDID_SIZE → h < 16 →
      readEdidDataforTextFile.loop n p STATE_LOOKING_FOR_BOTTOM_NIBBLE done.length
          (done ++ (0 ||| (h <<< 4)) :: List.replicate (MAX_EDID_SIZE - done.length - 1) 0) =
        .ret (true, q, k', d') →
      ∃ c items gap col rest, IS_HEX c = true ∧
        wfText items (gap :: (col ++ 13 :: 10 :: 13 :: 10 :: rest)) = true ∧
        isspace gap = true ∧ isspace ((col ++ [13]).headD 0) = true ∧ ¬ CRLF <:+: col ∧
        p.mem.drop p.current =
          c :: (renderText items ++ gap :: (col ++ 13 :: 10 :: 13 :: 10 :: rest)) ∧
        q = p.advance (1 + ((renderText items).length + (1 + col.length))) ∧
        k' = (done ++ (h * 16 + HEX_TO_NIBBLE c) :: bytesText items).length ∧
        d' = scratch (done ++ (h * 16 + HEX_TO_NIBBLE c) :: bytesText items) ∧
        k' < MAX_EDID_SIZE) ∧
    (∀ (p q : FileRec) (done : List Nat) (k' : Nat) (d' : List Nat),
      done.length < MAX_EDID_SIZE →
      readEdidDataforTextFile.loop n p STATE_LOOKING_FOR_END_OF_LABEL done.length
          (scratch done) = .ret (true, q, k', d') →
      ∃ col, ¬ CRLF <:+: col ∧ k' < MAX_EDID_SIZE ∧
        ((∃ rest, p.mem.drop p.current = col ++ 13 :: 10 :: 13 :: 10 :: rest ∧
            q = p.advance col.length ∧ k' = done.length ∧ d' = scratch done) ∨
          (∃ items gap col2 rest d more,
            p.mem.drop p.current =
              col ++ 13 :: (renderText items ++ gap :: (col2 ++ 13 :: 10 :: 13 :: 10 :: rest)) ∧
            renderText items ++ gap :: (col2 ++ 13 :: 10 :: 13 :: 10 :: rest) = 10 :: d :: more ∧
            (d ≠ 13 ∨ ∃ x t, more = x :: t ∧ x ≠ 10) ∧
            wfText items (gap :: (col2 ++ 13 :: 10 :: 13 :: 10 :: rest)) = true ∧
            isspace gap = true ∧ isspace ((col2 ++ [13]).headD 0) = true ∧ ¬ CRLF <:+: col2 ∧
            q = p.advance (col.length + 1 + ((renderText items).length + (1 + col2.length))) ∧
            k' = (done ++ bytesText items).length ∧
            d' = scratch (done ++ bytesText items)))) := by
  induction n with
  | zero =>
    refine ⟨?_, ?_, ?_⟩ <;> intros <;> simp_all [readEdidDataforTextFile.loop]
  | succ n ih =>
    obtain ⟨ihT, ihB, ihL⟩ := ih
    refine ⟨?_, ?_, ?_⟩
    · intro p q done k' d' hk h
      cases hp : p.peek 0 with
      | none => rw [readEdidDataforTextFile.loop] at h; simp [hp] at h
      | some c =>
        have hm := FileRec.mem_of_peek hp
        rw [text_step_peek hp, if_pos rfl] at h
        by_cases hx : IS_HEX c = true
        · rw [if_pos hx, scratch_top hk] at h
          obtain ⟨u1, hu1, hn1⟩ := hex_as_digit hx
          obtain ⟨c2, items, gap, col, rest, hx2, hw, hgap, hhead, hcol, hd, hq, hk', hd', hlt⟩ :=
            ihB _ _ _ _ _ (HEX_TO_NIBBLE c) hk hn1 (text_next_true h)
          obtain ⟨u2, hu2, hn2⟩ := hex_as_digit hx2
          have hb1 : (HEX_TO_NIBBLE c * 16 + HEX_TO_NIBBLE c2) / 16 = HEX_TO_NIBBLE c := by
            omega
          have hb2 : (HEX_TO_NIBBLE c * 16 + HEX_TO_NIBBLE c2) % 16 = HEX_TO_NIBBLE c2 := by
            omega
          refine ⟨.byte (HEX_TO_NIBBLE c * 16 + HEX_TO_NIBBLE c2) u1 u2 :: items, gap, col, rest,
            ?_, hgap, hhead, hcol, ?_, ?_, ?_, ?_, hlt⟩
          · simp only [wfText, TextItem.ok, hw, Bool.and_true, decide_eq_true_eq]
            omega
          · rw [hm, hd]
            simp only [renderText, TextItem.render, hb1, hb2, hu1, hu2, List.cons_append,
              List.nil_append]
          · rw [hq, FileRec.advance_advance]
            congr 1
            simp only [renderText, TextItem.render, List.length_append, List.length_cons,
              List.length_nil]
            omega
          · simpa [bytesText, TextItem.bytes] using hk'
          · simpa [bytesText, TextItem.bytes] using hd'
        · rw [if_neg hx] at h
          by_cases h45 : c = 45
          · rw [if_pos h45] at h
            obtain ⟨items, gap, col, rest, hw, hgap, hhead, hcol, hd, hq, hk', hd', hlt⟩ :=
              ihT _ _ _ _ _ hk (text_next_true h)
            refine ⟨.dash :: items, gap, col, rest, ?_, hgap, hhead, hcol, ?_, ?_, ?_, ?_, hlt⟩
            · simp only [wfText, TextItem.ok, hw, Bool.and_true]
            · rw [hm, hd, h45]
              rfl
            · rw [hq, FileRec.advance_advance]
              congr 1
              simp only [renderText, TextItem.render, List.length_append, List.length_cons,
                List.length_nil]
              omega
            · simpa [bytesText, TextItem.bytes] using hk'
            · simpa [bytesText, TextItem.bytes] using hd'
          · rw [if_neg h45] at h
            by_cases hsp : isspace c = true
            · rw [if_pos hsp] at h
              cases hp1 : p.peek 1 with
              | none => rw [hp1] at h; simp at h
              | some c1 =>
                rw [hp1] at h
                simp only [] at h
                have hm1 := FileRec.next_of_peek hp1
                by_cases hsp1 : isspace c1 = true
                · rw [if_pos hsp1] at h
                  obtain ⟨col, hcol, hlt, hfin | hcont⟩ := ihL _ _ _ _ _ hk (text_next_true h)
                  · obtain ⟨rest, hd, hq, hk', hd'⟩ := hfin
                    obtain ⟨d, t, hdt, hdh⟩ := headD_append_cons col 13 (10 :: 13 :: 10 :: rest)
                    have hc1 : d = c1 := by
                      rw [hd, hdt] at hm1
                      exact (List.cons.inj hm1).1
                    refine ⟨[], c, col, rest, rfl, hsp, by rw [← hdh, hc1]; exact hsp1, hcol,
                      ?_, ?_, by simpa [bytesText] using hk', by simpa [bytesText] using hd', hlt⟩
                    · rw [hm, hd]
                      rfl
                    · rw [hq, FileRec.advance_advance]
                      congr 1
                      simp [renderText]
                  · obtain ⟨items, gap, col2, rest, d, more, hd, hfol, hcond, hw, hgap, hhead,
                      hcol2, hq, hk', hd'⟩ := hcont
                    obtain ⟨d0, t, hdt, hdh⟩ := headD_append_cons col 13
                      (renderText items ++ gap :: (col2 ++ 13 :: 10 :: 13 :: 10 :: rest))
                    have hc1 : d0 = c1 := by
                      rw [hd, hdt] at hm1
                      exact (List.cons.inj hm1).1
                    refine ⟨.skip c col :: items, gap, col2, rest, ?_, hgap, hhead, hcol2,
                      ?_, ?_, ?_, ?_, hlt⟩
                    · have hh : isspace ((col ++ [13]).headD 0) = true := by
                        rw [← hdh, hc1]; exact hsp1
                      simp only [wfText, TextItem.ok, hw, Bool.and_true, hsp, hh, hfol,
                        Bool.true_and, Bool.and_eq_true, decide_eq_true_eq]
                      refine ⟨hcol, ?_⟩
                      rcases hcond with hne | ⟨x, t', rfl, hx'⟩
                      · simp [hne]
                      · simp [hx']
                    · rw [hm, hd]
                      simp only [renderText, TextItem.render, List.cons_append,
                        List.append_assoc, List.singleton_append, List.nil_append]
                    · rw [hq, FileRec.advance_advance]
                      congr 1
                      simp only [renderText, TextItem.render, List.length_append,
                        List.length_cons, List.length_nil]
                      omega
                    · simpa [bytesText, TextItem.bytes] using hk'
                    · simpa [bytesText, TextItem.bytes] using hd'
                · rw [if_neg hsp1] at h
                  obtain ⟨items, gap, col, rest, hw, hgap, hhead, hcol, hd, hq, hk', hd', hlt⟩ :=
                    ihT _ _ _ _ _ hk (text_next_true h)
                  refine ⟨.space c :: items, gap, col, rest, ?_, hgap, hhead, hcol,
                    ?_, ?_, ?_, ?_, hlt⟩
                  · rw [hd] at hm1
                    simp only [wfText, TextItem.ok, hw, Bool.and_true, hsp, hm1, Bool.true_and]
                    simpa using hsp1
                  · rw [hm, hd]
                    rfl
                  · rw [hq, FileRec.advance_advance]
                    congr 1
                    simp only [renderText, TextItem.render, List.length_append,
                      List.length_cons, List.length_nil]
                    omega
                  · simpa [bytesText, TextItem.bytes] using hk'
                  · simpa [bytesText, TextItem.bytes] using hd'
            · rw [if_neg hsp] at h
              simp at h
    · intro p q done k' d' hn hk hlt16 h
      cases hp : p.peek 0 with
      | none => rw [readEdidDataforTextFile.loop] at h; simp [hp] at h
      | some c =>
        have hm := FileRec.mem_of_peek hp
        rw [text_step_peek hp, if_neg (by decide), if_pos rfl] at h
        by_cases hx : IS_HEX c = true
        · rw [if_pos hx] at h
          by_cases hcap : done.length + 1 ≥ MAX_EDID_SIZE
          · rw [if_pos hcap] at h
            simp at h
          · rw [if_neg hcap] at h
            obtain ⟨u, hu, hn2⟩ := hex_as_digit hx
            rw [scratch_bottom, nibbles_combine _ hlt16 _ hn2, scratch_snoc] at h
            have hl : done.length + 1 = (done ++ [hn * 16 + HEX_TO_NIBBLE c]).length := by simp
            rw [hl] at h
            obtain ⟨items, gap, col, rest, hw, hgap, hhead, hcol, hd, hq, hk', hd', hlt⟩ :=
              ihT _ _ _ _ _ (by simp only [List.length_append, List.length_singleton]; omega)
                (text_next_true h)
            refine ⟨c, items, gap, col, rest, hx, hw, hgap, hhead, hcol, by rw [hm, hd],
              ?_, ?_, ?_, hlt⟩
            · rw [hq, FileRec.advance_advance]
            · simpa [List.append_assoc] using hk'
            · simpa [List.append_assoc] using hd'
        · rw [if_neg hx] at h
          simp at h
    · intro p q done k' d' hk h
      cases hp : p.peek 0 with
      | none => rw [readEdidDataforTextFile.loop] at h; simp [hp] at h
      | some c =>
        have hm := FileRec.mem_of_peek hp
        rw [text_step_peek hp, if_neg (by decide), if_neg (by decide), if_pos rfl] at h
        -- the case in which the skipping goes on one character further
        have hgo : readEdidDataforTextFile.next n p STATE_LOOKING_FOR_END_OF_LABEL done.length
              (scratch done) = .ret (true, q, k', d') →
            (c ≠ 13 ∨ ∃ c1, p.peek 1 = some c1 ∧ c1 ≠ 10) →
            ∃ col, ¬ CRLF <:+: col ∧ k' < MAX_EDID_SIZE ∧
              ((∃ rest, p.mem.drop p.current = col ++ 13 :: 10 :: 13 :: 10 :: rest ∧
                  q = p.advance col.length ∧ k' = done.length ∧ d' = scratch done) ∨
                (∃ items gap col2 rest d more,
                  p.mem.drop p.current =
                    col ++ 13 :: (renderText items ++
                      gap :: (col2 ++ 13 :: 10 :: 13 :: 10 :: rest)) ∧
                  renderText items ++ gap :: (col2 ++ 13 :: 10 :: 13 :: 10 :: rest) =
                    10 :: d :: more ∧
                  (d ≠ 13 ∨ ∃ x t, more = x :: t ∧ x ≠ 10) ∧
                  wfText items (gap :: (col2 ++ 13 :: 10 :: 13 :: 10 :: rest)) = true ∧
                  isspace gap = true ∧ isspace ((col2 ++ [13]).headD 0) = true ∧
                  ¬ CRLF <:+: col2 ∧
                  q = p.advance (col.length + 1 +
                    ((renderText items).length + (1 + col2.length))) ∧
                  k' = (done ++ bytesText items).length ∧
                  d' = scratch (done ++ bytesText items))) := by
          intro h hc
          obtain ⟨col, hcol, hlt, hres⟩ := ihL _ _ _ _ _ hk (text_next_true h)
          have hhead : ∀ r, (p.advance 1).mem.drop (p.advance 1).current = col ++ 13 :: r →
              c ≠ 13 ∨ (col ++ [13]).headD 0 ≠ 10 := by
            intro r hr
            rcases hc with hc | ⟨c1, hp1, hc1⟩
            · exact Or.inl hc
            · right
              obtain ⟨d, t, hdt, hdh⟩ := headD_append_cons col 13 r
              have hm1 := FileRec.next_of_peek hp1
              rw [hr, hdt] at hm1
              rw [← hdh, (List.cons.inj hm1).1]
              exact hc1
          rcases hres with ⟨rest, hd, hq, hk', hd'⟩ | ⟨items, gap, col2, rest, d, more, hd, hfol,
              hcond, hw, hgap, hh2, hcol2, hq, hk', hd'⟩
          · refine ⟨c :: col, CRLF_infix_cons hcol (hhead _ hd), hlt, Or.inl ⟨rest, ?_, ?_, hk', hd'⟩⟩
            · rw [hm, hd]
              rfl
            · rw [hq, FileRec.advance_advance]
              congr 1
              simp only [List.length_cons]
              omega
          · refine ⟨c :: col, CRLF_infix_cons hcol (hhead _ hd), hlt,
              Or.inr ⟨items, gap, col2, rest, d, more, ?_, hfol, hcond, hw, hgap, hh2, hcol2, ?_,
                hk', hd'⟩⟩
            · rw [hm, hd]
              rfl
            · rw [hq, FileRec.advance_advance]
              congr 1
              simp only [List.length_cons]
              omega
        -- the case in which the state machine goes back to the pairs after CR LF
        have hback : ∀ c1 c2, c = 13 → p.peek 1 = some c1 → c1 = 10 → p.peek 2 = some c2 →
            (c2 ≠ 13 ∨ ∃ c3, p.peek 3 = some c3 ∧ c3 ≠ 10) →
            readEdidDataforTextFile.next n p STATE_LOOKING_FOR_TOP_NIBBLE done.length
              (scratch done) = .ret (true, q, k', d') →
            ∃ col, ¬ CRLF <:+: col ∧ k' < MAX_EDID_SIZE ∧
              ((∃ rest, p.mem.drop p.current = col ++ 13 :: 10 :: 13 :: 10 :: rest ∧
                  q = p.advance col.length ∧ k' = done.length ∧ d' = scratch done) ∨
                (∃ items gap col2 rest d more,
                  p.mem.drop p.current =
                    col ++ 13 :: (renderText items ++
                      gap :: (col2 ++ 13 :: 10 :: 13 :: 10 :: rest)) ∧
                  renderText items ++ gap :: (col2 ++ 13 :: 10 :: 13 :: 10 :: rest) =
                    10 :: d :: more ∧
                  (d ≠ 13 ∨ ∃ x t, more = x :: t ∧ x ≠ 10) ∧
                  wfText items (gap :: (col2 ++ 13 :: 10 :: 13 :: 10 :: rest)) = true ∧
                  isspace gap = true ∧ isspace ((col2 ++ [13]).headD 0) = true ∧
                  ¬ CRLF <:+: col2 ∧
                  q = p.advance (col.length + 1 +
                    ((renderText items).length + (1 + col2.length))) ∧
                  k' = (done ++ bytesText items).length ∧
                  d' = scratch (done ++ bytesText items))) := by
          intro c1 c2 hc hp1 hc1 hp2 hc23 h
          obtain ⟨items, gap, col2, rest, hw, hgap, hh2, hcol2, hd, hq, hk', hd', hlt⟩ :=
            ihT _ _ _ _ _ hk (text_next_true h)
          have hm1 := FileRec.next_of_peek hp1
          have hm2 := FileRec.mem_of_peek_at 2 hp2
          have e2 : p.current + 1 + 1 = p.current + 2 := by omega
          rw [e2, hm2, hc1] at hm1
          refine ⟨[], by simp [CRLF], hlt, Or.inr ⟨items, gap, col2, rest, c2,
            p.mem.drop (p.current + 2 + 1), ?_, ?_, ?_, hw, hgap, hh2, hcol2, ?_, hk', hd'⟩⟩
          · rw [hm, hd, hc]
            rfl
          · rw [← hd, hm1]
          · rcases hc23 with h2 | ⟨c3, hp3, hc3⟩
            · exact Or.inl h2
            · right
              have hm3 := FileRec.mem_of_peek_at 3 hp3
              exact ⟨c3, _, hm3, hc3⟩
          · rw [hq, FileRec.advance_advance]
            simp only [List.length_nil, Nat.zero_add]
        by_cases h13 : c = 13
        · rw [if_pos h13] at h
          cases hp1 : p.peek 1 with
          | none => rw [hp1] at h; simp at h
          | some c1 =>
            rw [hp1] at h
            simp only [] at h
            by_cases h10 : c1 = 10
            · rw [if_pos h10] at h
              cases hp2 : p.peek 2 with
              | none => rw [hp2] at h; simp at h
              | some c2 =>
                rw [hp2] at h
                simp only [] at h
                by_cases h213 : c2 = 13
                · rw [if_pos h213] at h
                  cases hp3 : p.peek 3 with
                  | none => rw [hp3] at h; simp at h
                  | some c3 =>
                    rw [hp3] at h
                    simp only [] at h
                    by_cases h310 : c3 = 10
                    · rw [if_pos h310] at h
                      simp only [Res.ret.injEq, Prod.mk.injEq, true_and] at h
                      obtain ⟨rfl, rfl, rfl⟩ := h
                      have hm1 := FileRec.mem_of_peek_at 1 hp1
                      have hm2 := FileRec.mem_of_peek_at 2 hp2
                      have hm3 := FileRec.mem_of_peek_at 3 hp3
                      refine ⟨[], by simp [CRLF], hk, Or.inl ⟨p.mem.drop (p.current + 3 + 1),
                        ?_, by simp, rfl, rfl⟩⟩
                      rw [hm]
                      simp only [FileRec.advance_mem, FileRec.advance_current, List.nil_append]
                      rw [hm1, hm2, hm3, h13, h10, h213, h310]
                    · rw [if_neg h310] at h
                      exact hback c1 c2 h13 hp1 h10 hp2 (Or.inr ⟨c3, hp3, h310⟩) h
                · rw [if_neg h213] at h
                  exact hback c1 c2 h13 hp1 h10 hp2 (Or.inl h213) h
            · rw [if_neg h10] at h
              exact hgo h (Or.inr ⟨c1, hp1, h10⟩)
        · rw [if_neg h13] at h
          exact hgo h (Or.inl h13)

/-- What the text decoder has read when it succeeds: a well-formed token stream
and the end of the table (a whitespace character, a column that starts with
whitespace and holds no CR LF, and CR LF CR LF); the cursor is left on the first
CR of that end, and the record holds the bytes of the stream, 1 to 4095 of
them. -/
theorem readEdidDataforTextFile_sound {p q : FileRec} {e e' : EdidRec}
    (h : readEdidDataforTextFile p e = .ret (true, q, e')) :
    ∃ items gap col rest,
      wfText items (gap :: (col ++ 13 :: 10 :: 13 :: 10 :: rest)) = true ∧
      isspace gap = true ∧ isspace ((col ++ [13]).headD 0) = true ∧ ¬ CRLF <:+: col ∧
      p.mem.drop p.current = renderText items ++ gap :: (col ++ 13 :: 10 :: 13 :: 10 :: rest) ∧
      q = p.advance ((renderText items).length + (1 + col.length)) ∧
      e' = { e with size := (bytesText items).length, bytes := some (bytesText items) } ∧
      1 ≤ (bytesText items).length ∧ (bytesText items).length ≤ 4095 := by
  rw [readEdidDataforTextFile] at h
  cases hl : readEdidDataforTextFile.loop (p.length + 2) p STATE_LOOKING_FOR_TOP_NIBBLE 0
      (List.replicate MAX_EDID_SIZE 0) with
  | fault => rw [hl] at h; simp [Res.bind] at h
  | fuel => rw [hl] at h; simp [Res.bind] at h
  | ret x =>
    rw [hl] at h
    obtain ⟨b, x, k, d⟩ := x
    simp only [Res.ret_bind, Res.ret.injEq, saveEdidData] at h
    split at h
    · rename_i hb
      subst hb
      split at h
      · simp at h
      · rename_i hk0
        simp only [Prod.mk.injEq, true_and] at h
        obtain ⟨rfl, rfl⟩ := h
        have hs : scratch [] = List.replicate MAX_EDID_SIZE 0 := by simp [scratch]
        rw [← hs] at hl
        obtain ⟨items, gap, col, rest, hw, hgap, hhead, hcol, hd, hq, hk, hd', hlt⟩ :=
          (text_loop_sound (p.length + 2)).1 p x [] k d (by decide) hl
        simp only [List.nil_append] at hk hd'
        refine ⟨items, gap, col, rest, hw, hgap, hhead, hcol, hd, hq, ?_, ?_, ?_⟩
        · rw [hd', hk, scratch_take]
        · omega
        · simp only [MAX_EDID_SIZE] at hlt; omega
    · simp at h

/-- What the colon loop has passed when it returns: characters other than the
colon, and the cursor is left on a colon. -/
theorem colon_sound (n : Nat) : ∀ (p y : FileRec),
    readMonitorNameforTextFile.colon n p = .ret y →
    ∃ mid, 58 ∉ mid ∧ y = p.advance mid.length ∧
      p.mem.drop p.current = mid ++ 58 :: y.mem.drop (y.current + 1) := by
  induction n with
  | zero => intro p y h; simp [readMonitorNameforTextFile.colon] at h
  | succ n ih =>
    intro p y h
    rw [readMonitorNameforTextFile.colon] at h
    cases hp : p.peek 0 with
    | none => rw [hp] at h; simp at h
    | some c =>
      rw [hp] at h
      simp only [] at h
      have hm := FileRec.mem_of_peek hp
      by_cases hc : c = 58
      · have hc2 : ¬ c ≠ ':'.toNat := by
          intro hh
          exact hh hc
        rw [if_neg hc2] at h
        simp only [Res.ret.injEq] at h
        subst h
        refine ⟨[], by simp, by simp, ?_⟩
        rw [hm, hc]
        rfl
      · have hc2 : c ≠ ':'.toNat := hc
        rw [if_pos hc2] at h
        obtain ⟨mid, hmid, hy, hd⟩ := ih _ _ h
        refine ⟨c :: mid, ?_, ?_, ?_⟩
        · simp only [List.mem_cons, not_or]
          exact ⟨fun hh => hc hh.symm, hmid⟩
        · rw [hy, FileRec.advance_advance]
          congr 1
          simp only [List.length_cons]
          omega
        · rw [hm, hd]
          rfl

/-- What the monitor-name parser has read when it succeeds: a text, the label
`Monitor Name`, characters other than the colon, the colon and one more
character, the text of the name, and CR LF inside the view; the name is filled
from that text. -/
theorem readMonitorNameforTextFile_sound {p q : FileRec} {e e' : EdidRec}
    (h : readMonitorNameforTextFile p e = .ret (true, q, e')) :
    ∃ lead mid x text rest,
      p.mem.drop p.current =
        lead ++ (MONITOR_NAME ++ (mid ++ 58 :: x :: (text ++ (CRLF ++ rest)))) ∧
      58 ∉ mid ∧
      q = p.advance (lead.length + 12 + mid.length + 2 + text.length) ∧
      q.current + 2 ≤ q.length ∧
      1 ≤ toInt32 text.length ∧ toInt32 text.length ≤ 512 ∧
      e' = { e with name := some (strncpy text (toInt32 text.length).toNat ++ [0]) } := by
  rw [readMonitorNameforTextFile, monitorFind_eq] at h
  cases hs : search 12 MONITOR_NAME (p.length + 1) p with
  | fault => rw [hs] at h; simp [Res.bind] at h
  | fuel => rw [hs] at h; simp [Res.bind] at h
  | ret x =>
    rw [hs] at h
    obtain ⟨b, x⟩ := x
    simp only [Res.ret_bind] at h
    cases b with
    | false => simp [Res.bind] at h
    | true =>
      simp only [if_true, Res.ret_bind, Bool.not_true] at h
      rw [if_neg (by simp)] at h
      obtain ⟨j, rfl, hl, hlen⟩ := search_hit _ _ _ _ _ hs
      obtain ⟨lead, hg, hsplit⟩ := p.mem_split j (by
        have := (p.advance j).length_le_mem
        simp only [FileRec.advance_current, FileRec.advance_length, FileRec.advance_mem] at *
        omega)
      obtain ⟨t, ht⟩ := (FileRec.litAt_iff _ _).1 hl
      have h12 := (drop_append_of_drop ht.symm).1
      rw [MONITOR_NAME_length] at h12
      cases hc : readMonitorNameforTextFile.colon (((p.advance j).advance 12).mem.length + 1)
          ((p.advance j).advance 12) with
      | fault => rw [hc] at h; simp [Res.bind] at h
      | fuel => rw [hc] at h; simp [Res.bind] at h
      | ret y =>
        rw [hc] at h
        simp only [Res.ret_bind, monitorLoop_eq] at h
        obtain ⟨mid, hmid, rfl, hdm⟩ := colon_sound _ _ _ hc
        cases hs2 : search 2 CRLF
            (((((p.advance j).advance 12).advance mid.length).advance 2).length + 1)
            ((((p.advance j).advance 12).advance mid.length).advance 2) with
        | fault => rw [hs2] at h; simp [Res.bind] at h
        | fuel => rw [hs2] at h; simp [Res.bind] at h
        | ret z =>
          rw [hs2] at h
          obtain ⟨b2, z⟩ := z
          simp only [Res.ret_bind] at h
          split at h
          · rename_i hb2
            subst hb2
            simp only [Res.ret.injEq] at h
            obtain ⟨i, rfl, hl2, hlen2⟩ := search_hit _ _ _ _ _ hs2
            have hle := (((((p.advance j).advance 12).advance mid.length).advance 2).advance
              i).length_le_mem
            simp only [FileRec.advance_current, FileRec.advance_length,
              FileRec.advance_mem] at hle hlen2 hdm h12 hsplit ht
            obtain ⟨text, hti, hsplit2⟩ :=
              ((((p.advance j).advance 12).advance mid.length).advance 2).mem_split i (by
                simp only [FileRec.advance_current, FileRec.advance_mem]
                omega)
            obtain ⟨rest, hrest⟩ := (FileRec.litAt_iff _ _).1 hl2
            simp only [FileRec.advance_mem, FileRec.advance_current] at hsplit2 hrest
            have hx : ∃ x, p.mem.drop (p.current + j + 12 + mid.length + 1) =
                x :: p.mem.drop (p.current + j + 12 + mid.length + 2) := by
              have hlt : p.current + j + 12 + mid.length + 1 < p.mem.length := by omega
              exact ⟨_, List.drop_eq_getElem_cons hlt⟩
            obtain ⟨x, hx⟩ := hx
            have hm : (((((p.advance j).advance 12).advance mid.length).advance 2).advance
                i).mem.drop ((((p.advance j).advance 12).advance mid.length).advance 2).current =
                text ++ (CRLF ++ rest) := by
              simp only [FileRec.advance_mem, FileRec.advance_current]
              rw [hsplit2, ← hrest]
            obtain ⟨rfl, h1, h512, rfl⟩ := captureName_sound
              (by simp only [FileRec.advance_current]; omega) hm h
            refine ⟨lead, mid, x, text, rest, ?_, hmid, ?_, ?_, h1, h512, rfl⟩
            · rw [hsplit, ← ht, ← h12, hdm, hx, hsplit2, ← hrest]
            · simp only [FileRec.advance_advance]
              congr 1
              omega
            · simpa only [FileRec.advance_current, FileRec.advance_length] using hlen2
          · simp at h

/-- What a call of `findEdidforTextFile` that returns a record has read, and
what the record holds: from the cursor on, a well-formed token stream and
the end of the table; from the first CR of that end on, a text, the label
`Monitor Name`, characters other than the colon, the colon and one more
character, the text of the name, and CR LF inside the view; the bytes of the
record are the hex pairs of the stream in order, 1 to 4095 of them, and its
name is filled by `strncpy` from the text of the name, whose `int` length is 1
to 512, and closed by a NUL. -/
theorem findEdidforTextFile_sound {p q : FileRec} {e : EdidRec}
    (h : findEdidforTextFile p = .ret (some e, q)) :
    ∃ items gap col after lead mid x text rest,
      wfText items (gap :: (col ++ after)) = true ∧
      isspace gap = true ∧ isspace ((col ++ [13]).headD 0) = true ∧ ¬ CRLF <:+: col ∧
      (CRLF ++ CRLF) <+: after ∧
      p.mem.drop p.current = renderText items ++ gap :: (col ++ after) ∧
      after = lead ++ (MONITOR_NAME ++ (mid ++ 58 :: x :: (text ++ (CRLF ++ rest)))) ∧
      58 ∉ mid ∧
      q = p.advance ((renderText items).length + 1 + col.length + lead.length + 12 +
        mid.length + 2 + text.length) ∧
      q.current + 2 ≤ p.length ∧
      1 ≤ (bytesText items).length ∧ (bytesText items).length ≤ 4095 ∧
      1 ≤ toInt32 text.length ∧ toInt32 text.length ≤ 512 ∧
      e = ⟨(bytesText items).length, some (bytesText items),
        some (strncpy text (toInt32 text.length).toNat ++ [0])⟩ := by
  simp only [findEdidforTextFile] at h
  cases h2 : readEdidDataforTextFile p EdidRec.fresh with
  | fault => rw [h2] at h; simp [Res.bind] at h
  | fuel => rw [h2] at h; simp [Res.bind] at h
  | ret y =>
    rw [h2] at h
    obtain ⟨b2, q2, e2⟩ := y
    simp only [Res.ret_bind] at h
    split at h
    · simp at h
    · rename_i hb2
      have hb2' : b2 = true := by simpa using hb2
      subst hb2'
      obtain ⟨items, gap, col, rest1, hw, hgap, hhead, hcol, hd, rfl, rfl, hl1, hl2⟩ :=
        readEdidDataforTextFile_sound h2
      cases h3 : readMonitorNameforTextFile
          (p.advance ((renderText items).length + (1 + col.length)))
          { EdidRec.fresh with size := (bytesText items).length,
                               bytes := some (bytesText items) } with
      | fault => rw [h3] at h; simp [Res.bind] at h
      | fuel => rw [h3] at h; simp [Res.bind] at h
      | ret z =>
        rw [h3] at h
        obtain ⟨b3, q3, e3⟩ := z
        simp only [Res.ret_bind] at h
        split at h
        · simp at h
        · rename_i hb3
          have hb3' : b3 = true := by simpa using hb3
          subst hb3'
          simp only [Res.ret.injEq, Prod.mk.injEq, Option.some.injEq] at h
          obtain ⟨rfl, rfl⟩ := h
          obtain ⟨lead, mid, x, text, rest, hf, hmid, rfl, hlen, hn1, hn2, rfl⟩ :=
            readMonitorNameforTextFile_sound h3
          have hd1 : p.mem.drop p.current =
              (renderText items ++ gap :: col) ++ (13 :: 10 :: 13 :: 10 :: rest1) := by
            rw [hd]
            simp
          have hd2 := (drop_append_of_drop hd1).1
          simp only [FileRec.advance_mem, FileRec.advance_current] at hf
          have e1 : p.current + (renderText items ++ gap :: col).length =
              p.current + ((renderText items).length + (1 + col.length)) := by
            simp only [List.length_append, List.length_cons]
            omega
          rw [e1, hf] at hd2
          refine ⟨items, gap, col, 13 :: 10 :: 13 :: 10 :: rest1, lead, mid, x, text, rest,
            hw, hgap, hhead, hcol, ⟨rest1, rfl⟩, hd, hd2.symm, hmid, ?_, ?_, hl1, hl2,
            hn1, hn2, rfl⟩
          · simp only [FileRec.advance_advance]
            congr 1
            omega
          · simpa only [FileRec.advance_length] using hlen

theorem bytesLog_length (items : List LogItem) :
    (bytesLog items).length = items.countP LogItem.isPair := by
  induction items with
  | nil => rfl
  | cons i items ih =>
    cases i <;>
      simp [bytesLog, LogItem.bytes, LogItem.isPair, List.countP_cons, ih]

theorem bytesText_length (items : List TextItem) :
    (bytesText items).length = items.countP TextItem.isPair := by
  induction items with
  | nil => rfl
  | cons i items ih =>
    cases i <;>
      simp [bytesText, TextItem.bytes, TextItem.isPair, List.countP_cons, ih]

theorem strncpy_length (src : List Nat) (n : Nat) : (strncpy src n).length = n := by
  have h1 : (cString (src.take n)).length ≤ (src.take n).length :=
    (List.takeWhile_sublist _).length_le
  have h2 : (src.take n).length ≤ n := by simp [List.length_take]
  simp only [strncpy, List.length_append, List.length_replicate]
  omega

theorem cString_length_le (x : List Nat) : (cString x).length ≤ x.length :=
  (List.takeWhile_sublist _).length_le

/-- The name buffer that a captured text of `int` length 1 to 512 is stored in:
so many bytes and a closing NUL; read as a C string it is the first so many
characters of the text, cut at their first NUL byte. -/
theorem name_buffer (text : List Nat) (h1 : 1 ≤ toInt32 text.length)
    (h2 : toInt32 text.length ≤ 512) :
    ∃ n buf, n = text.length % 4294967296 ∧ 1 ≤ n ∧ n ≤ 512 ∧ n ≤ text.length ∧
      strncpy text (toInt32 text.length).toNat ++ [0] = buf ++ [0] ∧ buf.length = n ∧
      cString (buf ++ [0]) = cString (text.take n) ∧ (cString (buf ++ [0])).length ≤ 512 ∧
      (0 ∉ text.take n → buf = text.take n) ∧
      (text.length < 2147483648 → n = text.length) := by
  obtain ⟨hv, hle, hn1⟩ := toInt32_pos h1
  have hn : (toInt32 text.length).toNat = text.length % 4294967296 := by
    rw [hv, Int.toNat_ofNat]
  have h512 : text.length % 4294967296 ≤ 512 := by omega
  have hc := cString_strncpy_take text [] (text.length % 4294967296) hle
  rw [List.append_nil] at hc
  refine ⟨_, strncpy text (text.length % 4294967296), rfl, hn1, h512, hle, by rw [hn],
    strncpy_length _ _, hc, ?_, ?_, ?_⟩
  · rw [hc]
    have := cString_length_le (text.take (text.length % 4294967296))
    rw [List.length_take] at this
    omega
  · intro h0
    have h := strncpy_of_no_nul (text.drop (text.length % 4294967296)) h0
    rw [List.take_append_drop, List.length_take, Nat.min_eq_left hle] at h
    exact h
  · intro hs
    exact Nat.mod_eq_of_lt (by omega)

/-- C11 (as amended). The record invariant. A record that `findEdidforLogFile`
returns was read, from the cursor on, from a text, the header, a well-formed
token stream, the footer literal, the text of the name and the terminator; one
that `findEdidforTextFile` returns was read from a well-formed token stream,
the end of the table, a text, the label `Monitor Name`, characters other than
the colon, the colon and one more character, the text of the name and CR LF.
In both cases the bytes of the record are the bytes of the hex pairs of the
stream, in order; their number is `size`, it is the number of pair tokens of
the stream, it is at least 1 and at most 4095 (so at most 4096); the `int`
length `n` of the text of the name is 1 to 512, and the name is a buffer of `n`
bytes and a closing NUL which, read as a C string, is the first `n` characters
of the text cut at their first NUL byte: at most 512 characters, exactly `n`
when those characters hold no NUL byte, and `n` is the length of the text when
the text is shorter than 2^31 bytes. -/
theorem C11_record_invariant (p q : FileRec) (e : EdidRec) :
    (findEdidforLogFile p = .ret (some e, q) →
      ∃ gap items text rest n buf, (∀ i ∈ items, i.wf = true) ∧
        p.mem.drop p.current =
          gap ++ (HEADER ++ (renderLog items ++ (FOOTER ++ (text ++ (TERMINATOR ++ rest))))) ∧
        q = p.advance (gap.length + 15 + (renderLog items).length + 20 + text.length) ∧
        e.bytes = some (bytesLog items) ∧ e.size = (bytesLog items).length ∧
        e.size = items.countP LogItem.isPair ∧ 1 ≤ e.size ∧ e.size ≤ 4095 ∧ e.size ≤ 4096 ∧
        n = text.length % 4294967296 ∧ 1 ≤ n ∧ n ≤ 512 ∧ n ≤ text.length ∧
        e.name = some (buf ++ [0]) ∧ buf.length = n ∧
        e.nameString = some (cString (text.take n)) ∧ (cString (text.take n)).length ≤ 512 ∧
        (0 ∉ text.take n → buf = text.take n ∧ e.nameString = some (text.take n)) ∧
        (text.length < 2147483648 → n = text.length)) ∧
    (findEdidforTextFile p = .ret (some e, q) →
      ∃ items gap col after lead mid x text rest n buf,
        wfText items (gap :: (col ++ after)) = true ∧
        isspace gap = true ∧ isspace ((col ++ [13]).headD 0) = true ∧ ¬ CRLF <:+: col ∧
        (CRLF ++ CRLF) <+: after ∧
        p.mem.drop p.current = renderText items ++ gap :: (col ++ after) ∧
        after = lead ++ (MONITOR_NAME ++ (mid ++ 58 :: x :: (text ++ (CRLF ++ rest)))) ∧
        58 ∉ mid ∧
        q = p.advance ((renderText items).length + 1 + col.length + lead.length + 12 +
          mid.length + 2 + text.length) ∧
        e.bytes = some (bytesText items) ∧ e.size = (bytesText items).length ∧
        e.size = items.countP TextItem.isPair ∧ 1 ≤ e.size ∧ e.size ≤ 4095 ∧ e.size ≤ 4096 ∧
        n = text.length % 4294967296 ∧ 1 ≤ n ∧ n ≤ 512 ∧ n ≤ text.length ∧
        e.name = some (buf ++ [0]) ∧ buf.length = n ∧
        e.nameString = some (cString (text.take n)) ∧ (cString (text.take n)).length ≤ 512 ∧
        (0 ∉ text.take n → buf = text.take n ∧ e.nameString = some (text.take n)) ∧
        (text.length < 2147483648 → n = text.length)) := by
  constructor
  · intro h
    obtain ⟨gap, items, text, rest, hw, hd, hq, -, hl1, hl2, hn1, hn2, rfl⟩ :=
      findEdidforLogFile_sound h
    obtain ⟨n, buf, hn, h1, h512, hle, hbuf, hlen, hc, hcl, h0, hs⟩ := name_buffer text hn1 hn2
    rw [hc] at hcl
    refine ⟨gap, items, text, rest, n, buf, hw, hd, hq, rfl, rfl, bytesLog_length items, hl1,
      hl2, by simp only []; omega, hn, h1, h512, hle, by rw [← hbuf], hlen, ?_, hcl, ?_, hs⟩
    · simp only [EdidRec.nameString, Option.map_some', hbuf, hc]
    · intro hz
      refine ⟨h0 hz, ?_⟩
      simp only [EdidRec.nameString, Option.map_some', hbuf, hc, cString_of_no_nul hz]
  · intro h
    obtain ⟨items, gap, col, after, lead, mid, x, text, rest, hw, hgap, hhead, hcol, haft, hd,
      hafter, hmid, hq, -, hl1, hl2, hn1, hn2, rfl⟩ := findEdidforTextFile_sound h
    obtain ⟨n, buf, hn, h1, h512, hle, hbuf, hlen, hc, hcl, h0, hs⟩ := name_buffer text hn1 hn2
    rw [hc] at hcl
    refine ⟨items, gap, col, after, lead, mid, x, text, rest, n, buf, hw, hgap, hhead, hcol,
      haft, hd, hafter, hmid, hq, rfl, rfl, bytesText_length items, hl1, hl2,
      by simp only []; omega, hn, h1, h512, hle, by rw [← hbuf], hlen, ?_, hcl, ?_, hs⟩
    · simp only [EdidRec.nameString, Option.map_some', hbuf, hc]
    · intro hz
      refine ⟨h0 hz, ?_⟩
      simp only [EdidRec.nameString, Option.map_some', hbuf, hc, cString_of_no_nul hz]

set_option maxRecDepth 100000 in
theorem C11_record_invariant_witness :
    (
      ∃ gap items text rest n buf, (∀ i ∈ items, i.wf = true) ∧
        (⟨invariantLog, [], 0⟩ : FileRec).mem.drop (⟨invariantLog, [], 0⟩ : FileRec).current =
          gap ++ (HEADER ++ (renderLog items ++ (FOOTER ++ (text ++ (TERMINATOR ++ rest))))) ∧
        (⟨invariantLog, [], 47⟩ : FileRec) = (⟨invariantLog, [], 0⟩ : FileRec).advance (gap.length + 15 + (renderLog items).length + 20 + text.length) ∧
        (⟨2, some [0, 255], some (bytesOf "DFP-1" ++ [0])⟩ : EdidRec).bytes = some (bytesLog items) ∧ (⟨2, some [0, 255], some (bytesOf "DFP-1" ++ [0])⟩ : EdidRec).size = (bytesLog items).length ∧
        (⟨2, some [0, 255], some (bytesOf "DFP-1" ++ [0])⟩ : EdidRec).size = items.countP LogItem.isPair ∧ 1 ≤ (⟨2, some [0, 255], some (bytesOf "DFP-1" ++ [0])⟩ : EdidRec).size ∧ (⟨2, some [0, 255], some (bytesOf "DFP-1" ++ [0])⟩ : EdidRec).size ≤ 4095 ∧ (⟨2, some [0, 255], some (bytesOf "DFP-1" ++ [0])⟩ : EdidRec).size ≤ 4096 ∧
        n = text.length % 4294967296 ∧ 1 ≤ n ∧ n ≤ 512 ∧ n ≤ text.length ∧
        (⟨2, some [0, 255], some (bytesOf "DFP-1" ++ [0])⟩ : EdidRec).name = some (buf ++ [0]) ∧ buf.length = n ∧
        (⟨2, some [0, 255], some (bytesOf "DFP-1" ++ [0])⟩ : EdidRec).nameString = some (cString (text.take n)) ∧ (cString (text.take n)).length ≤ 512 ∧
        (0 ∉ text.take n → buf = text.take n ∧ (⟨2, some [0, 255], some (bytesOf "DFP-1" ++ [0])⟩ : EdidRec).nameString = some (text.take n)) ∧
        (text.length < 2147483648 → n = text.length)) ∧
    (
      ∃ items gap col after lead mid x text rest n buf,
        wfText items (gap :: (col ++ after)) = true ∧
        isspace gap = true ∧ isspace ((col ++ [13]).headD 0) = true ∧ ¬ CRLF <:+: col ∧
        (CRLF ++ CRLF) <+: after ∧
        (⟨invariantText, [], 0⟩ : FileRec).mem.drop (⟨invariantText, [], 0⟩ : FileRec).current = renderText items ++ gap :: (col ++ after) ∧
        after = lead ++ (MONITOR_NAME ++ (mid ++ 58 :: x :: (text ++ (CRLF ++ rest)))) ∧
        58 ∉ mid ∧
        (⟨invariantText, [], 27⟩ : FileRec) = (⟨invariantText, [], 0⟩ : FileRec).advance ((renderText items).length + 1 + col.length + lead.length + 12 +
          mid.length + 2 + text.length) ∧
        (⟨2, some [0, 255], some (bytesOf "AB" ++ [0])⟩ : EdidRec).bytes = some (bytesText items) ∧ (⟨2, some [0, 255], some (bytesOf "AB" ++ [0])⟩ : EdidRec).size = (bytesText items).length ∧
        (⟨2, some [0, 255], some (bytesOf "AB" ++ [0])⟩ : EdidRec).size = items.countP TextItem.isPair ∧ 1 ≤ (⟨2, some [0, 255], some (bytesOf "AB" ++ [0])⟩ : EdidRec).size ∧ (⟨2, some [0, 255], some (bytesOf "AB" ++ [0])⟩ : EdidRec).size ≤ 4095 ∧ (⟨2, some [0, 255], some (bytesOf "AB" ++ [0])⟩ : EdidRec).size ≤ 4096 ∧
        n = text.length % 4294967296 ∧ 1 ≤ n ∧ n ≤ 512 ∧ n ≤ text.length ∧
        (⟨2, some [0, 255], some (bytesOf "AB" ++ [0])⟩ : EdidRec).name = some (buf ++ [0]) ∧ buf.length = n ∧
        (⟨2, some [0, 255], some (bytesOf "AB" ++ [0])⟩ : EdidRec).nameString = some (cString (text.take n)) ∧ (cString (text.take n)).length ≤ 512 ∧
        (0 ∉ text.take n → buf = text.take n ∧ (⟨2, some [0, 255], some (bytesOf "AB" ++ [0])⟩ : EdidRec).nameString = some (text.take n)) ∧
        (text.length < 2147483648 → n = text.length)) :=
  ⟨(C11_record_invariant ⟨invariantLog, [], 0⟩ ⟨invariantLog, [], 47⟩
      ⟨2, some [0, 255], some (bytesOf "DFP-1" ++ [0])⟩).1 (by decide),
    (C11_record_invariant ⟨invariantText, [], 0⟩ ⟨invariantText, [], 27⟩
      ⟨2, some [0, 255], some (bytesOf "AB" ++ [0])⟩).2 (by decide)⟩

set_option maxRecDepth 100000 in
/-- C11 fails as stated. With a NUL byte right after the footer literal the
captured text (NUL, `x`) has length 2 and `findEdidforLogFile` returns a record,
but the name of that record, as a C string, is empty; the same happens in
`findEdidforTextFile` with a NUL byte two characters after the colon. -/
theorem C11_counterexample :
    findEdidforLogFile
        ⟨bytesOf "Raw EDID bytes: 00 --- End of EDID for " ++ [0, 120] ++ bytesOf " ---" ++ [10],
          [], 0⟩ =
      .ret (some ⟨1, some [0], some [0, 0, 0]⟩,
        ⟨bytesOf "Raw EDID bytes: 00 --- End of EDID for " ++ [0, 120] ++ bytesOf " ---" ++ [10],
          [], 41⟩) ∧
    EdidRec.nameString ⟨1, some [0], some [0, 0, 0]⟩ = some [] ∧
    findEdidforTextFile
        ⟨bytesOf "00  " ++ CRLF ++ CRLF ++ bytesOf "Monitor Name: " ++ [0, 120] ++ CRLF, [], 0⟩ =
      .ret (some ⟨1, some [0], some [0, 0, 0]⟩,
        ⟨bytesOf "00  " ++ CRLF ++ CRLF ++ bytesOf "Monitor Name: " ++ [0, 120] ++ CRLF,
          [], 24⟩) := by
  decide

/-! ## The report and the list of the scan loop -/

theorem attempts_length (writeEdidFile : Nat → EdidRec → Bool) (pEdids : List EdidRec) :
    ∀ i, (attempts writeEdidFile i pEdids).length = pEdids.length := by
  induction pEdids with
  | nil => intro i; rfl
  | cons e es ih => intro i; simp [attempts, ih]

theorem append_cons_split {x y : Nat} {r t : List Nat} : ∀ {a s : List Nat},
    a ++ x :: r = s ++ y :: t → a.length ≤ s.length → x ∈ s ∨ x = y := by
  intro a
  induction a with
  | nil =>
    intro s h _
    cases s with
    | nil =>
      simp only [List.nil_append, List.cons.injEq] at h
      exact Or.inr h.1
    | cons s0 s1 =>
      simp only [List.nil_append, List.cons_append, List.cons.injEq] at h
      exact Or.inl (by rw [h.1]; exact List.mem_cons_self _ _)
  | cons a0 a1 ih =>
    intro s h hle
    cases s with
    | nil => simp at hle
    | cons s0 s1 =>
      simp only [List.cons_append, List.cons.injEq] at h
      rcases ih h.2 (by simpa using hle) with h1 | h1
      · exact Or.inl (List.mem_cons_of_mem _ h1)
      · exact Or.inr h1

theorem FileRec.drop_mem (p : FileRec) (hcur : p.current ≤ p.length) :
    p.mem.drop p.current = p.start.drop p.current ++ p.beyond := by
  rw [FileRec.mem, List.drop_append_of_le_length hcur]

/-- A decoder that fails leaves the record as it was. -/
theorem saveEdidData_false {e e' : EdidRec} {r : Bool × FileRec × Nat × List Nat} {q : FileRec}
    (h : saveEdidData e r = (false, q, e')) : e' = e := by
  simp only [saveEdidData] at h
  repeat' split at h
  all_goals
    simp only [Prod.mk.injEq] at h
    first
      | exact h.2.2.symm
      | exact absurd h.1 (by simp)

theorem readEdidDataforLogFile_false {p q : FileRec} {e e' : EdidRec}
    (h : readEdidDataforLogFile p e = .ret (false, q, e')) : e' = e := by
  rw [readEdidDataforLogFile] at h
  cases hl : readEdidDataforLogFile.loop (p.length + 2) p STATE_LOOKING_FOR_TOP_NIBBLE 0
      (List.replicate MAX_EDID_SIZE 0) with
  | fault => rw [hl] at h; simp [Res.bind] at h
  | fuel => rw [hl] at h; simp [Res.bind] at h
  | ret x =>
    rw [hl] at h
    simp only [Res.ret_bind, Res.ret.injEq] at h
    exact saveEdidData_false h

theorem readEdidDataforTextFile_false {p q : FileRec} {e e' : EdidRec}
    (h : readEdidDataforTextFile p e = .ret (false, q, e')) : e' = e := by
  rw [readEdidDataforTextFile] at h
  cases hl : readEdidDataforTextFile.loop (p.length + 2) p STATE_LOOKING_FOR_TOP_NIBBLE 0
      (List.replicate MAX_EDID_SIZE 0) with
  | fault => rw [hl] at h; simp [Res.bind] at h
  | fuel => rw [hl] at h; simp [Res.bind] at h
  | ret x =>
    rw [hl] at h
    simp only [Res.ret_bind, Res.ret.injEq] at h
    exact saveEdidData_false h

/-- Truncated log data with a readable byte after the view: when no `-` stands
in the view from the cursor on and the byte after the view is readable and is
not `-`, the log decoder returns failure and leaves the record as it was. -/
theorem readEdidDataforLogFile_no_dash {p : FileRec} (e : EdidRec) {b : Nat} {rest : List Nat}
    (hcur : p.current ≤ p.length) (hb : p.beyond = b :: rest) (hb45 : b ≠ 45)
    (hno : 45 ∉ p.start.drop p.current) :
    ∃ q, readEdidDataforLogFile p e = .ret (false, q, e) := by
  rcases readEdidDataforLogFile_total p e hcur with ⟨r, hr⟩ | ⟨-, hnil⟩
  · obtain ⟨ok, q, e'⟩ := r
    cases ok with
    | false =>
      have := readEdidDataforLogFile_false hr
      subst this
      exact ⟨q, hr⟩
    | true =>
      exfalso
      obtain ⟨items, rest', -, hd, hq, -, -, -⟩ := readEdidDataforLogFile_sound hr
      obtain ⟨-, -, -, hle, -⟩ := readEdidDataforLogFile_frame hr
      have hle := hle hcur
      simp only [] at hle
      rw [hq, FileRec.advance_current] at hle
      rw [p.drop_mem hcur, hb] at hd
      rcases append_cons_split hd.symm (by
          simp only [List.length_drop, FileRec.length] at hle ⊢
          omega) with h1 | h1
      · exact hno h1
      · exact hb45 h1.symm
  · rw [hb] at hnil
    exact absurd hnil (by simp)

theorem FileRec.peek_some {p : FileRec} {i : Nat} (h : p.current + i < p.mem.length) :
    ∃ c, p.peek i = some c :=
  ⟨_, by rw [FileRec.peek, List.getElem?_eq_getElem h]⟩

/-- With a zero byte after the view, a byte other than zero that is read at or
before the end of the view lies inside the view, so that the byte after it is
readable. -/
theorem FileRec.peek_succ {p : FileRec} {i c : Nat} (hz : p.mem[p.length]? = some 0)
    (hi : p.current + i ≤ p.length) (hp : p.peek i = some c) (hc : c ≠ 0) :
    p.current + (i + 1) ≤ p.length ∧ ∃ d, p.peek (i + 1) = some d := by
  have hlt : p.current + i < p.length := by
    by_contra hlt
    have e1 : p.current + i = p.length := by omega
    rw [FileRec.peek, e1, hz] at hp
    exact hc (Option.some.inj hp).symm
  have hmem := (List.getElem?_eq_some_iff.1 hz).1
  exact ⟨by omega, FileRec.peek_some (by omega)⟩

/-- With a zero byte after the view, the text state machine returns, with the
cursor inside the view or at its end. -/
theorem text_loop_zero (fuel : Nat) : ∀ (p : FileRec) (state k : Nat) (pData : List Nat),
    p.current ≤ p.length → p.length + 1 ≤ fuel + p.current → p.mem[p.length]? = some 0 →
    ∃ r, readEdidDataforTextFile.loop fuel p state k pData = .ret r ∧
      r.2.1.current ≤ p.length := by
  induction fuel with
  | zero => intro p state k pData h1 h2; omega
  | succ n ih =>
    intro p state k pData hcur hfuel hz
    have hmem := (List.getElem?_eq_some_iff.1 hz).1
    obtain ⟨c, hp⟩ := FileRec.peek_some (p := p) (i := 0) (by omega)
    have hnext : ∀ (state k : Nat) (pData : List Nat),
        ∃ r, readEdidDataforTextFile.next n p state k pData = .ret r ∧
          r.2.1.current ≤ p.length := by
      intro state k pData
      rw [readEdidDataforTextFile.next]
      split
      · exact ⟨_, rfl, hcur⟩
      · exact ih (p.advance 1) state k pData
          (by simp only [FileRec.advance_length, FileRec.advance_current]; omega)
          (by simp only [FileRec.advance_length, FileRec.advance_current]; omega)
          (by simpa only [FileRec.advance_length, FileRec.advance_mem] using hz)
    have h0 : ∀ {i d : Nat}, p.current + i ≤ p.length → p.peek i = some d → d ≠ 0 →
        p.current + (i + 1) ≤ p.length ∧ ∃ d', p.peek (i + 1) = some d' :=
      fun hi hd hne => FileRec.peek_succ hz hi hd hne
    rw [text_step_peek hp]
    by_cases hs0 : state = STATE_LOOKING_FOR_TOP_NIBBLE
    · rw [if_pos hs0]
      by_cases hx : IS_HEX c = true
      · rw [if_pos hx]; exact hnext _ _ _
      · rw [if_neg hx]
        by_cases h45 : c = 45
        · rw [if_pos h45]; exact hnext _ _ _
        · rw [if_neg h45]
          by_cases hsp : isspace c = true
          · rw [if_pos hsp]
            obtain ⟨-, c1, hp1⟩ := h0 (i := 0) (by omega) hp (by rintro rfl; simp [isspace] at hsp)
            rw [hp1]
            simp only []
            split <;> exact hnext _ _ _
          · rw [if_neg hsp]; exact ⟨_, rfl, hcur⟩
    · rw [if_neg hs0]
      by_cases hs1 : state = STATE_LOOKING_FOR_BOTTOM_NIBBLE
      · rw [if_pos hs1]
        split
        · split
          · exact ⟨_, rfl, hcur⟩
          · exact hnext _ _ _
        · exact ⟨_, rfl, hcur⟩
      · rw [if_neg hs1]
        by_cases hs2 : state = STATE_LOOKING_FOR_END_OF_LABEL
        · rw [if_pos hs2]
          by_cases h13 : c = 13
          · rw [if_pos h13]
            obtain ⟨hi1, c1, hp1⟩ := h0 (i := 0) (by omega) hp (by omega)
            rw [hp1]
            simp only []
            by_cases h10 : c1 = 10
            · rw [if_pos h10]
              obtain ⟨hi2, c2, hp2⟩ := h0 hi1 hp1 (by omega)
              rw [hp2]
              simp only []
              by_cases h213 : c2 = 13
              · rw [if_pos h213]
                obtain ⟨-, c3, hp3⟩ := h0 hi2 hp2 (by omega)
                rw [hp3]
                simp only []
                split
                · exact ⟨_, rfl, hcur⟩
                · exact hnext _ _ _
              · rw [if_neg h213]; exact hnext _ _ _
            · rw [if_neg h10]; exact hnext _ _ _
          · rw [if_neg h13]; exact hnext _ _ _
        · rw [if_neg hs2]; exact ⟨_, rfl, hcur⟩

theorem infix_of_append_eq {a c r s t : List Nat} (h : a ++ (c ++ r) = s ++ t)
    (hle : a.length + c.length ≤ s.length) : c <:+: s := by
  have h1 : (a ++ c) <+: (s ++ t) := ⟨r, by rw [← h, List.append_assoc]⟩
  have h2 : s <+: (s ++ t) := List.prefix_append _ _
  obtain ⟨u, hu⟩ := List.prefix_of_prefix_length_le h1 h2 (by simpa using hle)
  exact ⟨a, u, hu⟩

/-- Truncated text data with a zero byte after the view: when no CR LF CR LF
stands in the view from the cursor on and a zero byte follows the view, the
text decoder returns failure and leaves the record as it was. -/
theorem readEdidDataforTextFile_no_end {p : FileRec} (e : EdidRec) {rest : List Nat}
    (hcur : p.current ≤ p.length) (hb : p.beyond = 0 :: rest)
    (hno : ¬ (CRLF ++ CRLF) <:+: p.start.drop p.current) :
    ∃ q, readEdidDataforTextFile p e = .ret (false, q, e) := by
  have hz : p.mem[p.length]? = some 0 := by
    rw [FileRec.mem, FileRec.length, hb, List.getElem?_append_right (Nat.le_refl _),
      Nat.sub_self, List.getElem?_cons_zero]
  obtain ⟨r, hr, hle⟩ := text_loop_zero (p.length + 2) p STATE_LOOKING_FOR_TOP_NIBBLE 0
    (List.replicate MAX_EDID_SIZE 0) hcur (by omega) hz
  have hcall : readEdidDataforTextFile p e = .ret (saveEdidData e r) := by
    rw [readEdidDataforTextFile, hr]; rfl
  obtain ⟨hc, -⟩ := saveEdidData_cursor e r
  cases hok : (saveEdidData e r).1 with
  | false =>
    have hform : saveEdidData e r = (false, (saveEdidData e r).2.1, (saveEdidData e r).2.2) := by
      rw [← hok]
    rw [hform] at hcall
    have := readEdidDataforTextFile_false hcall
    rw [this] at hcall
    exact ⟨_, hcall⟩
  | true =>
    exfalso
    have hform : saveEdidData e r = (true, (saveEdidData e r).2.1, (saveEdidData e r).2.2) := by
      rw [← hok]
    rw [hform] at hcall
    obtain ⟨items, gap, col, rest', -, -, -, -, hd, hq, -, -, -⟩ :=
      readEdidDataforTextFile_sound hcall
    rw [hc] at hq
    rw [hq, FileRec.advance_current] at hle
    rw [p.drop_mem hcur, hb] at hd
    have hS : (p.start.drop p.current).length = p.length - p.current := by
      simp only [List.length_drop, FileRec.length]
    have hd2 : (renderText items ++ gap :: col) ++ ((CRLF ++ CRLF) ++ rest') =
        p.start.drop p.current ++ 0 :: rest := by
      rw [hd]
      simp [CRLF]
    have hA : (renderText items ++ gap :: col).length =
        (renderText items).length + (1 + col.length) := by
      simp only [List.length_append, List.length_cons]; omega
    by_cases h4 : (renderText items ++ gap :: col).length + 4 ≤ (p.start.drop p.current).length
    · exact hno (infix_of_append_eq hd2 (by simpa [CRLF] using h4))
    · -- one of the four characters is the zero after the view
      have hidx := congrArg (fun l => l[(p.start.drop p.current).length]?) hd2
      simp only [] at hidx
      rw [List.getElem?_append_right (Nat.le_refl _), Nat.sub_self] at hidx
      rw [List.getElem?_append_right (by omega)] at hidx
      have hdlt : (p.start.drop p.current).length - (renderText items ++ gap :: col).length < 4 := by
        omega
      generalize (p.start.drop p.current).length - (renderText items ++ gap :: col).length = d
        at hidx hdlt
      interval_cases d <;> simp [CRLF] at hidx

/-- Truncated text data with nothing readable after the view: when the view
ends after a well-formed stream, the text decoder reads the byte after the
view. -/
theorem text_decode_truncated {p : FileRec} {items : List TextItem} (pEdid : EdidRec)
    (hw : wfText items [] = true)
    (hd : p.start.drop p.current = renderText items) (hb : p.beyond = [])
    (h2 : (bytesText items).length < MAX_EDID_SIZE) (hcur : p.current ≤ p.length) :
    readEdidDataforTextFile p pEdid = .fault := by
  have hlen : p.current + (renderText items).length = p.length := by
    have := congrArg List.length hd
    simp only [List.length_drop] at this
    simp only [FileRec.length] at hcur ⊢
    omega
  have hd2 := @FileRec.drop_advance p (renderText items) [] (by simpa using hd)
  obtain ⟨n, hn⟩ : ∃ n, p.length + 2 = (n + 1) + (renderText items).length :=
    ⟨p.current + 1, by omega⟩
  have := text_items items p [] (n + 1) [] hw (by simpa using hd) (by simpa using h2)
  simp only [List.length_nil, List.nil_append] at this
  have hs : scratch [] = List.replicate MAX_EDID_SIZE 0 := by simp [scratch]
  rw [hs] at this
  rw [readEdidDataforTextFile, hn, this, readEdidDataforTextFile.loop,
    FileRec.peek_end hd2 (by simpa using hb)]
  rfl

/-- A header whose data holds no `-` up to the end of the view, with a readable
byte other than `-` after the view: `findEdidforLogFile` returns no record. -/
theorem findEdidforLogFile_cut {p : FileRec} (s data : List Nat) {b : Nat} {rest : List Nat}
    (hd : p.start.drop p.current = s ++ HEADER ++ data)
    (hs : ¬ HEADER <:+: s) (hno : 45 ∉ data) (hb : p.beyond = b :: rest) (hb45 : b ≠ 45) :
    ∃ q, findEdidforLogFile p = .ret (none, q) := by
  have hlen := (drop_append_of_drop hd).2 (by simp [HEADER, bytesOf])
  simp only [List.length_append, HEADER_length] at hlen
  have hfind : findEdidHeaderforLogFile p = .ret (true, p.advance (s.length + 15)) := by
    rw [findEdidHeaderforLogFile, headerLoop_eq,
      search_in 15 HEADER (t := bytesOf "aw EDID bytes:") (a := 82) (by decide) (by decide)
        hs hd (by rw [HEADER_length]; omega) (p.length + 1)
        (by simp only [FileRec.length]; omega)]
    simp [FileRec.advance_advance]
  have hd2 : (p.advance (s.length + 15)).start.drop (p.advance (s.length + 15)).current =
      data := by
    have := FileRec.drop_advance hd
    simpa [HEADER_length] using this
  obtain ⟨q, hq⟩ := @readEdidDataforLogFile_no_dash (p.advance (s.length + 15)) EdidRec.fresh
    b rest
    (by simp only [FileRec.advance_current, FileRec.advance_length]
        simp only [FileRec.length]; omega)
    (by simpa using hb) hb45 (by rw [hd2]; exact hno)
  refine ⟨q, ?_⟩
  rw [findEdidforLogFile, hfind]
  simp only [Res.ret_bind, Bool.not_true, Bool.false_eq_true, if_false]
  rw [hq]
  rfl

theorem bytesLog_space (c : Nat) (items : List LogItem) :
    bytesLog (.space c :: items) = bytesLog items := rfl

theorem renderLog_space (c : Nat) (items : List LogItem) :
    renderLog (.space c :: items) = c :: renderLog items := rfl

theorem bytesText_dash (items : List TextItem) :
    bytesText (.dash :: items) = bytesText items := rfl

theorem renderText_dash (items : List TextItem) :
    renderText (.dash :: items) = 45 :: renderText items := rfl

theorem wfText_dash (items : List TextItem) (f : List Nat) :
    wfText (.dash :: items) f = wfText items f := by
  simp only [wfText, TextItem.ok, Bool.true_and]

theorem zeroPairs_wf (n : Nat) : ∀ i ∈ zeroPairs n, i.wf = true := by
  induction n with
  | zero => intro i hi; simp [zeroPairs] at hi
  | succ n ih =>
    intro i hi
    simp only [zeroPairs, List.mem_cons] at hi
    rcases hi with rfl | rfl | hi
    · decide
    · decide
    · exact ih i hi

theorem renderLog_zeroPairs (n : Nat) :
    (renderLog (zeroPairs n)).length = 3 * n ∧ (bytesLog (zeroPairs n)).length = n ∧
      45 ∉ renderLog (zeroPairs n) := by
  induction n with
  | zero => simp [zeroPairs, renderLog, bytesLog]
  | succ n ih =>
    obtain ⟨h1, h2, h3⟩ := ih
    have e1 : renderLog (zeroPairs (n + 1)) = 48 :: 48 :: 32 :: renderLog (zeroPairs n) := rfl
    have e2 : bytesLog (zeroPairs (n + 1)) = 0 :: bytesLog (zeroPairs n) := rfl
    rw [e1, e2]
    refine ⟨by simp only [List.length_cons]; omega, by simp only [List.length_cons]; omega, ?_⟩
    simp only [List.mem_cons, not_or]
    exact ⟨by decide, by decide, by decide, h3⟩

theorem zeroDashes_wf (n : Nat) (f : List Nat) : wfText (zeroDashes n) f = true := by
  induction n with
  | zero => rfl
  | succ n ih =>
    simp only [zeroDashes, wfText, TextItem.ok, ih, Bool.and_true, decide_eq_true_eq]
    decide

theorem renderText_zeroDashes (n : Nat) :
    (renderText (zeroDashes n)).length = 3 * n ∧ (bytesText (zeroDashes n)).length = n ∧
      13 ∉ renderText (zeroDashes n) := by
  induction n with
  | zero => simp [zeroDashes, renderText, bytesText]
  | succ n ih =>
    obtain ⟨h1, h2, h3⟩ := ih
    have e1 : renderText (zeroDashes (n + 1)) = 48 :: 48 :: 45 :: renderText (zeroDashes n) := rfl
    have e2 : bytesText (zeroDashes (n + 1)) = 0 :: bytesText (zeroDashes n) := rfl
    rw [e1, e2]
    refine ⟨by simp only [List.length_cons]; omega, by simp only [List.length_cons]; omega, ?_⟩
    simp only [List.mem_cons, not_or]
    exact ⟨by decide, by decide, by decide, h3⟩

theorem not_infix_of_not_mem {a : Nat} {lit s : List Nat} (ha : a ∈ lit) (hs : a ∉ s) :
    ¬ lit <:+: s := fun h => hs (h.subset ha)

theorem logPage_facts : logPage.length = PAGE_SIZE ∧ 45 ∉ logPage := by
  obtain ⟨h1, -, h3⟩ := renderLog_zeroPairs 1365
  rw [logPage, renderLog_space]
  refine ⟨by rw [List.length_cons, h1]; rfl, ?_⟩
  simp only [List.mem_cons, not_or]
  exact ⟨by decide, h3⟩

theorem textPage_facts : textPage.length = PAGE_SIZE ∧ ¬ (CRLF ++ CRLF) <:+: textPage := by
  obtain ⟨h1, -, h3⟩ := renderText_zeroDashes 1365
  rw [textPage, renderText_dash]
  refine ⟨by rw [List.length_cons, h1]; rfl, ?_⟩
  apply @not_infix_of_not_mem 13
  · decide
  · simp only [List.mem_cons, not_or]
    exact ⟨by decide, h3⟩

theorem logPage_fault : readEdidDataforLogFile ⟨logPage, [], 0⟩ EdidRec.fresh = .fault := by
  obtain ⟨-, h2, -⟩ := renderLog_zeroPairs 1365
  apply @log_decode_truncated ⟨logPage, [], 0⟩ (.space 32 :: zeroPairs 1365) EdidRec.fresh
  · intro i hi
    rcases List.mem_cons.1 hi with rfl | hi
    · decide
    · exact zeroPairs_wf _ i hi
  · rfl
  · rfl
  · rw [bytesLog_space, h2]
    decide
  · exact Nat.zero_le _

theorem textPage_fault : readEdidDataforTextFile ⟨textPage, [], 0⟩ EdidRec.fresh = .fault := by
  obtain ⟨-, h2, -⟩ := renderText_zeroDashes 1365
  apply @text_decode_truncated ⟨textPage, [], 0⟩ (.dash :: zeroDashes 1365) EdidRec.fresh
  · rw [wfText_dash, zeroDashes_wf]
  · rfl
  · rfl
  · rw [bytesText_dash, h2]
    decide
  · exact Nat.zero_le _

theorem truncatedPage_length : truncatedPage.length = PAGE_SIZE := by
  obtain ⟨h1, -, -⟩ := renderLog_zeroPairs 1315
  have e2 : (renderTriples (sampleTriples.take 1)).length = 119 := by decide
  have e3 : (bytesOf "(--) NVIDIA(0): ").length = 16 := by decide
  rw [truncatedPage, renderLog_space]
  simp only [List.length_append, List.length_cons, e2, e3, HEADER_length, h1]
  rfl

/-- C5, the failing input. A log of exactly one page (4096 bytes): one
well-formed triple followed by a header whose data, pairs `00` separated by
spaces, is cut off by the end of the view. When the page after the mapping is
not mapped, the second call of `findEdidforLogFile` reads the byte after the
view, so the scan does not return the first record. When a zero byte follows
the view, the scan returns exactly the first record. -/
theorem C5_truncated_data_reads_past_view :
    (∀ t ∈ sampleTriples.take 1, t.wf = true) ∧
    truncatedPage.length = PAGE_SIZE ∧
    extract_edids.scan (truncatedPage.length + 1) LOG_FILE ⟨truncatedPage, [], 0⟩ [] = .fault ∧
    ∀ rest : List Nat, ∃ q,
      extract_edids.scan (truncatedPage.length + 1) LOG_FILE ⟨truncatedPage, 0 :: rest, 0⟩ [] =
        .ret ((sampleTriples.take 1).map Triple.record, q) := by
  obtain ⟨-, hb2, hno⟩ := renderLog_zeroPairs 1315
  have hwf : ∀ i ∈ LogItem.space 32 :: zeroPairs 1315, i.wf = true := by
    intro i hi
    rcases List.mem_cons.1 hi with rfl | hi
    · decide
    · exact zeroPairs_wf _ i hi
  have hfirst : ∀ beyond : List Nat,
      findEdidforLogFile ⟨truncatedPage, beyond, 0⟩ =
        .ret (some (sampleTriples.get ⟨0, by decide⟩).record,
          (⟨truncatedPage, beyond, 0⟩ : FileRec).advance 114) ∧
      ((⟨truncatedPage, beyond, 0⟩ : FileRec).advance 114).start.drop
          ((⟨truncatedPage, beyond, 0⟩ : FileRec).advance 114).current =
        (TERMINATOR ++ [10] ++ bytesOf "(--) NVIDIA(0): ") ++ HEADER ++
          renderLog (.space 32 :: zeroPairs 1315) := by
    intro beyond
    obtain ⟨h1, h2⟩ := @findEdidforLogFile_triple ⟨truncatedPage, beyond, 0⟩
      [] (sampleTriples.get ⟨0, by decide⟩)
      (bytesOf "(--) NVIDIA(0): " ++ HEADER ++ renderLog (.space 32 :: zeroPairs 1315))
      (by rfl) (by simp) (by decide)
    refine ⟨h1, ?_⟩
    rw [FileRec.advance_start, FileRec.advance_current]
    have h3 : (TERMINATOR ++ [10] ++ bytesOf "(--) NVIDIA(0): ") ++ HEADER ++
        renderLog (.space 32 :: zeroPairs 1315) =
        TERMINATOR ++ [10] ++
          (bytesOf "(--) NVIDIA(0): " ++ HEADER ++ renderLog (.space 32 :: zeroPairs 1315)) := by
      simp only [List.append_assoc]
    rw [h3]
    exact h2
  refine ⟨by decide, truncatedPage_length, ?_, ?_⟩
  · obtain ⟨h1, h2⟩ := hfirst []
    rw [scan_step h1, truncatedPage_length]
    exact scan_fault (findEdidforLogFile_truncated
      (TERMINATOR ++ [10] ++ bytesOf "(--) NVIDIA(0): ") (.space 32 :: zeroPairs 1315)
      h2 (by decide) hwf rfl (by
        rw [bytesLog_space, hb2]
        decide)) 4095 _
  · intro rest
    obtain ⟨h1, h2⟩ := hfirst (0 :: rest)
    obtain ⟨q, hq⟩ := findEdidforLogFile_cut
      (TERMINATOR ++ [10] ++ bytesOf "(--) NVIDIA(0): ") (renderLog (.space 32 :: zeroPairs 1315))
      h2 (by decide)
      (by
        rw [renderLog_space]
        simp only [List.mem_cons, not_or]
        exact ⟨by decide, hno⟩)
      (rfl : ((⟨truncatedPage, 0 :: rest, 0⟩ : FileRec).advance 114).beyond = 0 :: rest)
      (by decide)
    refine ⟨q, ?_⟩
    rw [scan_step h1, truncatedPage_length]
    exact scan_stop hq 4095 _

/-- C22, the failing inputs. A view that is cut off before the end condition of
a decoder gives failure, and no partial byte sequence, when a readable byte
that cannot end the data follows the view (for the log decoder any byte other
than `-`, for the text decoder the zero byte that fills the rest of the last
page of a mapping). When nothing readable follows the view, which is so for a
view of whole pages with no mapping after it, a decoder that reaches the end of
the view in a well-formed stream reads the byte after the view. The view of one
page (4096 bytes) made of a space and 1365 times `00` and a space holds no `-`,
and the log decoder faults on it; the view of one page made of `-` and 1365
times `00-` holds no CR LF CR LF, and the text decoder faults on it. -/
theorem C22_truncated_input_outcomes :
    (∀ (p : FileRec) (e : EdidRec) (b : Nat) (rest : List Nat), p.current ≤ p.length →
      p.beyond = b :: rest →
      (b ≠ 45 → 45 ∉ p.start.drop p.current →
        ∃ q, readEdidDataforLogFile p e = .ret (false, q, e)) ∧
      (b = 0 → ¬ (CRLF ++ CRLF) <:+: p.start.drop p.current →
        ∃ q, readEdidDataforTextFile p e = .ret (false, q, e))) ∧
    (∀ (p : FileRec) (e : EdidRec), p.current ≤ p.length → p.beyond = [] →
      (∀ items : List LogItem, (∀ i ∈ items, i.wf = true) →
        p.start.drop p.current = renderLog items → (bytesLog items).length < MAX_EDID_SIZE →
        readEdidDataforLogFile p e = .fault) ∧
      (∀ items : List TextItem, wfText items [] = true →
        p.start.drop p.current = renderText items → (bytesText items).length < MAX_EDID_SIZE →
        readEdidDataforTextFile p e = .fault)) ∧
    (logPage.length = PAGE_SIZE ∧ 45 ∉ logPage ∧
      readEdidDataforLogFile ⟨logPage, [], 0⟩ EdidRec.fresh = .fault) ∧
    (textPage.length = PAGE_SIZE ∧ ¬ (CRLF ++ CRLF) <:+: textPage ∧
      readEdidDataforTextFile ⟨textPage, [], 0⟩ EdidRec.fresh = .fault) := by
  refine ⟨?_, ?_, ⟨logPage_facts.1, logPage_facts.2, logPage_fault⟩,
    ⟨textPage_facts.1, textPage_facts.2, textPage_fault⟩⟩
  · intro p e b rest hcur hb
    refine ⟨fun hb45 hno => readEdidDataforLogFile_no_dash e hcur hb hb45 hno, ?_⟩
    rintro rfl hno
    exact readEdidDataforTextFile_no_end e hcur hb hno
  · intro p e hcur hb
    exact ⟨fun items hw hd h2 => log_decode_truncated e hw hd hb h2 hcur,
      fun items hw hd h2 => text_decode_truncated e hw hd hb h2 hcur⟩

set_option maxRecDepth 100000 in
/-- C22 on two short views with a zero byte after them: `00 ff` holds no `-`,
and `00 ff`, two spaces, CR LF holds no CR LF CR LF; both decoders return
failure and leave the record as it was. -/
theorem C22_truncated_input_outcomes_witness :
    (∃ q, readEdidDataforLogFile ⟨bytesOf "00 ff", [0], 0⟩ EdidRec.fresh =
      .ret (false, q, EdidRec.fresh)) ∧
    (∃ q, readEdidDataforTextFile ⟨bytesOf "00 ff  " ++ CRLF, [0], 0⟩ EdidRec.fresh =
      .ret (false, q, EdidRec.fresh)) :=
  ⟨(C22_truncated_input_outcomes.1 ⟨bytesOf "00 ff", [0], 0⟩ EdidRec.fresh 0 []
      (by decide) rfl).1 (by decide) (by decide),
    (C22_truncated_input_outcomes.1 ⟨bytesOf "00 ff  " ++ CRLF, [0], 0⟩ EdidRec.fresh 0 []
      (by decide) rfl).2 rfl (by decide)⟩

end ExtractEdids
